import Mathlib

/-!
Verification development for the adaptive sampling library.

The repository ships its test suite (src/adaptive/tests/test_learners.py) and
its utility module (src/adaptive/utils.py).  The concrete learner
implementations (the 1-D interval learner, the balancing coordinator and the
simple runner) are declared and exercised by the tests but their modules are
not part of the shipped sources, so they are reconstructed here from the
specification, as shallow embeddings over exact rational arithmetic.  The
utility module (restore, save, load) is embedded from its source.
-/

namespace Adaptive

/-- Modelled from the spec: the tagged per-point state of the interval
learner.  Section 9 of the spec asks for an explicit tagged state per point,
Pending or Confirmed(value).  The learner module itself (learner1D) is not
under src, so the data model is reconstructed from the spec. -/
inductive PointState
  | pending
  | confirmed (y : ℚ)
deriving DecidableEq

/-- Association list of sample points, kept sorted by x coordinate. -/
abbrev PtList := List (ℚ × PointState)

/-- Keys (x coordinates) of a point list. -/
def keysOf (l : PtList) : List ℚ := l.map Prod.fst

/-- Insert a point into the sorted association list, overwriting the stored
state when the key is already present (the spec recommends deterministic
overwrite for retold points). -/
def insertPt (x : ℚ) (s : PointState) : PtList → PtList
  | [] => [(x, s)]
  | (a, t) :: rest =>
      if x < a then (x, s) :: (a, t) :: rest
      else if x = a then (x, s) :: rest
      else (a, t) :: insertPt x s rest

/-- Sorted duplicate-free insertion of a key into a list of keys. -/
def insertX (x : ℚ) : List ℚ → List ℚ
  | [] => [x]
  | a :: rest =>
      if x < a then x :: a :: rest
      else if x = a then a :: rest
      else a :: insertX x rest

/-- Lookup of the stored state of a key. -/
def lookupPt (x : ℚ) : PtList → Option PointState
  | [] => none
  | (a, t) :: rest => if x = a then some t else lookupPt x rest

/-- Well-formedness of a point list: the keys are strictly sorted. -/
def SortedKeys (l : PtList) : Prop := List.Sorted (· < ·) (keysOf l)

/-- Modelled from the spec: the state of the one-dimensional interval learner
(module learner1D, absent from src).  Per section 3 of the spec the state is
the domain bounds plus a mapping from x to a tagged point state; the mapping
is kept as a canonically sorted association list, so that insertion order is
irrelevant, as the spec requires.  Derived structures (interval losses) are
always recomputed from this state, which the spec allows (the
recompute-losses factor is a pure performance knob pinned to always
recompute by the test suite). -/
@[ext]
structure Learner1D where
  lo : ℚ
  hi : ℚ
  pts : PtList
deriving DecidableEq

namespace Learner1D

/-- Modelled from the spec: a freshly constructed learner has bounds and no
recorded points. -/
def init (lo hi : ℚ) : Learner1D := ⟨lo, hi, []⟩

/-- Keys of all points of the learner, confirmed or pending. -/
def keys (st : Learner1D) : List ℚ := keysOf st.pts

/-- Modelled from the spec: tell records a confirmed sample; a pending point
becomes confirmed, a retold point is deterministically overwritten, and a
point never returned by ask is accepted as an out-of-band sample. -/
def tell (st : Learner1D) (x y : ℚ) : Learner1D :=
  { st with pts := insertPt x (.confirmed y) st.pts }

/-- Modelled from the spec: tell_pending marks a point as reserved without a
value; a point that already has a recorded state keeps it. -/
def tellPending (st : Learner1D) (x : ℚ) : Learner1D :=
  if x ∈ st.keys then st else { st with pts := insertPt x .pending st.pts }

/-- Sequential tell of a batch of samples. -/
def tellList (st : Learner1D) (ps : List (ℚ × ℚ)) : Learner1D :=
  ps.foldl (fun s p => s.tell p.1 p.2) st

/-- Modelled from the spec: tell_many is equivalent in final state to
sequential tell calls. -/
def tellMany (st : Learner1D) (xs ys : List ℚ) : Learner1D :=
  st.tellList (xs.zip ys)

/-- Confirmed samples of the learner, in increasing x order. -/
def dataPairs (st : Learner1D) : List (ℚ × ℚ) :=
  st.pts.filterMap (fun p =>
    match p.2 with
    | .confirmed y => some (p.1, y)
    | .pending => none)

/-- Count of confirmed samples. -/
def npoints (st : Learner1D) : ℕ := st.dataPairs.length

/-- Well-formedness: the point list is sorted by key. -/
def WF (st : Learner1D) : Prop := SortedKeys st.pts

end Learner1D

/-- Modelled from the spec: a pluggable loss strategy takes the learner
bounds, a sub-domain interval with its endpoints, and the full confirmed
data, and returns a nonnegative scalar badness. -/
abbrev LossFun := (ℚ × ℚ) → (ℚ × ℚ) → List (ℚ × ℚ) → ℚ

/-- Modelled from the spec: the uniform loss strategy ignores the data and
returns the sub-domain size, normalized by the domain width so that the loss
depends only on shape and not on absolute coordinate scale. -/
def uniformLoss : LossFun := fun bounds iv _ => (iv.2 - iv.1) / (bounds.2 - bounds.1)

/-- Quality of an interval carrying a base loss q.1 split into q.2 pieces. -/
def qualG (p : ℚ × ℕ) : ℚ := p.1 / p.2

/-- Largest quality of a list of loss-count pairs (zero for the empty list). -/
def maxQual : List (ℚ × ℕ) → ℚ
  | [] => 0
  | [p] => qualG p
  | p :: q :: rest => max (qualG p) (maxQual (q :: rest))

/-- Give one more piece to the first entry whose quality equals the target. -/
def bumpG (t : ℚ) : List (ℚ × ℕ) → List (ℚ × ℕ)
  | [] => []
  | p :: rest => if qualG p = t then (p.1, p.2 + 1) :: rest else p :: bumpG t rest

/-- One greedy step: subdivide the currently highest-quality entry once. -/
def stepG (l : List (ℚ × ℕ)) : List (ℚ × ℕ) := bumpG (maxQual l) l

/-- Modelled from the spec: the greedy distribution of m points over the
intervals; it repeatedly selects the currently highest-loss interval
(deterministic first-of-equals tie break) and subdivides it once more. -/
def runG (l : List (ℚ × ℕ)) : ℕ → List (ℚ × ℕ)
  | 0 => l
  | m + 1 => runG (stepG l) m

/-- Entry invariant for the greedy distribution: positive base loss and at
least one piece. -/
def EntryPos (l : List (ℚ × ℕ)) : Prop := ∀ p ∈ l, 0 < p.1 ∧ 1 ≤ p.2

/-- Factor-two quality invariant: no entry is more than twice as urgent as
any other. -/
def Fac2Q (l : List (ℚ × ℕ)) : Prop := ∀ p ∈ l, ∀ q ∈ l, qualG p ≤ 2 * qualG q

/-- Interior points splitting the interval from a to b into c equal pieces. -/
def interiorPts (a b : ℚ) (c : ℕ) : List ℚ :=
  (List.range (c - 1)).map (fun j : ℕ => a + ((j : ℚ) + 1) * (b - a) / (c : ℚ))

/-- Folding sorted insertion of a list of keys. -/
def foldIns (l : List ℚ) (xs : List ℚ) : List ℚ :=
  xs.foldl (fun acc x => insertX x acc) l

/-- Gaps between consecutive entries of a list of keys. -/
def gapsOf (l : List ℚ) : List ℚ := List.zipWith (fun a b => b - a) l l.tail

/-- Arithmetic progression of n points starting at s with step d. -/
def apList (s d : ℚ) : ℕ → List ℚ
  | 0 => []
  | k + 1 => s :: apList (s + d) d k

/-- Chained interval-count list starting at a given left endpoint. -/
def ChainIv : ℚ → List ((ℚ × ℚ) × ℕ) → Prop
  | _, [] => True
  | x0, q :: tl => q.1.1 = x0 ∧ q.1.1 < q.1.2 ∧ 1 ≤ q.2 ∧ ChainIv q.1.2 tl

/-- Refinement of a chained interval list: the left endpoint followed, for
each interval, by its interior points and its right endpoint. -/
def refineFrom (x0 : ℚ) (ivcs : List ((ℚ × ℚ) × ℕ)) : List ℚ :=
  x0 :: ivcs.flatMap (fun q => interiorPts q.1.1 q.1.2 q.2 ++ [q.1.2])

/-- Factor-two bound among consecutive gaps: no gap more than twice any
other. -/
def GapsFac2 (l : List ℚ) : Prop :=
  ∀ a ∈ gapsOf l, ∀ b ∈ gapsOf l, a ≤ 2 * b

namespace Learner1D

/-- Modelled from the spec: the bounds that have not been chosen yet are
offered first, in bounds order. -/
def missingBounds (st : Learner1D) : List ℚ :=
  (if st.lo ∈ st.keys then [] else [st.lo]) ++
    (if st.hi ∈ st.keys then [] else [st.hi])

/-- All point keys together with the bounds, sorted. -/
def baseXs (st : Learner1D) : List ℚ := insertX st.lo (insertX st.hi st.keys)

/-- Intervals between consecutive combined points (bounds included). -/
def ivalsOf (st : Learner1D) : List (ℚ × ℚ) := (baseXs st).zip (baseXs st).tail

/-- Modelled from the spec: ask computes candidate points without mutating
the state.  Missing bounds come first with unbounded (top) estimated loss
improvement; the remaining points subdivide the currently highest-loss
intervals greedily, an interval with base loss a finally cut into c pieces
contributing its c - 1 interior points, each with estimated improvement
a / c. -/
def askPoints (L : LossFun) (st : Learner1D) (n : ℕ) :
    List ℚ × List (WithTop ℚ) :=
  let mb := missingBounds st
  if n ≤ mb.length then (mb.take n, List.replicate n ⊤)
  else
    let ivs := ivalsOf st
    let ls := ivs.map (fun iv => L (st.lo, st.hi) iv st.dataPairs)
    let fin := runG (ls.map (fun a => (a, 1))) (n - mb.length)
    (mb ++ (ivs.zip fin).flatMap (fun q => interiorPts q.1.1 q.1.2 q.2.2),
     List.replicate mb.length (⊤ : WithTop ℚ) ++
       fin.flatMap (fun p => List.replicate (p.2 - 1) ((qualG p : ℚ) : WithTop ℚ)))

/-- Modelled from the spec: ask returns the candidate points and their
estimated loss improvements; when tell_pending is true every returned point
is inserted into the pending set, when it is false no state is mutated. -/
def ask (L : LossFun) (st : Learner1D) (n : ℕ) (tellPend : Bool) :
    (List ℚ × List (WithTop ℚ)) × Learner1D :=
  let out := askPoints L st n
  (out, if tellPend then out.1.foldl (fun s x => s.tellPending x) st else st)

/-- Keys of the confirmed samples, in increasing order. -/
def dataXs (st : Learner1D) : List ℚ := st.dataPairs.map Prod.fst

/-- Intervals between consecutive confirmed samples. -/
def confIvals (st : Learner1D) : List (ℚ × ℚ) := (dataXs st).zip (dataXs st).tail

/-- Modelled from the spec: the total loss is the sum of the loss of all
intervals between consecutive confirmed samples; with fewer than two
confirmed samples the loss is unbounded (top). -/
def loss (L : LossFun) (st : Learner1D) : WithTop ℚ :=
  if st.npoints < 2 then ⊤
  else (((confIvals st).map (fun iv => L (st.lo, st.hi) iv st.dataPairs)).sum : ℚ)

/-- Final loss-count entries of the greedy distribution inside ask. -/
def finOf (L : LossFun) (st : Learner1D) (n : ℕ) : List (ℚ × ℕ) :=
  runG (((st.ivalsOf).map
    (fun iv => L (st.lo, st.hi) iv st.dataPairs)).map (fun a => (a, 1)))
    (n - st.missingBounds.length)

/-- Final per-interval piece counts of the greedy distribution inside ask. -/
def csOf (L : LossFun) (st : Learner1D) (n : ℕ) : List ℕ :=
  (finOf L st n).map Prod.snd

/-- Reachability invariant for learners driven purely by committed asks: the
keys are empty, or only the lower bound, or they span the bounds with all
gaps within a factor two of each other. -/
def KInv (st : Learner1D) : Prop :=
  st.WF ∧
  (st.keys = [] ∨ st.keys = [st.lo] ∨
    (st.lo ∈ st.keys ∧ st.hi ∈ st.keys ∧
     (∀ k ∈ st.keys, st.lo ≤ k ∧ k ≤ st.hi) ∧ GapsFac2 st.keys))

/-- Sequence of committed asks accumulating all returned points, mirroring
the ask_randomly helper of the test suite. -/
def askSeq (L : LossFun) (st : Learner1D) : List ℕ → List ℚ × Learner1D
  | [] => ([], st)
  | n :: ns =>
      let r := ask L st n true
      let rest := askSeq L r.2 ns
      (r.1.1 ++ rest.1, rest.2)

end Learner1D

open Learner1D

/-- Every recorded point of the learner is a confirmed sample. -/
def AllConfirmed (st : Learner1D) : Prop :=
  ∀ p ∈ st.pts, ∃ y, p.2 = PointState.confirmed y

/-- Scenario state of the bounded-improvement property: starting from a
fresh learner on the given bounds, ask N points committed as pending, then
tell the sampled value f x for every returned point x. -/
def postTellState (L : LossFun) (lo hi : ℚ) (f : ℚ → ℚ) (N : ℕ) :
    Learner1D :=
  ((ask L (Learner1D.init lo hi) N true).2).tellList
    ((askPoints L (Learner1D.init lo hi) N).1.map (fun x => (x, f x)))

/-- Modelled from the spec: one learner operation of the ask/tell protocol,
used to state that a preview ask is invisible to any later call sequence. -/
inductive LOp
  | opAsk (n : ℕ) (tp : Bool)
  | opTell (x y : ℚ)
  | opTellPending (x : ℚ)

/-- Run a sequence of learner operations, collecting the output of every
ask call. -/
def runOps (L : LossFun) :
    Learner1D → List LOp → Learner1D × List (List ℚ × List (WithTop ℚ))
  | st, [] => (st, [])
  | st, .opAsk n tp :: ops =>
      let r := ask L st n tp
      let rest := runOps L r.2 ops
      (rest.1, r.1 :: rest.2)
  | st, .opTell x y :: ops => runOps L (st.tell x y) ops
  | st, .opTellPending x :: ops => runOps L (st.tellPending x) ops

/-- From src/adaptive/utils.py, restore: capture every learner's state with
getstate on entry, run the body, then — in a finally block, so on normal
completion and on a raised exception alike — reassign each captured state
to its learner with setstate, pairing states and learners by position. -/
def restoreRun {σ τ ε : Type} (getstate : σ → τ) (setstate : σ → τ → σ)
    (learners : List σ) (body : List σ → Option ε × List σ) :
    Option ε × List σ :=
  let states := learners.map getstate
  let res := body learners
  (res.1, (states.zip res.2).map (fun p => setstate p.2 p.1))

/-- Getstate of the interval learner: bounds and recorded points. -/
def getStateL (st : Learner1D) : ℚ × ℚ × PtList := (st.lo, st.hi, st.pts)

/-- Setstate of the interval learner: overwrite the whole state. -/
def setStateL (st : Learner1D) (s : ℚ × ℚ × PtList) : Learner1D :=
  ⟨s.1, s.2.1, s.2.2⟩

/-- Serialized form of one recorded point: x with its confirmed value, or
x alone when pending. -/
def encodePt (p : ℚ × PointState) : ℚ × Option ℚ :=
  (p.1, match p.2 with
        | .pending => none
        | .confirmed y => some y)

/-- Inverse of encodePt. -/
def decodePt (q : ℚ × Option ℚ) : ℚ × PointState :=
  (q.1, match q.2 with
        | none => .pending
        | some y => .confirmed y)

/-- Serialized blobs: the unit of filesystem content. -/
abbrev Blob := List (ℚ × Option ℚ)

/-- Modelled from the spec: pickle.dumps of the learner state — bounds
followed by the recorded points. -/
def encodeState (st : Learner1D) : Blob :=
  (st.lo, none) :: (st.hi, none) :: st.pts.map encodePt

/-- Modelled from the spec: pickle.load of a serialized learner state;
fails on a malformed blob. -/
def decodeState (b : Blob) : Option Learner1D :=
  match b with
  | (lo, _) :: (hi, _) :: rest => some ⟨lo, hi, rest.map decodePt⟩
  | _ => none

/-- A filesystem: what blob, if any, each path currently holds. -/
abbrev FS := String → Option Blob

/-- Overwrite (or remove, with none) the content of one path. -/
def fsUpdate (fs : FS) (n : String) (v : Option Blob) : FS :=
  fun m => if m = n then v else fs m

/-- Modelled from the spec: the atomic writer used by save (the
atomicwrites package is not under src).  The blob is written to a
temporary file and atomically renamed onto the destination; a crash or
write failure after k written elements (crashAt = some k) leaves only a
partial temporary file and surfaces the error, never touching the
destination. -/
def saveRun (dest temp : String) (blob : Blob) (crashAt : Option ℕ)
    (fs : FS) : Except Unit Unit × FS :=
  match crashAt with
  | some k => (.error (), fsUpdate fs temp (some (blob.take k)))
  | none =>
      (.ok (), fsUpdate
        (fsUpdate (fsUpdate fs temp (some blob)) dest (some blob))
        temp none)

/-- From src/adaptive/utils.py, save: serialize the learner, optionally
compress the blob, and write it through the atomic writer.  The
compression function and the serialization are modelled from the spec;
the write discipline is saveRun. -/
def save (comp : Blob → Blob) (compress : Bool) (fname tmp : String)
    (data : Learner1D) (crashAt : Option ℕ) (fs : FS) :
    Except Unit Unit × FS :=
  saveRun fname tmp
    (if compress then comp (encodeState data) else encodeState data)
    crashAt fs

/-- From src/adaptive/utils.py, load: open the path (through the
decompressor when compress is set) and deserialize the learner. -/
def load (decomp : Blob → Blob) (compress : Bool) (fname : String)
    (fs : FS) : Option Learner1D :=
  match fs fname with
  | none => none
  | some b => decodeState (if compress then decomp b else b)

/-- Named form of the confirmed-pair projection used by dataPairs. -/
def toPair (p : ℚ × PointState) : Option (ℚ × ℚ) :=
  match p.2 with
  | .confirmed y => some (p.1, y)
  | .pending => none

/-- Modelled from the spec: one iteration of the simple runner (the runner
module is not under src) — ask a single point and tell its sampled value. -/
def simpleStep (L : LossFun) (f : ℚ → ℚ) (st : Learner1D) : Learner1D :=
  match (askPoints L st 1).1 with
  | [] => st
  | x :: _ => st.tell x (f x)

/-- Modelled from the spec: the simple runner loop (the runner module is
not under src) — repeat single-point ask/tell until the learner holds at
least goal confirmed points, with explicit fuel. -/
def simpleRun (L : LossFun) (f : ℚ → ℚ) (goal : ℕ) :
    ℕ → Learner1D → Learner1D
  | 0, st => st
  | fuel + 1, st =>
      if goal ≤ st.npoints then st
      else simpleRun L f goal fuel (simpleStep L f st)

/-- A learner holding 101 confirmed points on bounds 0 and 100. -/
def bigLearner : Learner1D :=
  ⟨0, 100, (List.range 101).map (fun j : ℕ => ((j : ℚ), PointState.confirmed 0))⟩

/-- Scale a point state in y: pending stays pending, a confirmed value is
multiplied by the y scale. -/
def scalePS (ys : ℚ) : PointState → PointState
  | .pending => .pending
  | .confirmed y => .confirmed (ys * y)

/-- Scale one recorded point: key by the x scale, state by the y scale. -/
def scalePt (s ys : ℚ) (p : ℚ × PointState) : ℚ × PointState :=
  (s * p.1, scalePS ys p.2)

/-- Scale a whole learner state: bounds and keys by the x scale, confirmed
values by the y scale. -/
def scaleSt (s ys : ℚ) (st : Learner1D) : Learner1D :=
  ⟨s * st.lo, s * st.hi, st.pts.map (scalePt s ys)⟩

/-- Modelled from the spec: drive a learner for a fixed number of lockstep
iterations of single-point ask and tell. -/
def driveN (L : LossFun) (f : ℚ → ℚ) : ℕ → Learner1D → Learner1D
  | 0, st => st
  | k + 1, st => driveN L f k (simpleStep L f st)

/-- Estimated loss improvement of a single-point ask with the uniform
loss. -/
def impOf (st : Learner1D) : WithTop ℚ := ((askPoints uniformLoss st 1).2).headD 0

/-- Keys-level clone of askPoints with the uniform loss: the offered
points and improvements depend only on the bounds and the chosen keys. -/
def askK (lo hi : ℚ) (K : List ℚ) (n : ℕ) : List ℚ × List (WithTop ℚ) :=
  let mb := (if lo ∈ K then [] else [lo]) ++ (if hi ∈ K then [] else [hi])
  if n ≤ mb.length then (mb.take n, List.replicate n ⊤)
  else
    let bxs := insertX lo (insertX hi K)
    let ivs := bxs.zip bxs.tail
    let ls := ivs.map (fun iv => (iv.2 - iv.1) / (hi - lo))
    let fin := runG (ls.map (fun a => (a, 1))) (n - mb.length)
    (mb ++ (ivs.zip fin).flatMap (fun q => interiorPts q.1.1 q.1.2 q.2.2),
     List.replicate mb.length (⊤ : WithTop ℚ) ++
       fin.flatMap (fun p =>
         List.replicate (p.2 - 1) ((qualG p : ℚ) : WithTop ℚ)))

/-- Update the element at one position of a list in place. -/
def updAt {α : Type} : ℕ → (α → α) → List α → List α
  | _, _, [] => []
  | 0, g, a :: rest => g a :: rest
  | i + 1, g, a :: rest => a :: updAt i g rest

/-- Index of the first maximum of a list of improvement estimates, as the
balancing strategy uses. -/
def argmaxIdx : List (WithTop ℚ) → ℕ
  | [] => 0
  | v :: rest => if ∀ w ∈ rest, w ≤ v then 0 else argmaxIdx rest + 1

/-- Default learner used for out-of-range list reads. -/
def dfltL : Learner1D := Learner1D.init 0 0

/-- Modelled from the spec: the balancing coordinator picks, for each
requested point, the sub-learner with the largest estimated loss
improvement (first one on ties, as argmax does). -/
def pickIdx (subs : List Learner1D) : ℕ := argmaxIdx (subs.map impOf)

/-- The sub-learner the coordinator picks next. -/
def pickedSub (subs : List Learner1D) : Learner1D :=
  subs.getD (pickIdx subs) dfltL

/-- The point the picked sub-learner offers. -/
def askedPt (subs : List Learner1D) : ℚ :=
  ((askPoints uniformLoss (pickedSub subs) 1).1).headD 0

/-- Modelled from the spec: one selection step of the coordinator — ask a
single point of the picked sub-learner and commit it as pending there. -/
def balStep (subs : List Learner1D) : (ℕ × ℚ) × List Learner1D :=
  ((pickIdx subs, askedPt subs),
    updAt (pickIdx subs) (fun s => (ask uniformLoss s 1 true).2) subs)

/-- Modelled from the spec: the coordinator's n-point selection — n
single-point steps with pending commits threading the internal state. -/
def balSel : List Learner1D → ℕ → List (ℕ × ℚ) × List Learner1D
  | subs, 0 => ([], subs)
  | subs, n + 1 =>
      ((balStep subs).1 :: (balSel (balStep subs).2 n).1,
        (balSel (balStep subs).2 n).2)

/-- Modelled from the spec: telling one tagged point routes the value to
the owning sub-learner. -/
def balTell (f : ℕ → ℚ → ℚ) (subs : List Learner1D) (p : ℕ × ℚ) :
    List Learner1D :=
  updAt p.1 (fun s => s.tell p.2 (f p.1 p.2)) subs

/-- Modelled from the spec: one round of the liveness test — the asked
points are told back, in whatever order the round's schedule produced. -/
def balRound (f : ℕ → ℚ → ℚ) (subs : List Learner1D)
    (told : List (ℕ × ℚ)) : List Learner1D :=
  told.foldl (balTell f) subs

/-- Modelled from the spec: the multi-round drive of the coordinator. -/
def balDrive (f : ℕ → ℚ → ℚ) :
    List (ℕ × List (ℕ × ℚ)) → List Learner1D → List Learner1D
  | [], subs => subs
  | r :: rest, subs => balDrive f rest (balRound f subs r.2)

/-- A run schedule is valid when every round tells exactly the points the
coordinator selection offered for that round, in an arbitrary order; the
selection side effects themselves are discarded (tell_pending false). -/
inductive ValidRounds (f : ℕ → ℚ → ℚ) :
    List Learner1D → List (ℕ × List (ℕ × ℚ)) → Prop
  | nil (subs : List Learner1D) : ValidRounds f subs []
  | cons (subs : List Learner1D) (n : ℕ) (told : List (ℕ × ℚ))
      (rest : List (ℕ × List (ℕ × ℚ))) :
      told.Perm (balSel subs n).1 →
      ValidRounds f (balRound f subs told) rest →
      ValidRounds f subs ((n, told) :: rest)

/-- Selection-time invariant of the coordinator: every sub-learner sits on
the shared bounds and satisfies the reachability invariant. -/
def SelInv (lo hi : ℚ) (subs : List Learner1D) : Prop :=
  ∀ st ∈ subs, st.lo = lo ∧ st.hi = hi ∧ KInv st

/-- Count balance of the coordinator: while any sub-learner still misses a
bound everyone holds at most two points, and no count ever exceeds twice
any count that has reached two. -/
def CountsOK (subs : List Learner1D) : Prop :=
  ((∃ j, j < subs.length ∧ (subs.getD j dfltL).keys.length ≤ 1) →
     ∀ j, j < subs.length → (subs.getD j dfltL).keys.length ≤ 2) ∧
  (∀ a b, a < subs.length → b < subs.length →
     2 ≤ (subs.getD b dfltL).keys.length →
     (subs.getD a dfltL).keys.length ≤ 2 * (subs.getD b dfltL).keys.length)

/-- The points a given sub-learner receives out of a tagged point list. -/
def ptsAt (j : ℕ) (l : List (ℕ × ℚ)) : List ℚ :=
  (l.filter (fun p => p.1 == j)).map Prod.snd

/-- Total number of chosen points across the sub-learners. -/
def sumKs (subs : List Learner1D) : ℕ :=
  (subs.map (fun st => st.keys.length)).sum

/-- Round-boundary invariant of the coordinator: shared bounds plus
reachability for each sub-learner, balanced counts, all points confirmed. -/
def RoundInv (lo hi : ℚ) (subs : List Learner1D) : Prop :=
  SelInv lo hi subs ∧ CountsOK subs ∧ ∀ st ∈ subs, AllConfirmed st

/-- Identity-order schedule: every round asks one point and tells exactly
the offered points back in the order they were offered. -/
def idRounds (f : ℕ → ℚ → ℚ) : List Learner1D → ℕ →
    List (ℕ × List (ℕ × ℚ))
  | _, 0 => []
  | subs, k + 1 =>
      (1, (balSel subs 1).1)
        :: idRounds f (balRound f subs (balSel subs 1).1) k

theorem keysOf_insertPt (x : ℚ) (s : PointState) (l : PtList) :
    keysOf (insertPt x s l) = insertX x (keysOf l) := by
  induction l with
  | nil => rfl
  | cons p rest ih =>
      obtain ⟨a, t⟩ := p
      by_cases h1 : x < a
      · simp [insertPt, insertX, keysOf, h1]
      · by_cases h2 : x = a
        · simp [insertPt, insertX, keysOf, h1, h2]
        · simpa [insertPt, insertX, keysOf, h1, h2] using ih

theorem mem_insertX {y x : ℚ} {l : List ℚ} :
    y ∈ insertX x l ↔ y = x ∨ y ∈ l := by
  induction l with
  | nil => simp [insertX]
  | cons a rest ih =>
      by_cases h1 : x < a
      · simp [insertX, h1]
      · by_cases h2 : x = a
        · subst h2
          simp only [insertX, h1, if_neg (lt_irrefl x), if_pos rfl]
          constructor
          · intro h; exact Or.inr h
          · rintro (rfl | h)
            · exact List.mem_cons_self _ _
            · exact h
        · rw [insertX, if_neg h1, if_neg h2]
          simp only [List.mem_cons, ih]
          tauto

theorem insertX_sorted {x : ℚ} {l : List ℚ}
    (h : List.Sorted (· < ·) l) (hx : x ∉ l) :
    List.Sorted (· < ·) (insertX x l) := by
  induction l with
  | nil => simp [insertX]
  | cons a rest ih =>
      rw [List.sorted_cons] at h
      obtain ⟨ha, hrest⟩ := h
      have hxa : x ≠ a := by
        intro hh; exact hx (hh ▸ List.mem_cons_self a rest)
      by_cases h1 : x < a
      · rw [insertX, if_pos h1, List.sorted_cons]
        refine ⟨?_, (List.sorted_cons).2 ⟨ha, hrest⟩⟩
        intro b hb
        rcases List.mem_cons.1 hb with rfl | hb
        · exact h1
        · exact lt_trans h1 (ha b hb)
      · rw [insertX, if_neg h1, if_neg hxa, List.sorted_cons]
        have hax : a < x := lt_of_le_of_ne (not_lt.1 h1) (Ne.symm hxa)
        refine ⟨?_, ih hrest (fun hc => hx (List.mem_cons_of_mem a hc))⟩
        intro b hb
        rcases mem_insertX.1 hb with rfl | hb
        · exact hax
        · exact ha b hb

theorem insertX_of_mem {x : ℚ} {l : List ℚ}
    (h : List.Sorted (· < ·) l) (hx : x ∈ l) :
    insertX x l = l := by
  induction l with
  | nil => cases hx
  | cons a rest ih =>
      rw [List.sorted_cons] at h
      obtain ⟨ha, hrest⟩ := h
      rcases List.mem_cons.1 hx with rfl | hx
      · rw [insertX, if_neg (lt_irrefl x), if_pos rfl]
      · have hax : a < x := ha x hx
        rw [insertX, if_neg (not_lt.2 (le_of_lt hax)),
          if_neg (Ne.symm (ne_of_lt hax)), ih hrest hx]

theorem insertX_comm (x y : ℚ) (l : List ℚ)
    (h : List.Sorted (· < ·) l) :
    insertX x (insertX y l) = insertX y (insertX x l) := by
  by_cases hxy : x = y
  · subst hxy; rfl
  · induction l with
    | nil =>
        rcases lt_trichotomy x y with h1 | h1 | h1
        · simp [insertX, h1, not_lt.2 (le_of_lt h1), hxy, Ne.symm hxy]
        · exact absurd h1 hxy
        · simp [insertX, h1, not_lt.2 (le_of_lt h1), hxy, Ne.symm hxy]
    | cons a rest ih =>
        have hrest : List.Sorted (· < ·) rest := (List.sorted_cons.1 h).2
        rcases lt_trichotomy x a with hxa | hxa | hxa <;>
          rcases lt_trichotomy y a with hya | hya | hya
        · rcases lt_trichotomy x y with h1 | h1 | h1
          · simp [insertX, hxa, hya, h1, not_lt.2 (le_of_lt h1), hxy, Ne.symm hxy]
          · exact absurd h1 hxy
          · simp [insertX, hxa, hya, h1, not_lt.2 (le_of_lt h1), hxy, Ne.symm hxy]
        · subst hya
          have h1 : ¬ y < x := not_lt.2 (le_of_lt hxa)
          simp [insertX, hxa, h1, hxy, Ne.symm hxy, lt_irrefl]
        · have h1 : y > x := lt_trans hxa hya
          have h2 : y ≠ a := Ne.symm (ne_of_lt hya)
          simp [insertX, hxa, hya, not_lt.2 (le_of_lt hya), h2, h1,
            not_lt.2 (le_of_lt h1), hxy, Ne.symm hxy]
        · subst hxa
          have h1 : ¬ x < y := not_lt.2 (le_of_lt hya)
          simp [insertX, hya, h1, hxy, Ne.symm hxy, lt_irrefl]
        · exact absurd (hxa.trans hya.symm) hxy
        · subst hxa
          simp [insertX, hya, not_lt.2 (le_of_lt hya), Ne.symm (ne_of_lt hya),
            lt_irrefl, hxy, Ne.symm hxy]
        · have h1 : x > y := lt_trans hya hxa
          have h2 : x ≠ a := Ne.symm (ne_of_lt hxa)
          simp [insertX, hxa, hya, not_lt.2 (le_of_lt hxa), h2, h1,
            not_lt.2 (le_of_lt h1), hxy, Ne.symm hxy]
        · subst hya
          simp [insertX, hxa, not_lt.2 (le_of_lt hxa), Ne.symm (ne_of_lt hxa),
            lt_irrefl, hxy, Ne.symm hxy]
        · have h2 : x ≠ a := Ne.symm (ne_of_lt hxa)
          have h3 : y ≠ a := Ne.symm (ne_of_lt hya)
          simp only [insertX, if_neg (not_lt.2 (le_of_lt hxa)), if_neg h2,
            if_neg (not_lt.2 (le_of_lt hya)), if_neg h3]
          rw [ih hrest]

theorem sortedKeys_insertPt {l : PtList} (x : ℚ) (s : PointState)
    (h : SortedKeys l) : SortedKeys (insertPt x s l) := by
  unfold SortedKeys
  rw [keysOf_insertPt]
  by_cases hx : x ∈ keysOf l
  · rw [insertX_of_mem h hx]; exact h
  · exact insertX_sorted h hx

theorem lookupPt_insertPt_self (x : ℚ) (s : PointState) (l : PtList) :
    lookupPt x (insertPt x s l) = some s := by
  induction l with
  | nil => simp [insertPt, lookupPt]
  | cons p rest ih =>
      obtain ⟨a, t⟩ := p
      by_cases h1 : x < a
      · simp [insertPt, lookupPt, h1]
      · by_cases h2 : x = a
        · simp [insertPt, lookupPt, h1, h2]
        · simpa [insertPt, lookupPt, h1, h2] using ih

theorem lookupPt_insertPt_ne {x z : ℚ} (s : PointState) (l : PtList)
    (hzx : z ≠ x) : lookupPt z (insertPt x s l) = lookupPt z l := by
  induction l with
  | nil => simp [insertPt, lookupPt, hzx]
  | cons p rest ih =>
      obtain ⟨a, t⟩ := p
      by_cases h1 : x < a
      · simp [insertPt, lookupPt, h1, hzx]
      · by_cases h2 : x = a
        · subst h2
          simp [insertPt, lookupPt, h1, hzx]
        · by_cases h3 : z = a
          · simp [insertPt, lookupPt, h1, h2, h3]
          · simpa [insertPt, lookupPt, h1, h2, h3] using ih

theorem mem_keysOf_of_lookup {x : ℚ} {s : PointState} {l : PtList}
    (hl : lookupPt x l = some s) : x ∈ keysOf l := by
  induction l with
  | nil => cases hl
  | cons p rest ih =>
      obtain ⟨a, t⟩ := p
      by_cases h3 : x = a
      · subst h3; exact List.mem_cons_self _ _
      · rw [lookupPt, if_neg h3] at hl
        exact List.mem_cons_of_mem _ (ih hl)

theorem lookup_of_mem_keysOf {x : ℚ} {l : PtList}
    (hx : x ∈ keysOf l) : ∃ s, lookupPt x l = some s := by
  induction l with
  | nil => cases hx
  | cons p rest ih =>
      obtain ⟨a, t⟩ := p
      by_cases h3 : x = a
      · subst h3; exact ⟨t, by rw [lookupPt, if_pos rfl]⟩
      · rcases List.mem_cons.1 hx with h4 | h4
        · exact absurd h4 h3
        · obtain ⟨s, hs⟩ := ih h4
          exact ⟨s, by rw [lookupPt, if_neg h3]; exact hs⟩

theorem insertPt_lookup_eq {x : ℚ} {s : PointState} {l : PtList}
    (h : SortedKeys l) (hl : lookupPt x l = some s) :
    insertPt x s l = l := by
  induction l with
  | nil => cases hl
  | cons p rest ih =>
      obtain ⟨a, t⟩ := p
      have hrest : SortedKeys rest := by
        unfold SortedKeys at h ⊢
        exact (List.sorted_cons.1 h).2
      by_cases h2 : x = a
      · subst h2
        rw [lookupPt, if_pos rfl] at hl
        rw [insertPt, if_neg (lt_irrefl x), if_pos rfl]
        injection hl with hl
        rw [hl]
      · rw [lookupPt, if_neg h2] at hl
        have hmem : x ∈ keysOf rest := mem_keysOf_of_lookup hl
        have hax : a < x := by
          unfold SortedKeys at h
          have := (List.sorted_cons.1 h).1
          exact this x hmem
        rw [insertPt, if_neg (not_lt.2 (le_of_lt hax)), if_neg h2, ih hrest hl]

theorem insertPt_comm (x y : ℚ) (sx sy : PointState) (l : PtList)
    (hxy : x ≠ y) :
    insertPt x sx (insertPt y sy l) = insertPt y sy (insertPt x sx l) := by
  induction l with
  | nil =>
      rcases lt_trichotomy x y with h1 | h1 | h1
      · simp [insertPt, h1, not_lt.2 (le_of_lt h1), hxy, Ne.symm hxy]
      · exact absurd h1 hxy
      · simp [insertPt, h1, not_lt.2 (le_of_lt h1), hxy, Ne.symm hxy]
  | cons p rest ih =>
      obtain ⟨a, t⟩ := p
      rcases lt_trichotomy x a with hxa | hxa | hxa <;>
        rcases lt_trichotomy y a with hya | hya | hya
      · rcases lt_trichotomy x y with h1 | h1 | h1
        · simp [insertPt, hxa, hya, h1, not_lt.2 (le_of_lt h1), hxy, Ne.symm hxy]
        · exact absurd h1 hxy
        · simp [insertPt, hxa, hya, h1, not_lt.2 (le_of_lt h1), hxy, Ne.symm hxy]
      · subst hya
        have h1 : ¬ y < x := not_lt.2 (le_of_lt hxa)
        simp [insertPt, hxa, h1, hxy, Ne.symm hxy, lt_irrefl]
      · have h1 : x < y := lt_trans hxa hya
        have h2 : y ≠ a := Ne.symm (ne_of_lt hya)
        simp [insertPt, hxa, hya, not_lt.2 (le_of_lt hya), h2, h1,
          not_lt.2 (le_of_lt h1), hxy, Ne.symm hxy]
      · subst hxa
        have h1 : ¬ x < y := not_lt.2 (le_of_lt hya)
        simp [insertPt, hya, h1, hxy, Ne.symm hxy, lt_irrefl]
      · exact absurd (hxa.trans hya.symm) hxy
      · subst hxa
        simp [insertPt, hya, not_lt.2 (le_of_lt hya), Ne.symm (ne_of_lt hya),
          lt_irrefl, hxy, Ne.symm hxy]
      · have h1 : y < x := lt_trans hya hxa
        have h2 : x ≠ a := Ne.symm (ne_of_lt hxa)
        simp [insertPt, hxa, hya, not_lt.2 (le_of_lt hxa), h2, h1,
          not_lt.2 (le_of_lt h1), hxy, Ne.symm hxy]
      · subst hya
        simp [insertPt, hxa, not_lt.2 (le_of_lt hxa), Ne.symm (ne_of_lt hxa),
          lt_irrefl, hxy, Ne.symm hxy]
      · have h2 : x ≠ a := Ne.symm (ne_of_lt hxa)
        have h3 : y ≠ a := Ne.symm (ne_of_lt hya)
        simp only [insertPt, if_neg (not_lt.2 (le_of_lt hxa)), if_neg h2,
          if_neg (not_lt.2 (le_of_lt hya)), if_neg h3, List.cons.injEq,
          true_and]
        exact ih

namespace Learner1D

theorem WF_init (lo hi : ℚ) : (init lo hi).WF := by
  unfold WF init SortedKeys keysOf
  simp

@[simp] theorem lo_tell (st : Learner1D) (x y : ℚ) : (st.tell x y).lo = st.lo := rfl

@[simp] theorem hi_tell (st : Learner1D) (x y : ℚ) : (st.tell x y).hi = st.hi := rfl

@[simp] theorem lo_tellPending (st : Learner1D) (x : ℚ) :
    (st.tellPending x).lo = st.lo := by
  unfold tellPending; split <;> rfl

@[simp] theorem hi_tellPending (st : Learner1D) (x : ℚ) :
    (st.tellPending x).hi = st.hi := by
  unfold tellPending; split <;> rfl

theorem keys_tell (st : Learner1D) (x y : ℚ) :
    (st.tell x y).keys = insertX x st.keys := by
  unfold tell keys
  exact keysOf_insertPt x _ st.pts

theorem keys_tellPending (st : Learner1D) (x : ℚ) (hwf : st.WF) :
    (st.tellPending x).keys = insertX x st.keys := by
  unfold tellPending
  by_cases hx : x ∈ st.keys
  · rw [if_pos hx]
    exact (insertX_of_mem hwf hx).symm
  · rw [if_neg hx]
    exact keysOf_insertPt x _ st.pts

theorem WF_tell {st : Learner1D} (x y : ℚ) (hwf : st.WF) : (st.tell x y).WF :=
  sortedKeys_insertPt x _ hwf

theorem WF_tellPending {st : Learner1D} (x : ℚ) (hwf : st.WF) :
    (st.tellPending x).WF := by
  unfold tellPending
  split
  · exact hwf
  · exact sortedKeys_insertPt x _ hwf

theorem WF_tellList {st : Learner1D} {ps : List (ℚ × ℚ)} (hwf : st.WF) :
    (st.tellList ps).WF := by
  induction ps generalizing st with
  | nil => exact hwf
  | cons p rest ih => exact ih (WF_tell _ _ hwf)

theorem tellList_cons (st : Learner1D) (p : ℚ × ℚ) (ps : List (ℚ × ℚ)) :
    st.tellList (p :: ps) = (st.tell p.1 p.2).tellList ps := rfl

theorem tell_lookup_eq {st : Learner1D} {x y : ℚ} (hwf : st.WF)
    (hl : lookupPt x st.pts = some (.confirmed y)) : st.tell x y = st :=
  congrArg (Learner1D.mk st.lo st.hi) (insertPt_lookup_eq hwf hl)

theorem tell_comm (st : Learner1D) {x z : ℚ} (y w : ℚ) (hxz : x ≠ z) :
    (st.tell x y).tell z w = (st.tell z w).tell x y :=
  congrArg (Learner1D.mk st.lo st.hi)
    (insertPt_comm z x (.confirmed w) (.confirmed y) st.pts (Ne.symm hxz))

theorem lookupPt_tell_self (st : Learner1D) (x y : ℚ) :
    lookupPt x (st.tell x y).pts = some (.confirmed y) :=
  lookupPt_insertPt_self x _ st.pts

theorem lookupPt_tell_ne (st : Learner1D) {x z : ℚ} (y : ℚ) (hzx : z ≠ x) :
    lookupPt z (st.tell x y).pts = lookupPt z st.pts :=
  lookupPt_insertPt_ne _ st.pts hzx

/-- Telling a batch leaves keys outside the batch untouched. -/
theorem lookupPt_tellList_not_mem {st : Learner1D} {ps : List (ℚ × ℚ)}
    {x : ℚ} (hx : x ∉ ps.map Prod.fst) :
    lookupPt x (st.tellList ps).pts = lookupPt x st.pts := by
  induction ps generalizing st with
  | nil => rfl
  | cons q rest ih =>
      have hx2 : x ∉ rest.map Prod.fst := by
        intro hh
        exact hx (by rw [List.map_cons]; exact List.mem_cons_of_mem _ hh)
      have hxq : x ≠ q.1 := by
        intro hh
        exact hx (by rw [List.map_cons, hh]; exact List.mem_cons_self _ _)
      rw [tellList_cons, ih hx2, lookupPt_tell_ne st q.2 hxq]

/-- After a batch of tells with pairwise distinct keys, every pair of the
batch is recorded as confirmed. -/
theorem tellList_lookup {st : Learner1D} {ps : List (ℚ × ℚ)} {x y : ℚ}
    (hnd : (ps.map Prod.fst).Nodup) (hmem : (x, y) ∈ ps) :
    lookupPt x (st.tellList ps).pts = some (.confirmed y) := by
  induction ps generalizing st with
  | nil => cases hmem
  | cons p rest ih =>
      have hnd2 : (p.1 :: rest.map Prod.fst).Nodup := by simpa using hnd
      rw [tellList_cons]
      rcases List.mem_cons.1 hmem with rfl | hmem2
      · rw [lookupPt_tellList_not_mem (List.nodup_cons.1 hnd2).1]
        exact lookupPt_tell_self st x y
      · exact ih (by simpa using (List.nodup_cons.1 hnd2).2) hmem2

/-- A batch of tells that only restates already confirmed pairs is the
identity: retelling existing data is idempotent. -/
theorem tellList_noop {st : Learner1D} {ps : List (ℚ × ℚ)} (hwf : st.WF)
    (hall : ∀ p ∈ ps, lookupPt p.1 st.pts = some (.confirmed p.2)) :
    st.tellList ps = st := by
  induction ps with
  | nil => rfl
  | cons p rest ih =>
      rw [tellList_cons,
        tell_lookup_eq hwf (hall p (List.mem_cons_self _ _))]
      exact ih (fun q hq => hall q (List.mem_cons_of_mem _ hq))

/-- Telling a batch with pairwise distinct keys in any shuffled order gives
the same final state: the spec requires order independence of tell. -/
theorem tellList_perm {ps qs : List (ℚ × ℚ)}
    (hp : ps.Perm qs) :
    ∀ st : Learner1D, st.WF → (ps.map Prod.fst).Nodup →
      st.tellList ps = st.tellList qs := by
  induction hp with
  | nil => intro st _ _; rfl
  | cons p h ih =>
      intro st hwf hnd
      rw [tellList_cons, tellList_cons]
      exact ih _ (WF_tell _ _ hwf) (List.nodup_cons.1 hnd).2
  | swap a b l =>
      intro st hwf hnd
      have hab : b.1 ≠ a.1 := by
        have h1 := (List.nodup_cons.1 hnd).1
        intro hh
        exact h1 (by simp [hh])
      rw [tellList_cons, tellList_cons, tellList_cons, tellList_cons,
        tell_comm st _ _ hab]
  | trans h1 h2 ih1 ih2 =>
      intro st hwf hnd
      rw [ih1 st hwf hnd]
      exact ih2 st hwf ((h1.map Prod.fst).nodup hnd)

end Learner1D

theorem maxQual_cons {rest : List (ℚ × ℕ)} (p : ℚ × ℕ) (h : rest ≠ []) :
    maxQual (p :: rest) = max (qualG p) (maxQual rest) := by
  cases rest with
  | nil => exact absurd rfl h
  | cons q r2 => rfl

theorem bumpG_map_fst (t : ℚ) (l : List (ℚ × ℕ)) :
    (bumpG t l).map Prod.fst = l.map Prod.fst := by
  induction l with
  | nil => rfl
  | cons p rest ih =>
      by_cases h : qualG p = t
      · simp [bumpG, h]
      · simp [bumpG, h, ih]

theorem runG_map_fst (l : List (ℚ × ℕ)) (m : ℕ) :
    (runG l m).map Prod.fst = l.map Prod.fst := by
  induction m generalizing l with
  | zero => rfl
  | succ k ih => rw [runG, ih, stepG, bumpG_map_fst]

theorem bumpG_length (t : ℚ) (l : List (ℚ × ℕ)) :
    (bumpG t l).length = l.length := by
  have := congrArg List.length (bumpG_map_fst t l)
  simpa using this

theorem runG_length (l : List (ℚ × ℕ)) (m : ℕ) :
    (runG l m).length = l.length := by
  have := congrArg List.length (runG_map_fst l m)
  simpa using this

theorem entryPos_bumpG {t : ℚ} {l : List (ℚ × ℕ)} (h : EntryPos l) :
    EntryPos (bumpG t l) := by
  induction l with
  | nil => intro p hp; cases hp
  | cons p rest ih =>
      intro q hq
      by_cases hcase : qualG p = t
      · rw [bumpG, if_pos hcase] at hq
        rcases List.mem_cons.1 hq with rfl | hq2
        · have := h p (List.mem_cons_self _ _)
          exact ⟨this.1, le_trans this.2 (Nat.le_succ _)⟩
        · exact h q (List.mem_cons_of_mem _ hq2)
      · rw [bumpG, if_neg hcase] at hq
        rcases List.mem_cons.1 hq with rfl | hq2
        · exact h q (List.mem_cons_self _ _)
        · exact ih (fun r hr => h r (List.mem_cons_of_mem _ hr)) q hq2

theorem entryPos_runG {l : List (ℚ × ℕ)} (m : ℕ) (h : EntryPos l) :
    EntryPos (runG l m) := by
  induction m generalizing l with
  | zero => exact h
  | succ k ih => exact ih (entryPos_bumpG h)

theorem countsOne_bumpG {t : ℚ} {l : List (ℚ × ℕ)} (h : ∀ p ∈ l, 1 ≤ p.2) :
    ∀ p ∈ bumpG t l, 1 ≤ p.2 := by
  induction l with
  | nil => intro p hp; cases hp
  | cons p rest ih =>
      intro q hq
      by_cases hcase : qualG p = t
      · rw [bumpG, if_pos hcase] at hq
        rcases List.mem_cons.1 hq with rfl | hq2
        · exact le_trans (h p (List.mem_cons_self _ _)) (Nat.le_succ _)
        · exact h q (List.mem_cons_of_mem _ hq2)
      · rw [bumpG, if_neg hcase] at hq
        rcases List.mem_cons.1 hq with rfl | hq2
        · exact h q (List.mem_cons_self _ _)
        · exact ih (fun r hr => h r (List.mem_cons_of_mem _ hr)) q hq2

theorem countsOne_runG {l : List (ℚ × ℕ)} (m : ℕ) (h : ∀ p ∈ l, 1 ≤ p.2) :
    ∀ p ∈ runG l m, 1 ≤ p.2 := by
  induction m generalizing l with
  | zero => exact h
  | succ k ih => exact ih (countsOne_bumpG h)

theorem le_maxQual {l : List (ℚ × ℕ)} {p : ℚ × ℕ} (hp : p ∈ l) :
    qualG p ≤ maxQual l := by
  induction l with
  | nil => cases hp
  | cons q rest ih =>
      rcases em (rest = []) with rfl | hne
      · rcases List.mem_cons.1 hp with rfl | hp2
        · exact le_of_eq rfl
        · cases hp2
      · rw [maxQual_cons q hne]
        rcases List.mem_cons.1 hp with rfl | hp2
        · exact le_max_left _ _
        · exact le_trans (ih hp2) (le_max_right _ _)

theorem maxQual_mem {l : List (ℚ × ℕ)} (h : l ≠ []) :
    ∃ p ∈ l, qualG p = maxQual l := by
  induction l with
  | nil => exact absurd rfl h
  | cons q rest ih =>
      rcases em (rest = []) with rfl | hne
      · exact ⟨q, List.mem_cons_self _ _, rfl⟩
      · rw [maxQual_cons q hne]
        rcases le_total (maxQual rest) (qualG q) with hle | hle
        · exact ⟨q, List.mem_cons_self _ _, (max_eq_left hle).symm⟩
        · obtain ⟨p, hp, hq⟩ := ih hne
          exact ⟨p, List.mem_cons_of_mem _ hp,
            by rw [hq, max_eq_right hle]⟩

theorem bumpG_decomp {t : ℚ} {l : List (ℚ × ℕ)}
    (h : ∃ p ∈ l, qualG p = t) :
    ∃ l1 p l2, l = l1 ++ p :: l2 ∧ qualG p = t ∧
      (∀ q ∈ l1, qualG q ≠ t) ∧
      bumpG t l = l1 ++ (p.1, p.2 + 1) :: l2 := by
  induction l with
  | nil => obtain ⟨p, hp, _⟩ := h; cases hp
  | cons q rest ih =>
      by_cases hq : qualG q = t
      · exact ⟨[], q, rest, by simp, hq, by simp, by rw [bumpG, if_pos hq]; rfl⟩
      · have h2 : ∃ p ∈ rest, qualG p = t := by
          obtain ⟨p, hp, hpt⟩ := h
          rcases List.mem_cons.1 hp with rfl | hp2
          · exact absurd hpt hq
          · exact ⟨p, hp2, hpt⟩
        obtain ⟨l1, p, l2, hdec, hpt, hnone, hbump⟩ := ih h2
        refine ⟨q :: l1, p, l2, by rw [hdec]; rfl, hpt, ?_, ?_⟩
        · intro r hr
          rcases List.mem_cons.1 hr with rfl | hr2
          · exact hq
          · exact hnone r hr2
        · rw [bumpG, if_neg hq, hbump]; rfl

theorem sumSnd_stepG {l : List (ℚ × ℕ)} (hne : l ≠ []) :
    ((stepG l).map Prod.snd).sum = (l.map Prod.snd).sum + 1 := by
  obtain ⟨l1, p, l2, hdec, _, _, hbump⟩ := bumpG_decomp (maxQual_mem hne)
  rw [stepG, hbump, hdec]
  simp [List.sum_append]
  omega

theorem runG_ne_nil {l : List (ℚ × ℕ)} (m : ℕ) (hne : l ≠ []) :
    runG l m ≠ [] := by
  intro h
  have h1 := runG_length l m
  rw [h, List.length_nil] at h1
  exact hne (List.length_eq_zero.1 h1.symm)

theorem stepG_ne_nil {l : List (ℚ × ℕ)} (hne : l ≠ []) : stepG l ≠ [] := by
  intro h
  have h1 : (stepG l).length = l.length := by
    rw [stepG, bumpG_length]
  rw [h, List.length_nil] at h1
  exact hne (List.length_eq_zero.1 h1.symm)

theorem sumSnd_runG {l : List (ℚ × ℕ)} (m : ℕ) (hne : l ≠ []) :
    ((runG l m).map Prod.snd).sum = (l.map Prod.snd).sum + m := by
  induction m generalizing l with
  | zero => rfl
  | succ k ih =>
      show ((runG (stepG l) k).map Prod.snd).sum = _
      rw [ih (stepG_ne_nil hne), sumSnd_stepG hne]
      omega

theorem qualG_pos {p : ℚ × ℕ} (h1 : 0 < p.1) (h2 : 1 ≤ p.2) : 0 < qualG p := by
  unfold qualG
  have : (0 : ℚ) < (p.2 : ℚ) := by exact_mod_cast lt_of_lt_of_le Nat.zero_lt_one h2
  exact div_pos h1 this

theorem fac2_stepG {l : List (ℚ × ℕ)} (hpos : EntryPos l) (h : Fac2Q l) :
    Fac2Q (stepG l) := by
  rcases em (l = []) with rfl | hne
  · intro p hp; cases hp
  · obtain ⟨l1, p, l2, hdec, hpt, _, hbump⟩ :=
      bumpG_decomp (maxQual_mem hne)
    have hpmem : p ∈ l := by rw [hdec]; exact List.mem_append_right _ (List.mem_cons_self _ _)
    have hp1 : 0 < p.1 := (hpos p hpmem).1
    have hp2 : 1 ≤ p.2 := (hpos p hpmem).2
    have hc : (0 : ℚ) < (p.2 : ℚ) := by exact_mod_cast lt_of_lt_of_le Nat.zero_lt_one hp2
    have hc1 : (0 : ℚ) < ((p.2 : ℚ) + 1) := by linarith
    have hnewval : qualG (p.1, p.2 + 1) = p.1 / ((p.2 : ℚ) + 1) := by
      unfold qualG; push_cast; ring_nf
    have hub : qualG (p.1, p.2 + 1) ≤ qualG p := by
      rw [hnewval]
      unfold qualG
      apply div_le_div_of_nonneg_left (le_of_lt hp1) hc
      linarith
    have hlb : qualG p ≤ 2 * qualG (p.1, p.2 + 1) := by
      rw [hnewval]
      unfold qualG
      rw [← mul_div_assoc, div_le_div_iff hc hc1]
      have h1 : (1 : ℚ) ≤ (p.2 : ℚ) := by exact_mod_cast hp2
      nlinarith [hp1]
    intro a ha b hb
    rw [stepG, hbump] at ha hb
    have hmem_of : ∀ r, r ∈ l1 ++ (p.1, p.2 + 1) :: l2 →
        r = (p.1, p.2 + 1) ∨ r ∈ l := by
      intro r hr
      rcases List.mem_append.1 hr with hr1 | hr2
      · exact Or.inr (by rw [hdec]; exact List.mem_append_left _ hr1)
      · rcases List.mem_cons.1 hr2 with rfl | hr3
        · exact Or.inl rfl
        · exact Or.inr (by
            rw [hdec]
            exact List.mem_append_right _ (List.mem_cons_of_mem _ hr3))
    rcases hmem_of a ha with rfl | hal <;> rcases hmem_of b hb with rfl | hbl
    · have h0 : 0 ≤ qualG (p.1, p.2 + 1) := by
        rw [hnewval]; positivity
      linarith
    · calc qualG (p.1, p.2 + 1) ≤ qualG p := hub
        _ ≤ 2 * qualG b := h p hpmem b hbl
    · calc qualG a ≤ maxQual l := le_maxQual hal
        _ = qualG p := hpt.symm
        _ ≤ 2 * qualG (p.1, p.2 + 1) := hlb
    · exact h a hal b hbl

theorem fac2_runG {l : List (ℚ × ℕ)} (m : ℕ) (hpos : EntryPos l)
    (h : Fac2Q l) : Fac2Q (runG l m) := by
  induction m generalizing l with
  | zero => exact h
  | succ k ih => exact ih (entryPos_bumpG hpos) (fac2_stepG hpos h)

theorem insertX_sorted2 {x : ℚ} {l : List ℚ} (h : List.Sorted (· < ·) l) :
    List.Sorted (· < ·) (insertX x l) := by
  by_cases hx : x ∈ l
  · rw [insertX_of_mem h hx]; exact h
  · exact insertX_sorted h hx

theorem insertX_append {y : ℚ} {l1 rest : List ℚ}
    (h : ∀ u ∈ l1, u < y) :
    insertX y (l1 ++ rest) = l1 ++ insertX y rest := by
  induction l1 with
  | nil => rfl
  | cons u l1t ih =>
      have huy : u < y := h u (List.mem_cons_self _ _)
      rw [List.cons_append, insertX, if_neg (not_lt.2 (le_of_lt huy)),
        if_neg (Ne.symm (ne_of_lt huy)), ih (fun v hv => h v (List.mem_cons_of_mem _ hv))]
      rfl

theorem foldIns_nil (l : List ℚ) : foldIns l [] = l := rfl

theorem foldIns_cons (l : List ℚ) (x : ℚ) (xs : List ℚ) :
    foldIns l (x :: xs) = foldIns (insertX x l) xs := rfl

theorem foldIns_append (l : List ℚ) (xs ys : List ℚ) :
    foldIns l (xs ++ ys) = foldIns (foldIns l xs) ys := by
  unfold foldIns
  exact List.foldl_append _ _ _ _

theorem foldIns_sorted {l : List ℚ} (xs : List ℚ)
    (h : List.Sorted (· < ·) l) : List.Sorted (· < ·) (foldIns l xs) := by
  induction xs generalizing l with
  | nil => exact h
  | cons x xs ih => exact ih (insertX_sorted2 h)

theorem mem_foldIns {y : ℚ} {l xs : List ℚ} :
    y ∈ foldIns l xs ↔ y ∈ xs ∨ y ∈ l := by
  induction xs generalizing l with
  | nil => simp [foldIns]
  | cons x xs ih =>
      rw [foldIns_cons, ih]
      simp only [List.mem_cons, mem_insertX]
      tauto

/-- A point strictly between two consecutive elements of a sorted list is
not an element of the list. -/
theorem not_mem_of_between {l : List ℚ} {a b p : ℚ}
    (hs : List.Sorted (· < ·) l) (hab : (a, b) ∈ l.zip l.tail)
    (h1 : a < p) (h2 : p < b) : p ∉ l := by
  induction l with
  | nil => cases hab
  | cons x rest ih =>
      cases rest with
      | nil => cases hab
      | cons y rest2 =>
          rw [List.sorted_cons] at hs
          obtain ⟨hx, hs2⟩ := hs
          have hab2 : (a, b) = (x, y) ∨ (a, b) ∈ (y :: rest2).zip (y :: rest2).tail := by
            have : (x :: y :: rest2).zip (x :: y :: rest2).tail
                = (x, y) :: ((y :: rest2).zip (y :: rest2).tail) := rfl
            rw [this] at hab
            exact List.mem_cons.1 hab
          rcases hab2 with heq | hmem
          · injection heq with e1 e2
            subst e1; subst e2
            intro hp
            rcases List.mem_cons.1 hp with rfl | hp2
            · exact lt_irrefl p h1
            · have : b ≤ p := by
                rcases List.mem_cons.1 hp2 with rfl | hp3
                · exact le_refl p
                · rw [List.sorted_cons] at hs2
                  exact le_of_lt (hs2.1 p hp3)
              linarith
          · intro hp
            have hnot := ih hs2 hmem
            rcases List.mem_cons.1 hp with rfl | hp2
            · have hay : a ∈ y :: rest2 := (List.of_mem_zip hmem).1
              have hya : y ≤ a := by
                rcases List.mem_cons.1 hay with rfl | hay2
                · exact le_refl a
                · rw [List.sorted_cons] at hs2
                  exact le_of_lt (hs2.1 a hay2)
              have hpy : p < y := hx y (List.mem_cons_self _ _)
              linarith
            · exact hnot hp2

theorem gapsOf_cons_cons (x y : ℚ) (w : List ℚ) :
    gapsOf (x :: y :: w) = (y - x) :: gapsOf (y :: w) := rfl

theorem apList_eq_map (d : ℚ) :
    ∀ (n : ℕ) (s : ℚ), apList s d n = (List.range n).map (fun j : ℕ => s + (j : ℚ) * d) := by
  intro n
  induction n with
  | zero => intro s; rfl
  | succ k ih =>
      intro s
      rw [List.range_succ_eq_map, List.map_cons, List.map_map]
      have h0 : s + ((0 : ℕ) : ℚ) * d = s := by push_cast; ring
      have hfun : ((fun j : ℕ => s + (j : ℚ) * d) ∘ Nat.succ)
          = fun j : ℕ => (s + d) + (j : ℚ) * d := by
        funext j
        simp only [Function.comp]
        push_cast
        ring
      rw [hfun, h0, apList, ih]

theorem gapsOf_apList_append (d : ℚ) :
    ∀ (k : ℕ) (s : ℚ) (w : List ℚ),
    gapsOf (apList s d (k + 1) ++ w)
      = List.replicate k d ++ gapsOf ((s + (k : ℚ) * d) :: w) := by
  intro k
  induction k with
  | zero =>
      intro s w
      have h0 : s + ((0 : ℕ) : ℚ) * d = s := by push_cast; ring
      rw [h0]
      rfl
  | succ k ih =>
      intro s w
      have h1 : apList s d (k + 2) ++ w = s :: (apList (s + d) d (k + 1) ++ w) := rfl
      have h2 : apList (s + d) d (k + 1) ++ w = (s + d) :: (apList (s + d + d) d k ++ w) := rfl
      rw [h1, h2, gapsOf_cons_cons, ← h2, ih]
      have h3 : s + d - s = d := by ring
      have h4 : s + d + (k : ℚ) * d = s + ((k : ℚ) + 1) * d := by ring
      rw [h3, h4]
      have h5 : (((k + 1) : ℕ) : ℚ) = (k : ℚ) + 1 := by push_cast; ring
      rw [h5]
      rfl

theorem interiorPts_block_eq_apList (a b : ℚ) (k : ℕ) :
    (a :: interiorPts a b (k + 1)) ++ [b] = apList a ((b - a) / ((k : ℚ) + 1)) (k + 2) := by
  have hk : ((k : ℚ) + 1) ≠ 0 := by positivity
  rw [apList_eq_map]
  rw [List.range_succ_eq_map, List.map_cons]
  have h0 : a + ((0 : ℕ) : ℚ) * ((b - a) / ((k : ℚ) + 1)) = a := by push_cast; ring
  rw [h0, List.map_map]
  have hlast : (List.range (k + 1)) = List.range k ++ [k] := by
    rw [← Nat.succ_eq_add_one]
    exact List.range_succ k
  rw [hlast, List.map_append]
  have hfun : ∀ j ∈ List.range k,
      ((fun j : ℕ => a + (j : ℚ) * ((b - a) / ((k : ℚ) + 1))) ∘ Nat.succ) j
        = a + ((j : ℚ) + 1) * (b - a) / ((k : ℚ) + 1) := by
    intro j _
    simp only [Function.comp]
    push_cast
    ring
  have hsing : List.map
      ((fun j : ℕ => a + (j : ℚ) * ((b - a) / ((k : ℚ) + 1))) ∘ Nat.succ) [k] = [b] := by
    simp only [List.map_cons, List.map_nil, Function.comp]
    push_cast
    rw [List.cons.injEq]
    constructor
    · field_simp
    · rfl
  rw [List.map_congr_left hfun, hsing]
  unfold interiorPts
  have hc : (k + 1) - 1 = k := by omega
  rw [hc]
  have hcast : ∀ j ∈ List.range k,
      a + ((j : ℚ) + 1) * (b - a) / (((k + 1 : ℕ)) : ℚ)
        = a + ((j : ℚ) + 1) * (b - a) / ((k : ℚ) + 1) := by
    intro j _
    push_cast
    ring
  rw [List.map_congr_left hcast]
  simp

theorem interiorPts_length (a b : ℚ) (c : ℕ) :
    (interiorPts a b c).length = c - 1 := by
  unfold interiorPts
  rw [List.length_map, List.length_range]

theorem two_le_length_of_mem_ne {α : Type} {a b : α} {l : List α}
    (ha : a ∈ l) (hb : b ∈ l) (hab : a ≠ b) : 2 ≤ l.length := by
  cases l with
  | nil => cases ha
  | cons x rest =>
      cases rest with
      | nil =>
          rcases List.mem_cons.1 ha with rfl | h1
          · rcases List.mem_cons.1 hb with rfl | h2
            · exact absurd rfl hab
            · cases h2
          · cases h1
      | cons y rest2 => simp [List.length_cons]

theorem map_snd_zip_eq {α β : Type} :
    ∀ (l1 : List α) (l2 : List β), l1.length = l2.length →
    (l1.zip l2).map Prod.snd = l2 := by
  intro l1
  induction l1 with
  | nil =>
      intro l2 h
      have : l2 = [] := List.length_eq_zero.1 (by simpa using h.symm)
      subst this
      rfl
  | cons x rest ih =>
      intro l2 h
      cases l2 with
      | nil => simp at h
      | cons y l2t =>
          simp only [List.zip_cons_cons, List.map_cons]
          rw [ih l2t (by simpa using h)]

theorem length_flatMap_interiors :
    ∀ (ivcs : List ((ℚ × ℚ) × ℕ)), (∀ q ∈ ivcs, 1 ≤ q.2) →
    (ivcs.flatMap (fun q => interiorPts q.1.1 q.1.2 q.2)).length + ivcs.length
      = (ivcs.map (fun q => q.2)).sum := by
  intro ivcs
  induction ivcs with
  | nil => intro _; rfl
  | cons q tl ih =>
      intro h
      rw [List.flatMap_cons, List.length_append, interiorPts_length,
        List.map_cons, List.sum_cons, List.length_cons]
      have h1 := ih (fun r hr => h r (List.mem_cons_of_mem _ hr))
      have h2 := h q (List.mem_cons_self _ _)
      omega

theorem interiorPts_mem {a b : ℚ} {c : ℕ} {p : ℚ} (hab : a < b)
    (hp : p ∈ interiorPts a b c) : a < p ∧ p < b := by
  unfold interiorPts at hp
  obtain ⟨j, hj, rfl⟩ := List.mem_map.1 hp
  rw [List.mem_range] at hj
  have hc2 : 2 ≤ c := by omega
  have hcq : (0 : ℚ) < (c : ℚ) := by exact_mod_cast (by omega : 0 < c)
  have hj1 : ((j : ℚ) + 1) < (c : ℚ) := by exact_mod_cast (by omega : j + 1 < c)
  have hj0 : (0 : ℚ) < ((j : ℚ) + 1) := by positivity
  have hba : (0 : ℚ) < b - a := sub_pos.2 hab
  constructor
  · have hpos : 0 < ((j : ℚ) + 1) * (b - a) / (c : ℚ) :=
      div_pos (mul_pos hj0 hba) hcq
    linarith
  · have hlt : ((j : ℚ) + 1) * (b - a) / (c : ℚ) < b - a := by
      rw [div_lt_iff hcq]
      nlinarith
    linarith

theorem interiorPts_sorted (a b : ℚ) (c : ℕ) (hab : a < b) :
    List.Sorted (· < ·) (interiorPts a b c) := by
  cases c with
  | zero => simp [interiorPts]
  | succ k =>
      cases k with
      | zero => simp [interiorPts]
      | succ k2 =>
          unfold interiorPts
          have hcq : (0 : ℚ) < ((k2 + 2 : ℕ) : ℚ) := by positivity
          have hba : (0 : ℚ) < b - a := sub_pos.2 hab
          refine List.Pairwise.map _ ?_ (List.pairwise_lt_range _)
          intro i j hij
          have hij2 : ((i : ℚ) + 1) < ((j : ℚ) + 1) := by exact_mod_cast Nat.succ_lt_succ hij
          have h3 : ((i : ℚ) + 1) * (b - a) < ((j : ℚ) + 1) * (b - a) :=
            mul_lt_mul_of_pos_right hij2 hba
          have step : ((i : ℚ) + 1) * (b - a) / ((k2 + 2 : ℕ) : ℚ)
              < ((j : ℚ) + 1) * (b - a) / ((k2 + 2 : ℕ) : ℚ) := by
            rw [div_lt_div_iff hcq hcq]
            nlinarith [h3, hcq]
          linarith [step]

theorem foldIns_between :
    ∀ (ys : List ℚ) (l1 : List ℚ) (a b : ℚ) (l2 : List ℚ),
    List.Sorted (· < ·) ys →
    (∀ y ∈ ys, a < y ∧ y < b) →
    (∀ u ∈ l1, u < a) →
    foldIns (l1 ++ a :: b :: l2) ys = l1 ++ a :: (ys ++ b :: l2) := by
  intro ys
  induction ys with
  | nil => intro l1 a b l2 _ _ _; rfl
  | cons y ys2 ih =>
      intro l1 a b l2 hsort hbnd hpre
      rw [foldIns_cons]
      have hay : a < y := (hbnd y (List.mem_cons_self _ _)).1
      have hyb : y < b := (hbnd y (List.mem_cons_self _ _)).2
      have hpre2 : ∀ u ∈ l1 ++ [a], u < y := by
        intro u hu
        rcases List.mem_append.1 hu with hu1 | hu2
        · exact lt_trans (hpre u hu1) hay
        · rcases List.mem_cons.1 hu2 with rfl | hfalse
          · exact hay
          · cases hfalse
      have hins : insertX y (l1 ++ a :: b :: l2) = (l1 ++ [a]) ++ y :: b :: l2 := by
        have hsplit : l1 ++ a :: b :: l2 = (l1 ++ [a]) ++ b :: l2 := by simp
        rw [hsplit, insertX_append hpre2]
        have h2 : insertX y (b :: l2) = y :: b :: l2 := by
          rw [insertX, if_pos hyb]
        rw [h2]
      rw [hins, ih (l1 ++ [a]) y b l2 (List.sorted_cons.1 hsort).2 ?_ hpre2]
      · simp
      · intro z hz
        exact ⟨(List.sorted_cons.1 hsort).1 z hz, (hbnd z (List.mem_cons_of_mem _ hz)).2⟩

theorem foldIns_refine :
    ∀ (rest : List ℚ) (x0 : ℚ) (cs : List ℕ) (l1 : List ℚ),
    List.Sorted (· < ·) (l1 ++ x0 :: rest) →
    (∀ u ∈ l1, u < x0) →
    cs.length = rest.length →
    foldIns (l1 ++ x0 :: rest)
        ((((x0 :: rest).zip rest).zip cs).flatMap
          (fun q => interiorPts q.1.1 q.1.2 q.2))
      = l1 ++ refineFrom x0 (((x0 :: rest).zip rest).zip cs) := by
  intro rest
  induction rest with
  | nil =>
      intro x0 cs l1 _ _ hlen
      have hcs : cs = [] := List.length_eq_zero.1 (by simpa using hlen)
      subst hcs
      simp [refineFrom, foldIns]
  | cons x1 rest2 ih =>
      intro x0 cs l1 hsort hpre hlen
      cases cs with
      | nil => simp at hlen
      | cons c cs2 =>
          have hx01 : x0 < x1 := by
            have hs2 : List.Sorted (· < ·) (x0 :: x1 :: rest2) :=
              (List.pairwise_append.1 hsort).2.1
            exact (List.sorted_cons.1 hs2).1 x1 (List.mem_cons_self _ _)
          have hzip : ((x0 :: x1 :: rest2).zip (x1 :: rest2)).zip (c :: cs2)
              = ((x0, x1), c) :: (((x1 :: rest2).zip rest2).zip cs2) := rfl
          rw [hzip, List.flatMap_cons]
          rw [foldIns_append]
          have hfold1 : foldIns (l1 ++ x0 :: x1 :: rest2) (interiorPts x0 x1 c)
              = l1 ++ x0 :: (interiorPts x0 x1 c ++ x1 :: rest2) := by
            exact foldIns_between (interiorPts x0 x1 c) l1 x0 x1 rest2
              (interiorPts_sorted x0 x1 c hx01)
              (fun y hy => interiorPts_mem hx01 hy) hpre
          rw [hfold1]
          have hshape : l1 ++ x0 :: (interiorPts x0 x1 c ++ x1 :: rest2)
              = (l1 ++ x0 :: interiorPts x0 x1 c) ++ x1 :: rest2 := by simp
          have hsorted2 : List.Sorted (· < ·)
              ((l1 ++ x0 :: interiorPts x0 x1 c) ++ x1 :: rest2) := by
            rw [← hshape, ← hfold1]
            exact foldIns_sorted _ hsort
          have hpre2 : ∀ u ∈ l1 ++ x0 :: interiorPts x0 x1 c, u < x1 := by
            intro u hu
            rcases List.mem_append.1 hu with hu1 | hu2
            · exact lt_trans (hpre u hu1) hx01
            · rcases List.mem_cons.1 hu2 with rfl | hu3
              · exact hx01
              · exact (interiorPts_mem hx01 hu3).2
          rw [hshape, ih x1 cs2 (l1 ++ x0 :: interiorPts x0 x1 c) hsorted2 hpre2
            (by simpa using hlen)]
          simp [refineFrom]

theorem gapsOf_refineFrom :
    ∀ (ivcs : List ((ℚ × ℚ) × ℕ)) (x0 : ℚ),
    ChainIv x0 ivcs →
    gapsOf (refineFrom x0 ivcs)
      = ivcs.flatMap (fun q => List.replicate q.2 ((q.1.2 - q.1.1) / (q.2 : ℚ))) := by
  intro ivcs
  induction ivcs with
  | nil => intro x0 _; rfl
  | cons q tl ih =>
      intro x0 hch
      obtain ⟨hq1, hqlt, hqc, hch2⟩ := hch
      obtain ⟨k, hk⟩ : ∃ k, q.2 = k + 1 := ⟨q.2 - 1, by omega⟩
      subst hq1
      have hshape : refineFrom q.1.1 (q :: tl)
          = ((q.1.1 :: interiorPts q.1.1 q.1.2 q.2) ++ [q.1.2])
            ++ tl.flatMap (fun r => interiorPts r.1.1 r.1.2 r.2 ++ [r.1.2]) := by
        simp [refineFrom]
      have hblock := interiorPts_block_eq_apList q.1.1 q.1.2 k
      rw [hshape, hk, hblock]
      have hd : q.1.1 + ((k : ℚ) + 1) * ((q.1.2 - q.1.1) / ((k : ℚ) + 1)) = q.1.2 := by
        have hne : ((k : ℚ) + 1) ≠ 0 := by positivity
        field_simp
      have hap := gapsOf_apList_append ((q.1.2 - q.1.1) / ((k : ℚ) + 1)) (k + 1)
        q.1.1 (tl.flatMap (fun r => interiorPts r.1.1 r.1.2 r.2 ++ [r.1.2]))
      have hcast : (((k + 1 : ℕ)) : ℚ) = (k : ℚ) + 1 := by push_cast; ring
      rw [hcast] at hap
      rw [hap, hd]
      have htl : q.1.2 :: tl.flatMap (fun r => interiorPts r.1.1 r.1.2 r.2 ++ [r.1.2])
          = refineFrom q.1.2 tl := rfl
      rw [htl, ih q.1.2 hch2, List.flatMap_cons, hk, hcast]

theorem zip_fst_snd {α β : Type} : ∀ (l : List (α × β)),
    (l.map Prod.fst).zip (l.map Prod.snd) = l := by
  intro l
  induction l with
  | nil => rfl
  | cons p rest ih =>
      simp only [List.map_cons, List.zip_cons_cons, ih]

theorem gapsOf_eq_zip_map : ∀ (l : List ℚ),
    gapsOf l = (l.zip l.tail).map (fun q => q.2 - q.1) := by
  intro l
  cases l with
  | nil => rfl
  | cons x rest =>
      induction rest generalizing x with
      | nil => rfl
      | cons y rest2 ih =>
          show gapsOf (x :: y :: rest2) = _
          rw [gapsOf_cons_cons]
          have h2 : ((x :: y :: rest2).zip (x :: y :: rest2).tail)
              = (x, y) :: ((y :: rest2).zip (y :: rest2).tail) := rfl
          rw [h2, List.map_cons, ih y]

theorem zip_tail_lt {l : List ℚ} {a b : ℚ}
    (hs : List.Sorted (· < ·) l) (hab : (a, b) ∈ l.zip l.tail) : a < b := by
  induction l with
  | nil => cases hab
  | cons x rest ih =>
      cases rest with
      | nil => cases hab
      | cons y rest2 =>
          have h2 : ((x :: y :: rest2).zip (x :: y :: rest2).tail)
              = (x, y) :: ((y :: rest2).zip (y :: rest2).tail) := rfl
          rw [h2] at hab
          rcases List.mem_cons.1 hab with heq | hmem
          · injection heq with e1 e2
            subst e1; subst e2
            exact (List.sorted_cons.1 hs).1 b (List.mem_cons_self _ _)
          · exact ih (List.sorted_cons.1 hs).2 hmem

theorem zip_tail_mem {l : List ℚ} {a b : ℚ}
    (hab : (a, b) ∈ l.zip l.tail) : a ∈ l ∧ b ∈ l := by
  have h1 := List.of_mem_zip hab
  exact ⟨h1.1, List.mem_of_mem_tail h1.2⟩

theorem chainIv_zip :
    ∀ (rest : List ℚ) (x0 : ℚ) (cs : List ℕ),
    List.Sorted (· < ·) (x0 :: rest) →
    (∀ c ∈ cs, 1 ≤ c) →
    cs.length = rest.length →
    ChainIv x0 (((x0 :: rest).zip rest).zip cs) := by
  intro rest
  induction rest with
  | nil => intro x0 cs _ _ _; simp [ChainIv]
  | cons x1 rest2 ih =>
      intro x0 cs hs hc hlen
      cases cs with
      | nil => simp at hlen
      | cons c cs2 =>
          have hz : (((x0 :: x1 :: rest2).zip (x1 :: rest2)).zip (c :: cs2))
              = ((x0, x1), c) :: (((x1 :: rest2).zip rest2).zip cs2) := rfl
          rw [hz]
          refine ⟨rfl, ?_, hc c (List.mem_cons_self _ _), ?_⟩
          · exact (List.sorted_cons.1 hs).1 x1 (List.mem_cons_self _ _)
          · exact ih x1 cs2 (List.sorted_cons.1 hs).2
              (fun d hd => hc d (List.mem_cons_of_mem _ hd)) (by simpa using hlen)

theorem qualG_one (a : ℚ) : qualG (a, 1) = a := by
  unfold qualG
  norm_num

namespace Learner1D

theorem askPoints_of_le {L : LossFun} {st : Learner1D} {n : ℕ}
    (h : n ≤ st.missingBounds.length) :
    askPoints L st n = (st.missingBounds.take n, List.replicate n ⊤) := by
  simp only [askPoints]
  rw [if_pos h]

theorem askPoints_of_gt {L : LossFun} {st : Learner1D} {n : ℕ}
    (h : ¬ n ≤ st.missingBounds.length) :
    askPoints L st n =
      (st.missingBounds ++ ((st.ivalsOf).zip (finOf L st n)).flatMap
         (fun q => interiorPts q.1.1 q.1.2 q.2.2),
       List.replicate st.missingBounds.length (⊤ : WithTop ℚ) ++
         (finOf L st n).flatMap
           (fun p => List.replicate (p.2 - 1) ((qualG p : ℚ) : WithTop ℚ))) := by
  simp only [askPoints, finOf]
  rw [if_neg h]

theorem mem_missingBounds {st : Learner1D} {p : ℚ}
    (hp : p ∈ st.missingBounds) : (p = st.lo ∨ p = st.hi) ∧ p ∉ st.keys := by
  unfold missingBounds at hp
  rcases List.mem_append.1 hp with h | h
  · by_cases h1 : st.lo ∈ st.keys
    · rw [if_pos h1] at h; cases h
    · rw [if_neg h1] at h
      rcases List.mem_cons.1 h with rfl | h2
      · exact ⟨Or.inl rfl, h1⟩
      · cases h2
  · by_cases h2 : st.hi ∈ st.keys
    · rw [if_pos h2] at h; cases h
    · rw [if_neg h2] at h
      rcases List.mem_cons.1 h with rfl | h3
      · exact ⟨Or.inr rfl, h2⟩
      · cases h3

theorem missingBounds_nodup {st : Learner1D} (hne : st.lo ≠ st.hi) :
    st.missingBounds.Nodup := by
  unfold missingBounds
  by_cases h1 : st.lo ∈ st.keys <;> by_cases h2 : st.hi ∈ st.keys <;>
    simp [h1, h2, hne]

theorem baseXs_sorted {st : Learner1D} (hwf : st.WF) :
    List.Sorted (· < ·) st.baseXs :=
  insertX_sorted2 (insertX_sorted2 hwf)

theorem lo_mem_baseXs (st : Learner1D) : st.lo ∈ st.baseXs :=
  mem_insertX.2 (Or.inl rfl)

theorem hi_mem_baseXs (st : Learner1D) : st.hi ∈ st.baseXs :=
  mem_insertX.2 (Or.inr (mem_insertX.2 (Or.inl rfl)))

theorem keys_subset_baseXs {st : Learner1D} {k : ℚ} (hk : k ∈ st.keys) :
    k ∈ st.baseXs := mem_insertX.2 (Or.inr (mem_insertX.2 (Or.inr hk)))

theorem mem_baseXs {st : Learner1D} {k : ℚ} (hk : k ∈ st.baseXs) :
    k = st.lo ∨ k = st.hi ∨ k ∈ st.keys := by
  rcases mem_insertX.1 hk with h | h
  · exact Or.inl h
  · rcases mem_insertX.1 h with h2 | h2
    · exact Or.inr (Or.inl h2)
    · exact Or.inr (Or.inr h2)

theorem baseXs_ne_nil (st : Learner1D) : st.baseXs ≠ [] :=
  List.ne_nil_of_mem (lo_mem_baseXs st)

theorem sorted_keys {st : Learner1D} (hwf : st.WF) :
    List.Sorted (· < ·) st.keys := hwf

theorem foldIns_missingBounds {st : Learner1D} (hwf : st.WF) :
    foldIns st.keys st.missingBounds = st.baseXs := by
  have hsk : List.Sorted (· < ·) st.keys := sorted_keys hwf
  unfold missingBounds baseXs
  by_cases h1 : st.lo ∈ st.keys <;> by_cases h2 : st.hi ∈ st.keys
  · rw [if_pos h1, if_pos h2]
    show st.keys = insertX st.lo (insertX st.hi st.keys)
    rw [insertX_of_mem hsk h2, insertX_of_mem hsk h1]
  · rw [if_pos h1, if_neg h2]
    show insertX st.hi st.keys = insertX st.lo (insertX st.hi st.keys)
    rw [insertX_of_mem (insertX_sorted2 hsk) (mem_insertX.2 (Or.inr h1))]
  · rw [if_neg h1, if_pos h2]
    show insertX st.lo st.keys = insertX st.lo (insertX st.hi st.keys)
    rw [insertX_of_mem hsk h2]
  · rw [if_neg h1, if_neg h2]
    show insertX st.hi (insertX st.lo st.keys)
      = insertX st.lo (insertX st.hi st.keys)
    exact insertX_comm st.hi st.lo st.keys hsk

theorem length_insertX_not_mem {x : ℚ} {l : List ℚ} (hx : x ∉ l) :
    (insertX x l).length = l.length + 1 := by
  induction l with
  | nil => rfl
  | cons a rest ih =>
      by_cases h1 : x < a
      · simp [insertX, h1]
      · have h2 : x ≠ a := fun hh => hx (hh ▸ List.mem_cons_self _ _)
        rw [insertX, if_neg h1, if_neg h2]
        simp only [List.length_cons]
        rw [ih (fun hh => hx (List.mem_cons_of_mem _ hh))]

theorem length_insertX_le (x : ℚ) (l : List ℚ) :
    (insertX x l).length ≤ l.length + 1 := by
  induction l with
  | nil => simp [insertX]
  | cons a rest ih =>
      by_cases h1 : x < a
      · simp [insertX, h1]
      · by_cases h2 : x = a
        · simp [insertX, h1, h2]
        · rw [insertX, if_neg h1, if_neg h2]
          simp only [List.length_cons]
          omega

theorem foldIns_length_le (l : List ℚ) (xs : List ℚ) :
    (foldIns l xs).length ≤ l.length + xs.length := by
  induction xs generalizing l with
  | nil => simp [foldIns]
  | cons x xs ih =>
      rw [foldIns_cons]
      calc (foldIns (insertX x l) xs).length
          ≤ (insertX x l).length + xs.length := ih _
        _ ≤ (l.length + 1) + xs.length := by
            have := length_insertX_le x l
            omega
        _ = l.length + (x :: xs).length := by simp; omega

theorem foldTellPending_keys :
    ∀ (xs : List ℚ) (st : Learner1D), st.WF →
    (xs.foldl (fun s x => s.tellPending x) st).keys = foldIns st.keys xs := by
  intro xs
  induction xs with
  | nil => intro st _; rfl
  | cons x xs ih =>
      intro st hwf
      have h1 : (List.foldl (fun s x => s.tellPending x) st (x :: xs))
          = List.foldl (fun s y => s.tellPending y) (st.tellPending x) xs := rfl
      rw [h1, ih _ (WF_tellPending x hwf), keys_tellPending st x hwf, foldIns_cons]

theorem foldTellPending_WF :
    ∀ (xs : List ℚ) (st : Learner1D), st.WF →
    (xs.foldl (fun s x => s.tellPending x) st).WF := by
  intro xs
  induction xs with
  | nil => intro st h; exact h
  | cons x xs ih => intro st hwf; exact ih _ (WF_tellPending x hwf)

theorem foldTellPending_lo :
    ∀ (xs : List ℚ) (st : Learner1D),
    (xs.foldl (fun s x => s.tellPending x) st).lo = st.lo := by
  intro xs
  induction xs with
  | nil => intro st; rfl
  | cons x xs ih =>
      intro st
      have h1 : (List.foldl (fun s x => s.tellPending x) st (x :: xs))
          = List.foldl (fun s y => s.tellPending y) (st.tellPending x) xs := rfl
      rw [h1, ih _, lo_tellPending]

theorem foldTellPending_hi :
    ∀ (xs : List ℚ) (st : Learner1D),
    (xs.foldl (fun s x => s.tellPending x) st).hi = st.hi := by
  intro xs
  induction xs with
  | nil => intro st; rfl
  | cons x xs ih =>
      intro st
      have h1 : (List.foldl (fun s x => s.tellPending x) st (x :: xs))
          = List.foldl (fun s y => s.tellPending y) (st.tellPending x) xs := rfl
      rw [h1, ih _, hi_tellPending]

theorem ask_false_state (L : LossFun) (st : Learner1D) (n : ℕ) :
    (ask L st n false).2 = st := rfl

theorem ask_true_state (L : LossFun) (st : Learner1D) (n : ℕ) :
    (ask L st n true).2
      = (askPoints L st n).1.foldl (fun s x => s.tellPending x) st := rfl

theorem ask_out (L : LossFun) (st : Learner1D) (n : ℕ) (b : Bool) :
    (ask L st n b).1 = askPoints L st n := rfl

theorem keys_ask_true {L : LossFun} {st : Learner1D} {n : ℕ} (hwf : st.WF) :
    (ask L st n true).2.keys = foldIns st.keys (askPoints L st n).1 := by
  rw [ask_true_state]
  exact foldTellPending_keys _ _ hwf

theorem foldIns_fresh_of_length {l xs : List ℚ}
    (hs : List.Sorted (· < ·) l)
    (h : (foldIns l xs).length = l.length + xs.length) :
    xs.Nodup ∧ ∀ x ∈ xs, x ∉ l := by
  induction xs generalizing l with
  | nil => simp
  | cons x xs ih =>
      rw [foldIns_cons] at h
      by_cases hx : x ∈ l
      · rw [insertX_of_mem hs hx] at h
        have := foldIns_length_le l xs
        simp only [List.length_cons] at h
        omega
      · have h2 : (foldIns (insertX x l) xs).length
            = (insertX x l).length + xs.length := by
          rw [length_insertX_not_mem hx]
          simp only [List.length_cons] at h
          omega
        obtain ⟨hnd, hfresh⟩ := ih (insertX_sorted hs hx) h2
        refine ⟨List.nodup_cons.2 ⟨?_, hnd⟩, ?_⟩
        · intro hxx
          exact (hfresh x hxx) (mem_insertX.2 (Or.inl rfl))
        · intro y hy
          rcases List.mem_cons.1 hy with rfl | hy2
          · exact hx
          · intro hyl
            exact hfresh y hy2 (mem_insertX.2 (Or.inr hyl))

theorem flatMap_zip_counts (ivs : List (ℚ × ℚ)) (fin : List (ℚ × ℕ)) :
    (ivs.zip fin).flatMap (fun q => interiorPts q.1.1 q.1.2 q.2.2)
      = (ivs.zip (fin.map Prod.snd)).flatMap
          (fun q => interiorPts q.1.1 q.1.2 q.2) := by
  rw [List.zip_map_right, List.flatMap_map]
  simp [Prod.map]

theorem csOf_length (L : LossFun) (st : Learner1D) (n : ℕ) :
    (csOf L st n).length = st.ivalsOf.length := by
  unfold csOf finOf
  rw [List.length_map, runG_length, List.length_map, List.length_map]

theorem ivalsOf_length (st : Learner1D) :
    st.ivalsOf.length = st.baseXs.tail.length := by
  unfold ivalsOf
  rw [List.length_zip, List.length_tail]
  have h1 : 1 ≤ st.baseXs.length :=
    List.length_pos.2 (baseXs_ne_nil st)
  omega

theorem csOf_ge_one (L : LossFun) (st : Learner1D) (n : ℕ) :
    ∀ c ∈ csOf L st n, 1 ≤ c := by
  intro c hc
  unfold csOf at hc
  obtain ⟨p, hp, rfl⟩ := List.mem_map.1 hc
  refine countsOne_runG _ ?_ p hp
  intro q hq
  obtain ⟨a, _, rfl⟩ := List.mem_map.1 hq
  exact le_refl 1

theorem length_refineFrom (x0 : ℚ) (ivcs : List ((ℚ × ℚ) × ℕ)) :
    (refineFrom x0 ivcs).length
      = 1 + ivcs.length
        + (ivcs.flatMap (fun q => interiorPts q.1.1 q.1.2 q.2)).length := by
  unfold refineFrom
  induction ivcs with
  | nil => simp
  | cons q tl ih =>
      simp only [List.flatMap_cons, List.length_cons, List.length_append,
        List.length_nil] at ih ⊢
      omega

theorem baseXs_length {st : Learner1D} (hwf : st.WF) (hne : st.lo ≠ st.hi) :
    st.baseXs.length = st.keys.length + st.missingBounds.length := by
  have hsk : List.Sorted (· < ·) st.keys := sorted_keys hwf
  unfold baseXs missingBounds
  by_cases h1 : st.lo ∈ st.keys <;> by_cases h2 : st.hi ∈ st.keys
  · rw [if_pos h1, if_pos h2, insertX_of_mem hsk h2, insertX_of_mem hsk h1]
    simp
  · rw [if_pos h1, if_neg h2,
      insertX_of_mem (insertX_sorted2 hsk) (mem_insertX.2 (Or.inr h1)),
      length_insertX_not_mem h2]
    simp
  · rw [if_neg h1, if_pos h2, insertX_of_mem hsk h2, length_insertX_not_mem h1]
    simp
  · have h3 : st.lo ∉ insertX st.hi st.keys := by
      intro hmem
      rcases mem_insertX.1 hmem with h4 | h4
      · exact hne h4
      · exact h1 h4
    rw [if_neg h1, if_neg h2, length_insertX_not_mem h3,
      length_insertX_not_mem h2]
    simp

/-- Anatomy of a committed ask beyond the bootstrap: the keys afterwards are
exactly the refinement of the combined sorted points by the greedy piece
counts. -/
theorem ask_true_keys_refine {L : LossFun} {st : Learner1D} {n : ℕ}
    (hwf : st.WF) (hn : ¬ n ≤ st.missingBounds.length) :
    (ask L st n true).2.keys
      = refineFrom (st.baseXs.head (baseXs_ne_nil st))
          ((st.ivalsOf).zip (csOf L st n)) := by
  have hbase : st.baseXs.head (baseXs_ne_nil st) :: st.baseXs.tail = st.baseXs :=
    List.head_cons_tail _ _
  have hsorted : List.Sorted (· < ·) st.baseXs := baseXs_sorted hwf
  have hlen : (csOf L st n).length = st.baseXs.tail.length := by
    rw [csOf_length, ivalsOf_length]
  rw [keys_ask_true hwf, askPoints_of_gt hn]
  have hivs : st.ivalsOf
      = st.baseXs.zip st.baseXs.tail := rfl
  show foldIns st.keys
      (st.missingBounds ++ ((st.ivalsOf).zip (finOf L st n)).flatMap
        (fun q => interiorPts q.1.1 q.1.2 q.2.2)) = _
  rw [flatMap_zip_counts]
  have hcs : (finOf L st n).map Prod.snd = csOf L st n := rfl
  rw [hcs, foldIns_append, foldIns_missingBounds hwf]
  have hres := foldIns_refine st.baseXs.tail (st.baseXs.head (baseXs_ne_nil st))
    (csOf L st n) [] (by rw [List.nil_append, hbase]; exact hsorted)
    (by intro u hu; cases hu) hlen
  simp only [List.nil_append] at hres
  rw [hbase] at hres
  rw [hivs]
  exact hres

theorem WF_ask_true {L : LossFun} {st : Learner1D} {n : ℕ} (hwf : st.WF) :
    (ask L st n true).2.WF := by
  rw [ask_true_state]
  exact foldTellPending_WF _ _ hwf

theorem lo_ask_true (L : LossFun) (st : Learner1D) (n : ℕ) :
    (ask L st n true).2.lo = st.lo := by
  rw [ask_true_state]
  exact foldTellPending_lo _ _

theorem hi_ask_true (L : LossFun) (st : Learner1D) (n : ℕ) :
    (ask L st n true).2.hi = st.hi := by
  rw [ask_true_state]
  exact foldTellPending_hi _ _

theorem mem_keys_ask_true {L : LossFun} {st : Learner1D} {n : ℕ}
    (hwf : st.WF) (y : ℚ) :
    y ∈ (ask L st n true).2.keys ↔ y ∈ (askPoints L st n).1 ∨ y ∈ st.keys := by
  rw [keys_ask_true hwf]
  exact mem_foldIns

/-- Points offered by ask are pairwise distinct and all fresh. -/
theorem askPoints_fresh {L : LossFun} {st : Learner1D} {n : ℕ}
    (hwf : st.WF) (hlh : st.lo < st.hi) :
    (askPoints L st n).1.Nodup ∧ ∀ p ∈ (askPoints L st n).1, p ∉ st.keys := by
  have hne : st.lo ≠ st.hi := ne_of_lt hlh
  by_cases hn : n ≤ st.missingBounds.length
  · rw [askPoints_of_le hn]
    show (st.missingBounds.take n).Nodup ∧
      ∀ p ∈ st.missingBounds.take n, p ∉ st.keys
    constructor
    · exact (List.take_sublist n _).nodup (missingBounds_nodup hne)
    · intro p hp
      exact (mem_missingBounds (List.mem_of_mem_take hp)).2
  · have hpts : (askPoints L st n).1
        = st.missingBounds ++ ((st.ivalsOf).zip (csOf L st n)).flatMap
            (fun q => interiorPts q.1.1 q.1.2 q.2) := by
      rw [askPoints_of_gt hn]
      show st.missingBounds ++ ((st.ivalsOf).zip (finOf L st n)).flatMap
          (fun q => interiorPts q.1.1 q.1.2 q.2.2) = _
      rw [flatMap_zip_counts]
      rfl
    have hfold : foldIns st.keys (askPoints L st n).1
        = refineFrom (st.baseXs.head (baseXs_ne_nil st))
            ((st.ivalsOf).zip (csOf L st n)) := by
      rw [← keys_ask_true hwf]
      exact ask_true_keys_refine hwf hn
    have hlen : (foldIns st.keys (askPoints L st n).1).length
        = st.keys.length + (askPoints L st n).1.length := by
      rw [hfold, length_refineFrom, hpts]
      simp only [List.length_append]
      have h1 : ((st.ivalsOf).zip (csOf L st n)).length = st.ivalsOf.length := by
        rw [List.length_zip, csOf_length]
        exact min_self _
      have h2 := baseXs_length hwf hne
      have h3 : st.baseXs.length = st.baseXs.tail.length + 1 := by
        rw [List.length_tail]
        have := List.length_pos.2 (baseXs_ne_nil st)
        omega
      have h4 := ivalsOf_length st
      omega
    exact foldIns_fresh_of_length (sorted_keys hwf) hlen

theorem ivalsOf_ne_nil {st : Learner1D} (hne : st.lo ≠ st.hi) :
    st.ivalsOf ≠ [] := by
  intro h
  have h1 : st.ivalsOf.length = 0 := by rw [h]; rfl
  rw [ivalsOf_length, List.length_tail] at h1
  have h2 : 2 ≤ st.baseXs.length :=
    two_le_length_of_mem_ne (lo_mem_baseXs st) (hi_mem_baseXs st) hne
  omega

theorem askPoints_length {L : LossFun} {st : Learner1D} {n : ℕ}
    (hwf : st.WF) (hlh : st.lo < st.hi) :
    (askPoints L st n).1.length = n := by
  have hne : st.lo ≠ st.hi := ne_of_lt hlh
  by_cases hn : n ≤ st.missingBounds.length
  · rw [askPoints_of_le hn]
    show (st.missingBounds.take n).length = n
    rw [List.length_take]
    omega
  · have hpts : (askPoints L st n).1
        = st.missingBounds ++ ((st.ivalsOf).zip (csOf L st n)).flatMap
            (fun q => interiorPts q.1.1 q.1.2 q.2) := by
      rw [askPoints_of_gt hn]
      show st.missingBounds ++ ((st.ivalsOf).zip (finOf L st n)).flatMap
          (fun q => interiorPts q.1.1 q.1.2 q.2.2) = _
      rw [flatMap_zip_counts]
      rfl
    rw [hpts, List.length_append]
    have hlen1 : (csOf L st n).length = st.ivalsOf.length := csOf_length L st n
    have hflat := length_flatMap_interiors ((st.ivalsOf).zip (csOf L st n))
      (fun q hq => csOf_ge_one L st n q.2 (List.of_mem_zip hq).2)
    have hmap : ((st.ivalsOf).zip (csOf L st n)).map (fun q => q.2)
        = csOf L st n := map_snd_zip_eq _ _ hlen1.symm
    rw [hmap] at hflat
    have hzlen : ((st.ivalsOf).zip (csOf L st n)).length = st.ivalsOf.length := by
      rw [List.length_zip, hlen1]
      exact min_self _
    rw [hzlen] at hflat
    have hsum : (csOf L st n).sum = st.ivalsOf.length + (n - st.missingBounds.length) := by
      unfold csOf finOf
      have hinit : ((st.ivalsOf).map
          (fun iv => L (st.lo, st.hi) iv st.dataPairs)).map (fun a => (a, 1)) ≠ [] := by
        intro h
        have := congrArg List.length h
        simp only [List.length_map, List.length_nil] at this
        exact (ivalsOf_ne_nil hne) (List.length_eq_zero.1 this)
      rw [sumSnd_runG _ hinit]
      have : (((st.ivalsOf).map (fun iv => L (st.lo, st.hi) iv st.dataPairs)).map
          (fun a => (a, 1))).map Prod.snd
          = ((st.ivalsOf).map (fun iv => L (st.lo, st.hi) iv st.dataPairs)).map
              (fun _ => 1) := by
        rw [List.map_map]
        rfl
      rw [this]
      have h2 : (((st.ivalsOf).map (fun iv => L (st.lo, st.hi) iv st.dataPairs)).map
          (fun _ => (1 : ℕ))).sum
          = st.ivalsOf.length := by
        rw [List.map_const', List.sum_replicate, List.length_map]
        simp
      rw [h2]
    rw [hsum] at hflat
    omega

theorem baseXs_eq_keys {st : Learner1D} (hwf : st.WF)
    (h1 : st.lo ∈ st.keys) (h2 : st.hi ∈ st.keys) : st.baseXs = st.keys := by
  have hsk : List.Sorted (· < ·) st.keys := sorted_keys hwf
  unfold baseXs
  rw [insertX_of_mem hsk h2, insertX_of_mem hsk h1]

theorem askPoints_decomp {L : LossFun} {st : Learner1D} {n : ℕ}
    (hn : ¬ n ≤ st.missingBounds.length) :
    (askPoints L st n).1
      = st.missingBounds ++ ((st.ivalsOf).zip (csOf L st n)).flatMap
          (fun q => interiorPts q.1.1 q.1.2 q.2) := by
  rw [askPoints_of_gt hn]
  show st.missingBounds ++ ((st.ivalsOf).zip (finOf L st n)).flatMap
      (fun q => interiorPts q.1.1 q.1.2 q.2.2) = _
  rw [flatMap_zip_counts]
  rfl

theorem lo_mem_missingBounds {st : Learner1D} (h : st.lo ∉ st.keys) :
    st.lo ∈ st.missingBounds := by
  unfold missingBounds
  rw [if_neg h]
  exact List.mem_append_left _ (List.mem_cons_self _ _)

theorem hi_mem_missingBounds {st : Learner1D} (h : st.hi ∉ st.keys) :
    st.hi ∈ st.missingBounds := by
  unfold missingBounds
  by_cases h1 : st.lo ∈ st.keys
  · rw [if_pos h1, if_neg h]
    exact List.mem_append_right _ (List.mem_cons_self _ _)
  · rw [if_neg h1, if_neg h]
    exact List.mem_append_right _ (List.mem_cons_self _ _)

theorem askPoints_bounded {L : LossFun} {st : Learner1D} {n : ℕ}
    (hwf : st.WF) (hlh : st.lo < st.hi)
    (hb : ∀ k ∈ st.keys, st.lo ≤ k ∧ k ≤ st.hi) :
    ∀ p ∈ (askPoints L st n).1, st.lo ≤ p ∧ p ≤ st.hi := by
  have hle : st.lo ≤ st.hi := le_of_lt hlh
  have hbase : ∀ k ∈ st.baseXs, st.lo ≤ k ∧ k ≤ st.hi := by
    intro k hk
    rcases mem_baseXs hk with rfl | h2 | hk2
    · exact ⟨le_refl _, hle⟩
    · rw [h2]
      exact ⟨hle, le_refl _⟩
    · exact hb k hk2
  intro p hp
  by_cases hn : n ≤ st.missingBounds.length
  · rw [askPoints_of_le hn] at hp
    have hp2 : p ∈ st.missingBounds := List.mem_of_mem_take hp
    rcases (mem_missingBounds hp2).1 with rfl | h2
    · exact ⟨le_refl _, hle⟩
    · rw [h2]
      exact ⟨hle, le_refl _⟩
  · rw [askPoints_decomp hn] at hp
    rcases List.mem_append.1 hp with hp2 | hp2
    · rcases (mem_missingBounds hp2).1 with rfl | h2
      · exact ⟨le_refl _, hle⟩
      · rw [h2]
        exact ⟨hle, le_refl _⟩
    · obtain ⟨q, hq, hpin⟩ := List.mem_flatMap.1 hp2
      obtain ⟨⟨a, b⟩, c⟩ := q
      have hiv : (a, b) ∈ st.ivalsOf := (List.of_mem_zip hq).1
      have hab : a < b := zip_tail_lt (baseXs_sorted hwf) hiv
      have hmem := zip_tail_mem hiv
      have hba := hbase a hmem.1
      have hbb := hbase b hmem.2
      have hin := interiorPts_mem hab hpin
      exact ⟨le_trans hba.1 (le_of_lt hin.1), le_trans (le_of_lt hin.2) hbb.2⟩

theorem chainIv_ask (L : LossFun) {st : Learner1D} (n : ℕ) (hwf : st.WF) :
    ChainIv (st.baseXs.head (baseXs_ne_nil st))
      ((st.ivalsOf).zip (csOf L st n)) := by
  have hbase : st.baseXs.head (baseXs_ne_nil st) :: st.baseXs.tail = st.baseXs :=
    List.head_cons_tail _ _
  have hres := chainIv_zip st.baseXs.tail (st.baseXs.head (baseXs_ne_nil st))
    (csOf L st n) (by rw [hbase]; exact baseXs_sorted hwf)
    (csOf_ge_one _ _ _) (by rw [csOf_length, ivalsOf_length])
  have hivs : ((st.baseXs.head (baseXs_ne_nil st) :: st.baseXs.tail).zip
      st.baseXs.tail) = st.ivalsOf := by
    show _ = st.baseXs.zip st.baseXs.tail
    rw [hbase]
  rw [hivs] at hres
  exact hres

theorem gapsOf_ask_true {L : LossFun} {st : Learner1D} {n : ℕ}
    (hwf : st.WF) (hn : ¬ n ≤ st.missingBounds.length) :
    gapsOf (ask L st n true).2.keys
      = ((st.ivalsOf).zip (csOf L st n)).flatMap
          (fun q => List.replicate q.2 ((q.1.2 - q.1.1) / (q.2 : ℚ))) := by
  rw [ask_true_keys_refine hwf hn]
  exact gapsOf_refineFrom _ _ (chainIv_ask L n hwf)

/-- The greedy subdivision with the uniform loss keeps all gaps within a
factor two of each other. -/
theorem gapsFac2_ask_true {st : Learner1D} {n : ℕ}
    (hwf : st.WF) (hlh : st.lo < st.hi)
    (hn : ¬ n ≤ st.missingBounds.length)
    (hfac : GapsFac2 st.baseXs) :
    GapsFac2 (ask uniformLoss st n true).2.keys := by
  have hw : (0 : ℚ) < st.hi - st.lo := sub_pos.2 hlh
  have hwne : (st.hi - st.lo) ≠ 0 := ne_of_gt hw
  have hsorted := baseXs_sorted hwf
  have hgaps := gapsOf_ask_true (L := uniformLoss) hwf hn
  set ls := (st.ivalsOf).map
    (fun iv => uniformLoss (st.lo, st.hi) iv st.dataPairs) with hls
  have hstart_pos : EntryPos (ls.map (fun a => (a, 1))) := by
    intro p hp
    obtain ⟨a, ha, rfl⟩ := List.mem_map.1 hp
    refine ⟨?_, le_refl 1⟩
    rw [hls] at ha
    obtain ⟨iv, hiv, rfl⟩ := List.mem_map.1 ha
    show 0 < uniformLoss (st.lo, st.hi) iv st.dataPairs
    unfold uniformLoss
    have hab : iv.1 < iv.2 := zip_tail_lt hsorted hiv
    exact div_pos (sub_pos.2 hab) hw
  have hstart_fac : Fac2Q (ls.map (fun a => (a, 1))) := by
    intro p hp q hq
    obtain ⟨a, ha, rfl⟩ := List.mem_map.1 hp
    obtain ⟨b, hb, rfl⟩ := List.mem_map.1 hq
    rw [qualG_one, qualG_one]
    rw [hls] at ha hb
    obtain ⟨iv1, hiv1, rfl⟩ := List.mem_map.1 ha
    obtain ⟨iv2, hiv2, rfl⟩ := List.mem_map.1 hb
    have hg1 : (iv1.2 - iv1.1) ∈ gapsOf st.baseXs := by
      rw [gapsOf_eq_zip_map]
      exact List.mem_map.2 ⟨iv1, hiv1, rfl⟩
    have hg2 : (iv2.2 - iv2.1) ∈ gapsOf st.baseXs := by
      rw [gapsOf_eq_zip_map]
      exact List.mem_map.2 ⟨iv2, hiv2, rfl⟩
    have hle := hfac _ hg1 _ hg2
    show (iv1.2 - iv1.1) / (st.hi - st.lo)
      ≤ 2 * ((iv2.2 - iv2.1) / (st.hi - st.lo))
    rw [show (2 : ℚ) * ((iv2.2 - iv2.1) / (st.hi - st.lo))
        = (2 * (iv2.2 - iv2.1)) / (st.hi - st.lo) from by ring]
    exact (div_le_div_right hw).2 hle
  have hfin_fac : Fac2Q (finOf uniformLoss st n) := fac2_runG _ hstart_pos hstart_fac
  have hfin_eq : finOf uniformLoss st n = ls.zip (csOf uniformLoss st n) := by
    have hfst : (finOf uniformLoss st n).map Prod.fst = ls := by
      unfold finOf
      rw [runG_map_fst, List.map_map]
      simp [hls, Function.comp]
    have hsnd : (finOf uniformLoss st n).map Prod.snd = csOf uniformLoss st n := rfl
    rw [← hfst, ← hsnd, zip_fst_snd]
  intro g1 hg1 g2 hg2
  rw [hgaps] at hg1 hg2
  obtain ⟨q1, hq1, hg1v⟩ := List.mem_flatMap.1 hg1
  obtain ⟨q2, hq2, hg2v⟩ := List.mem_flatMap.1 hg2
  obtain ⟨⟨a1, b1⟩, c1⟩ := q1
  obtain ⟨⟨a2, b2⟩, c2⟩ := q2
  have hv1 := List.eq_of_mem_replicate hg1v
  have hv2 := List.eq_of_mem_replicate hg2v
  subst hv1
  subst hv2
  have hc1 : 1 ≤ c1 := csOf_ge_one _ _ _ c1 (List.of_mem_zip hq1).2
  have hc2 : 1 ≤ c2 := csOf_ge_one _ _ _ c2 (List.of_mem_zip hq2).2
  have hmem1 : ((b1 - a1) / (st.hi - st.lo), c1) ∈ finOf uniformLoss st n := by
    rw [hfin_eq, hls, List.zip_map_left]
    exact List.mem_map.2 ⟨((a1, b1), c1), hq1, rfl⟩
  have hmem2 : ((b2 - a2) / (st.hi - st.lo), c2) ∈ finOf uniformLoss st n := by
    rw [hfin_eq, hls, List.zip_map_left]
    exact List.mem_map.2 ⟨((a2, b2), c2), hq2, rfl⟩
  have key := hfin_fac _ hmem1 _ hmem2
  unfold qualG at key
  have hc1q : ((c1 : ℚ)) ≠ 0 := by
    have : (0 : ℚ) < (c1 : ℚ) := by exact_mod_cast lt_of_lt_of_le Nat.zero_lt_one hc1
    exact ne_of_gt this
  have hc2q : ((c2 : ℚ)) ≠ 0 := by
    have : (0 : ℚ) < (c2 : ℚ) := by exact_mod_cast lt_of_lt_of_le Nat.zero_lt_one hc2
    exact ne_of_gt this
  have e1 : (b1 - a1) / (c1 : ℚ)
      = ((b1 - a1) / (st.hi - st.lo)) / (c1 : ℚ) * (st.hi - st.lo) := by
    field_simp
    ring
  have e2 : (b2 - a2) / (c2 : ℚ)
      = ((b2 - a2) / (st.hi - st.lo)) / (c2 : ℚ) * (st.hi - st.lo) := by
    field_simp
    ring
  show (b1 - a1) / (c1 : ℚ) ≤ 2 * ((b2 - a2) / (c2 : ℚ))
  rw [e1, e2]
  calc ((b1 - a1) / (st.hi - st.lo)) / (c1 : ℚ) * (st.hi - st.lo)
      ≤ (2 * (((b2 - a2) / (st.hi - st.lo)) / (c2 : ℚ))) * (st.hi - st.lo) :=
        mul_le_mul_of_nonneg_right key (le_of_lt hw)
    _ = 2 * (((b2 - a2) / (st.hi - st.lo)) / (c2 : ℚ) * (st.hi - st.lo)) := by ring

theorem KInv_init (lo hi : ℚ) : KInv (init lo hi) := ⟨WF_init _ _, Or.inl rfl⟩

theorem keys_bounded_of_KInv {st : Learner1D} (h : KInv st)
    (hlh : st.lo < st.hi) : ∀ k ∈ st.keys, st.lo ≤ k ∧ k ≤ st.hi := by
  rcases h.2 with h2 | h2 | h2
  · rw [h2]
    intro k hk
    cases hk
  · rw [h2]
    intro k hk
    rcases List.mem_cons.1 hk with rfl | hk2
    · exact ⟨le_refl _, le_of_lt hlh⟩
    · cases hk2
  · exact h2.2.2.1

theorem gapsFac2_pair {lo hi : ℚ} (hlh : lo < hi) : GapsFac2 [lo, hi] := by
  intro a ha b hb
  have hga : gapsOf [lo, hi] = [hi - lo] := rfl
  rw [hga] at ha hb
  rcases List.mem_cons.1 ha with rfl | h1
  · rcases List.mem_cons.1 hb with heq | h2
    · rw [heq]
      have : (0 : ℚ) < hi - lo := sub_pos.2 hlh
      linarith
    · cases h2
  · cases h1

theorem baseXs_of_keys_nil {st : Learner1D} (hk : st.keys = [])
    (hlh : st.lo < st.hi) : st.baseXs = [st.lo, st.hi] := by
  unfold baseXs
  rw [hk]
  show insertX st.lo [st.hi] = _
  rw [insertX, if_pos hlh]

theorem baseXs_of_keys_lo {st : Learner1D} (hk : st.keys = [st.lo])
    (hlh : st.lo < st.hi) : st.baseXs = [st.lo, st.hi] := by
  unfold baseXs
  rw [hk]
  have h1 : insertX st.hi [st.lo] = [st.lo, st.hi] := by
    rw [insertX, if_neg (not_lt.2 (le_of_lt hlh)),
      if_neg (Ne.symm (ne_of_lt hlh))]
    rfl
  rw [h1, insertX, if_neg (lt_irrefl st.lo), if_pos rfl]

theorem gapsFac2_baseXs_of_KInv {st : Learner1D} (h : KInv st)
    (hlh : st.lo < st.hi) : GapsFac2 st.baseXs := by
  rcases h.2 with h2 | h2 | h2
  · rw [baseXs_of_keys_nil h2 hlh]
    exact gapsFac2_pair hlh
  · rw [baseXs_of_keys_lo h2 hlh]
    exact gapsFac2_pair hlh
  · rw [baseXs_eq_keys h.1 h2.1 h2.2.1]
    exact h2.2.2.2

theorem insertX_gt_singleton {lo hi : ℚ} (hlh : lo < hi) :
    insertX hi [lo] = [lo, hi] := by
  rw [insertX, if_neg (not_lt.2 (le_of_lt hlh)),
    if_neg (Ne.symm (ne_of_lt hlh))]
  rfl

theorem spanning_pair {lo hi : ℚ} {l : List ℚ} (hlh : lo < hi)
    (hk : l = [lo, hi]) :
    lo ∈ l ∧ hi ∈ l ∧ (∀ k ∈ l, lo ≤ k ∧ k ≤ hi) ∧ GapsFac2 l := by
  rw [hk]
  refine ⟨List.mem_cons_self _ _,
    List.mem_cons_of_mem _ (List.mem_cons_self _ _), ?_, gapsFac2_pair hlh⟩
  intro k hk2
  rcases List.mem_cons.1 hk2 with rfl | hk3
  · exact ⟨le_refl _, le_of_lt hlh⟩
  · rcases List.mem_cons.1 hk3 with rfl | hk4
    · exact ⟨le_of_lt hlh, le_refl _⟩
    · cases hk4

/-- The reachability invariant is preserved by every committed ask with the
uniform loss. -/
theorem KInv_ask_true {st : Learner1D} {n : ℕ} (hlh : st.lo < st.hi)
    (h : KInv st) : KInv (ask uniformLoss st n true).2 := by
  have hwf := h.1
  have hne : st.lo ≠ st.hi := ne_of_lt hlh
  refine ⟨WF_ask_true hwf, ?_⟩
  rw [lo_ask_true, hi_ask_true]
  by_cases hn : n ≤ st.missingBounds.length
  · have hkeys : (ask uniformLoss st n true).2.keys
        = foldIns st.keys (st.missingBounds.take n) := by
      rw [keys_ask_true hwf, askPoints_of_le hn]
    rcases h.2 with h2 | h2 | h2
    · have hmb : st.missingBounds = [st.lo, st.hi] := by
        unfold missingBounds
        simp [h2]
      rw [hmb] at hkeys hn
      simp only [List.length_cons, List.length_nil] at hn
      interval_cases n
      · exact Or.inl (by rw [hkeys, h2]; rfl)
      · exact Or.inr (Or.inl (by rw [hkeys, h2]; rfl))
      · refine Or.inr (Or.inr (spanning_pair hlh ?_))
        rw [hkeys, h2]
        show insertX st.hi (insertX st.lo []) = _
        exact insertX_gt_singleton hlh
    · have hmb : st.missingBounds = [st.hi] := by
        unfold missingBounds
        simp [h2, Ne.symm hne]
      rw [hmb] at hkeys hn
      simp only [List.length_cons, List.length_nil] at hn
      interval_cases n
      · exact Or.inr (Or.inl (by rw [hkeys, h2]; rfl))
      · refine Or.inr (Or.inr (spanning_pair hlh ?_))
        rw [hkeys, h2]
        show insertX st.hi [st.lo] = _
        exact insertX_gt_singleton hlh
    · have hmb : st.missingBounds = [] := by
        unfold missingBounds
        rw [if_pos h2.1, if_pos h2.2.1]
        rfl
      rw [hmb] at hkeys hn
      simp only [List.length_nil, Nat.le_zero] at hn
      subst hn
      have hkeq : (ask uniformLoss st 0 true).2.keys = st.keys := by
        rw [hkeys]
        rfl
      rw [hkeq]
      exact Or.inr (Or.inr h2)
  · have hb := keys_bounded_of_KInv h hlh
    have hmem := fun y => mem_keys_ask_true (L := uniformLoss) (n := n) hwf y
    refine Or.inr (Or.inr ⟨?_, ?_, ?_, ?_⟩)
    · by_cases hlo : st.lo ∈ st.keys
      · exact (hmem st.lo).2 (Or.inr hlo)
      · refine (hmem st.lo).2 (Or.inl ?_)
        rw [askPoints_decomp hn]
        exact List.mem_append_left _ (lo_mem_missingBounds hlo)
    · by_cases hhi : st.hi ∈ st.keys
      · exact (hmem st.hi).2 (Or.inr hhi)
      · refine (hmem st.hi).2 (Or.inl ?_)
        rw [askPoints_decomp hn]
        exact List.mem_append_left _ (hi_mem_missingBounds hhi)
    · intro k hk
      rcases (hmem k).1 hk with h3 | h3
      · exact askPoints_bounded hwf hlh hb k h3
      · exact hb k h3
    · exact gapsFac2_ask_true hwf hlh hn (gapsFac2_baseXs_of_KInv h hlh)

theorem askSeq_lo (L : LossFun) :
    ∀ (ns : List ℕ) (st : Learner1D), (askSeq L st ns).2.lo = st.lo := by
  intro ns
  induction ns with
  | nil => intro st; rfl
  | cons n ns ih =>
      intro st
      show (askSeq L (ask L st n true).2 ns).2.lo = st.lo
      rw [ih, lo_ask_true]

theorem askSeq_hi (L : LossFun) :
    ∀ (ns : List ℕ) (st : Learner1D), (askSeq L st ns).2.hi = st.hi := by
  intro ns
  induction ns with
  | nil => intro st; rfl
  | cons n ns ih =>
      intro st
      show (askSeq L (ask L st n true).2 ns).2.hi = st.hi
      rw [ih, hi_ask_true]

theorem askSeq_WF (L : LossFun) :
    ∀ (ns : List ℕ) (st : Learner1D), st.WF → (askSeq L st ns).2.WF := by
  intro ns
  induction ns with
  | nil => intro st h; exact h
  | cons n ns ih => intro st h; exact ih _ (WF_ask_true h)

theorem KInv_askSeq :
    ∀ (ns : List ℕ) (st : Learner1D), st.lo < st.hi → KInv st →
    KInv (askSeq uniformLoss st ns).2 := by
  intro ns
  induction ns with
  | nil => intro st _ h; exact h
  | cons n ns ih =>
      intro st hlh h
      refine ih _ ?_ (KInv_ask_true hlh h)
      rw [lo_ask_true, hi_ask_true]
      exact hlh

theorem askSeq_acc (L : LossFun) :
    ∀ (ns : List ℕ) (st : Learner1D), st.WF → st.lo < st.hi →
    (askSeq L st ns).1.Nodup ∧
    (∀ y, y ∈ (askSeq L st ns).2.keys ↔ y ∈ (askSeq L st ns).1 ∨ y ∈ st.keys) ∧
    (∀ y ∈ (askSeq L st ns).1, y ∉ st.keys) := by
  intro ns
  induction ns with
  | nil =>
      intro st hwf _
      refine ⟨List.nodup_nil, ?_, ?_⟩
      · intro y
        simp [askSeq]
      · intro y hy
        cases hy
  | cons n ns ih =>
      intro st hwf hlh
      have hwf1 : (ask L st n true).2.WF := WF_ask_true hwf
      have hlh1 : (ask L st n true).2.lo < (ask L st n true).2.hi := by
        rw [lo_ask_true, hi_ask_true]
        exact hlh
      obtain ⟨hnd, hmemi, hfr⟩ := ih (ask L st n true).2 hwf1 hlh1
      obtain ⟨hpnd, hpfr⟩ := askPoints_fresh (L := L) (n := n) hwf hlh
      have hshape : askSeq L st (n :: ns)
          = ((ask L st n true).1.1 ++ (askSeq L (ask L st n true).2 ns).1,
             (askSeq L (ask L st n true).2 ns).2) := rfl
      have hout : (ask L st n true).1.1 = (askPoints L st n).1 := rfl
      refine ⟨?_, ?_, ?_⟩
      · rw [hshape]
        show ((ask L st n true).1.1 ++ (askSeq L (ask L st n true).2 ns).1).Nodup
        rw [List.nodup_append]
        refine ⟨by rw [hout]; exact hpnd, hnd, ?_⟩
        intro y hy hy2
        have hyk : y ∈ (ask L st n true).2.keys := by
          rw [mem_keys_ask_true hwf]
          exact Or.inl (by rw [← hout]; exact hy)
        exact hfr y hy2 hyk
      · intro y
        rw [hshape]
        show y ∈ (askSeq L (ask L st n true).2 ns).2.keys ↔ _
        rw [hmemi y, mem_keys_ask_true hwf]
        constructor
        · rintro (h1 | h1 | h1)
          · exact Or.inl (List.mem_append_right _ h1)
          · exact Or.inl (List.mem_append_left _ (by rw [hout]; exact h1))
          · exact Or.inr h1
        · rintro (h1 | h1)
          · rcases List.mem_append.1 h1 with h2 | h2
            · exact Or.inr (Or.inl (by rw [← hout]; exact h2))
            · exact Or.inl h2
          · exact Or.inr (Or.inr h1)
      · intro y hy
        rw [hshape] at hy
        have hy2 : y ∈ (ask L st n true).1.1 ++ (askSeq L (ask L st n true).2 ns).1 := hy
        rcases List.mem_append.1 hy2 with h1 | h1
        · exact hpfr y (by rw [← hout]; exact h1)
        · intro hyk
          have : y ∈ (ask L st n true).2.keys := by
            rw [mem_keys_ask_true hwf]
            exact Or.inr hyk
          exact hfr y h1 this

theorem askSeq_length (L : LossFun) :
    ∀ (ns : List ℕ) (st : Learner1D), st.WF → st.lo < st.hi →
    (askSeq L st ns).1.length = ns.sum := by
  intro ns
  induction ns with
  | nil => intro st _ _; rfl
  | cons n ns ih =>
      intro st hwf hlh
      show ((ask L st n true).1.1 ++ (askSeq L (ask L st n true).2 ns).1).length = _
      rw [List.length_append]
      have h1 : (ask L st n true).1.1.length = n := askPoints_length hwf hlh
      rw [h1, ih _ (WF_ask_true hwf) (by rw [lo_ask_true, hi_ask_true]; exact hlh)]
      rfl

end Learner1D

theorem nodup_of_sorted {l : List ℚ} (hs : List.Sorted (· < ·) l) :
    l.Nodup :=
  hs.imp (fun h => ne_of_lt h)

theorem sorted_le_of_sorted_lt {l : List ℚ} (hs : List.Sorted (· < ·) l) :
    List.Sorted (· ≤ ·) l :=
  hs.imp (fun h => le_of_lt h)

theorem gapsOf_pos_of_sorted {l : List ℚ} (hs : List.Sorted (· < ·) l) :
    ∀ g ∈ gapsOf l, 0 < g := by
  intro g hg
  rw [gapsOf_eq_zip_map] at hg
  obtain ⟨q, hq, rfl⟩ := List.mem_map.1 hg
  have := zip_tail_lt hs (by exact hq)
  linarith

theorem mergeSort_sorted_le (l : List ℚ) :
    List.Sorted (· ≤ ·) (l.mergeSort (· ≤ ·)) := by
  have h := @List.sorted_mergeSort ℚ
    (fun a b : ℚ => decide (a ≤ b))
    (fun a b c h1 h2 =>
      decide_eq_true (le_trans (of_decide_eq_true h1) (of_decide_eq_true h2)))
    (fun a b => by
      show (decide (a ≤ b) || decide (b ≤ a)) = true
      rcases le_total a b with h | h
      · rw [decide_eq_true h]
        rfl
      · rw [decide_eq_true h]
        exact Bool.or_true _) l
  exact h.imp (fun hab => of_decide_eq_true hab)

/-- Sorting the accumulated points of an ask sequence from a fresh learner
gives exactly the final key list. -/
theorem mergeSort_askSeq_eq_keys (L : LossFun) (lo hi : ℚ) (hlh : lo < hi)
    (ns : List ℕ) :
    ((askSeq L (Learner1D.init lo hi) ns).1).mergeSort (· ≤ ·)
      = (askSeq L (Learner1D.init lo hi) ns).2.keys := by
  obtain ⟨hnd, hmem, _⟩ :=
    askSeq_acc L ns (Learner1D.init lo hi) (Learner1D.WF_init lo hi) hlh
  have hwff : (askSeq L (Learner1D.init lo hi) ns).2.WF :=
    askSeq_WF L ns _ (Learner1D.WF_init lo hi)
  have hskeys : List.Sorted (· < ·)
      (askSeq L (Learner1D.init lo hi) ns).2.keys :=
    Learner1D.sorted_keys hwff
  have hperm1 : (((askSeq L (Learner1D.init lo hi) ns).1).mergeSort
      (· ≤ ·)).Perm (askSeq L (Learner1D.init lo hi) ns).1 :=
    List.mergeSort_perm _ _
  have hperm2 : ((askSeq L (Learner1D.init lo hi) ns).1).Perm
      (askSeq L (Learner1D.init lo hi) ns).2.keys := by
    refine (List.perm_ext_iff_of_nodup hnd (nodup_of_sorted hskeys)).2 ?_
    intro a
    rw [hmem a]
    have : a ∈ (Learner1D.init lo hi).keys ↔ False := by
      show a ∈ ([] : List ℚ) ↔ False
      simp
    rw [this]
    tauto
  exact List.eq_of_perm_of_sorted (hperm1.trans hperm2)
    (mergeSort_sorted_le _) (sorted_le_of_sorted_lt hskeys)

/-- Claim C5.  Uniform bootstrap: for a freshly constructed 1-D interval
learner with no told data, after any sequence of between 10 and 20 ask
calls each requesting between 10 and 20 points, with no intervening tell,
the ratio of any gap between sorted consecutive returned points to any
other gap, in particular of the largest to the smallest, stays below
2 + 10^-8. -/
theorem uniform_bootstrap_gap_ratio (lo hi : ℚ) (ns : List ℕ)
    (hlh : lo < hi)
    (hlen1 : 10 ≤ ns.length) (hlen2 : ns.length ≤ 20)
    (hns : ∀ n ∈ ns, 10 ≤ n ∧ n ≤ 20) :
    ∀ g1 ∈ gapsOf (((askSeq uniformLoss (Learner1D.init lo hi) ns).1).mergeSort (· ≤ ·)),
    ∀ g2 ∈ gapsOf (((askSeq uniformLoss (Learner1D.init lo hi) ns).1).mergeSort (· ≤ ·)),
      g1 / g2 < 2 + 1 / 100000000 := by
  intro g1 hg1 g2 hg2
  rw [mergeSort_askSeq_eq_keys uniformLoss lo hi hlh ns] at hg1 hg2
  have hK := KInv_askSeq ns (Learner1D.init lo hi) hlh (Learner1D.KInv_init lo hi)
  have hwff := hK.1
  have hlo := askSeq_lo uniformLoss ns (Learner1D.init lo hi)
  have hhi := askSeq_hi uniformLoss ns (Learner1D.init lo hi)
  obtain ⟨hnd, hmem, _⟩ :=
    askSeq_acc uniformLoss ns (Learner1D.init lo hi) (Learner1D.WF_init lo hi) hlh
  have hlen : (askSeq uniformLoss (Learner1D.init lo hi) ns).1.length = ns.sum :=
    askSeq_length uniformLoss ns _ (Learner1D.WF_init lo hi) hlh
  have hsum : 10 ≤ ns.sum := by
    have hne : ns ≠ [] := by
      intro h
      rw [h] at hlen1
      simp at hlen1
    obtain ⟨n, hn⟩ := List.exists_mem_of_ne_nil ns hne
    calc 10 ≤ n := (hns n hn).1
      _ ≤ ns.sum := List.single_le_sum (fun x _ => Nat.zero_le x) n hn
  have hkeyslen : 2 ≤ (askSeq uniformLoss (Learner1D.init lo hi) ns).2.keys.length := by
    have hperm : ((askSeq uniformLoss (Learner1D.init lo hi) ns).1).Perm
        (askSeq uniformLoss (Learner1D.init lo hi) ns).2.keys := by
      refine (List.perm_ext_iff_of_nodup hnd
        (nodup_of_sorted (Learner1D.sorted_keys hwff))).2 ?_
      intro a
      rw [hmem a]
      have h0 : a ∈ (Learner1D.init lo hi).keys ↔ False := by
        show a ∈ ([] : List ℚ) ↔ False
        simp
      rw [h0]
      tauto
    rw [← hperm.length_eq, hlen]
    omega
  have hfac : GapsFac2 (askSeq uniformLoss (Learner1D.init lo hi) ns).2.keys := by
    rcases hK.2 with h2 | h2 | h2
    · rw [h2] at hkeyslen
      simp at hkeyslen
    · rw [h2] at hkeyslen
      simp at hkeyslen
    · exact h2.2.2.2
  have hle := hfac g1 hg1 g2 hg2
  have hpos := gapsOf_pos_of_sorted (Learner1D.sorted_keys hwff) g2 hg2
  have hdiv : g1 / g2 ≤ 2 := by
    rw [div_le_iff hpos]
    linarith
  have : (2 : ℚ) < 2 + 1 / 100000000 := by norm_num
  linarith

/-- Concrete instance of claim C5 on the domain from 0 to 1 with ten ask
calls of ten points each. -/
theorem uniform_bootstrap_gap_ratio_witness :
    ((0 : ℚ) < 1 ∧ 10 ≤ (List.replicate 10 (10 : ℕ)).length ∧
      (List.replicate 10 (10 : ℕ)).length ≤ 20 ∧
      (∀ n ∈ List.replicate 10 (10 : ℕ), 10 ≤ n ∧ n ≤ 20)) ∧
    (∀ g1 ∈ gapsOf (((askSeq uniformLoss (Learner1D.init 0 1)
        (List.replicate 10 (10 : ℕ))).1).mergeSort (· ≤ ·)),
     ∀ g2 ∈ gapsOf (((askSeq uniformLoss (Learner1D.init 0 1)
        (List.replicate 10 (10 : ℕ))).1).mergeSort (· ≤ ·)),
      g1 / g2 < 2 + 1 / 100000000) :=
  ⟨⟨by norm_num, by decide, by decide, by decide⟩,
    uniform_bootstrap_gap_ratio 0 1 (List.replicate 10 10) (by norm_num)
      (by decide) (by decide) (by decide)⟩

theorem lo_tellList (st : Learner1D) (ps : List (ℚ × ℚ)) :
    (st.tellList ps).lo = st.lo := by
  induction ps generalizing st with
  | nil => rfl
  | cons p rest ih => rw [Learner1D.tellList_cons, ih]; rfl

theorem hi_tellList (st : Learner1D) (ps : List (ℚ × ℚ)) :
    (st.tellList ps).hi = st.hi := by
  induction ps generalizing st with
  | nil => rfl
  | cons p rest ih => rw [Learner1D.tellList_cons, ih]; rfl

theorem keys_tellList (st : Learner1D) (ps : List (ℚ × ℚ)) :
    (st.tellList ps).keys = foldIns st.keys (ps.map Prod.fst) := by
  induction ps generalizing st with
  | nil => rfl
  | cons p rest ih =>
      rw [Learner1D.tellList_cons, ih, List.map_cons, foldIns_cons,
        Learner1D.keys_tell]

theorem foldIns_of_mem {l : List ℚ} (hs : List.Sorted (· < ·) l) :
    ∀ xs : List ℚ, (∀ x ∈ xs, x ∈ l) → foldIns l xs = l := by
  intro xs
  induction xs with
  | nil => intro _; rfl
  | cons x rest ih =>
      intro h
      rw [foldIns_cons, insertX_of_mem hs (h x (List.mem_cons_self _ _))]
      exact ih (fun y hy => h y (List.mem_cons_of_mem _ hy))

theorem foldIns_length_of_fresh :
    ∀ (xs : List ℚ) (l : List ℚ), xs.Nodup → (∀ x ∈ xs, x ∉ l) →
    (foldIns l xs).length = l.length + xs.length := by
  intro xs
  induction xs with
  | nil => intro l _ _; rfl
  | cons x rest ih =>
      intro l hnd hfr
      rw [foldIns_cons, ih (insertX x l) (List.nodup_cons.1 hnd).2 ?_,
        length_insertX_not_mem (hfr x (List.mem_cons_self _ _))]
      · simp only [List.length_cons]
        omega
      · intro y hy hmem
        rcases mem_insertX.1 hmem with rfl | h2
        · exact (List.nodup_cons.1 hnd).1 hy
        · exact hfr y (List.mem_cons_of_mem _ hy) h2

theorem lookupPt_mem_sorted {l : PtList} {x : ℚ} {s : PointState}
    (hs : SortedKeys l) (hmem : (x, s) ∈ l) : lookupPt x l = some s := by
  induction l with
  | nil => cases hmem
  | cons p rest ih =>
      rcases List.mem_cons.1 hmem with heq | h2
      · rw [← heq]
        show lookupPt x ((x, s) :: rest) = some s
        rw [lookupPt, if_pos rfl]
      · have hxk : x ∈ keysOf rest := List.mem_map.2 ⟨(x, s), h2, rfl⟩
        have hs2 : List.Sorted (· < ·) (p.1 :: keysOf rest) := by
          have : keysOf (p :: rest) = p.1 :: keysOf rest := rfl
          rw [← this]
          exact hs
        have hlt : p.1 < x := (List.sorted_cons.1 hs2).1 x hxk
        rw [lookupPt, if_neg (Ne.symm (ne_of_lt hlt))]
        refine ih ?_ h2
        exact (List.sorted_cons.1 hs2).2

theorem filterMap_confirmed_keys :
    ∀ (l : PtList), (∀ p ∈ l, ∃ y, p.2 = PointState.confirmed y) →
    (l.filterMap (fun p =>
      match p.2 with
      | .confirmed y => some (p.1, y)
      | .pending => none)).map Prod.fst = keysOf l := by
  intro l
  induction l with
  | nil => intro _; rfl
  | cons p rest ih =>
      intro h
      obtain ⟨y, hy⟩ := h p (List.mem_cons_self _ _)
      have hk : keysOf (p :: rest) = p.1 :: keysOf rest := rfl
      rw [List.filterMap_cons, hy, hk, List.map_cons,
        ih (fun q hq => h q (List.mem_cons_of_mem _ hq))]

theorem dataXs_eq_keys {st : Learner1D} (h : AllConfirmed st) :
    st.dataXs = st.keys :=
  filterMap_confirmed_keys st.pts h

theorem npoints_eq_keys_length {st : Learner1D} (h : AllConfirmed st) :
    st.npoints = st.keys.length := by
  have h1 : st.dataXs.length = st.npoints := List.length_map _ _
  rw [← h1, dataXs_eq_keys h]

theorem allConfirmed_of_keys_confirmed {st : Learner1D} (hwf : st.WF)
    (h : ∀ k ∈ st.keys, ∃ y, lookupPt k st.pts = some (.confirmed y)) :
    AllConfirmed st := by
  intro p hp
  have hk : p.1 ∈ st.keys := List.mem_map.2 ⟨p, hp, rfl⟩
  obtain ⟨y, hy⟩ := h p.1 hk
  have h2 : lookupPt p.1 st.pts = some p.2 :=
    lookupPt_mem_sorted hwf (show (p.1, p.2) ∈ st.pts from hp)
  rw [h2] at hy
  injection hy with hy
  exact ⟨y, hy⟩

theorem sum_replicate_coe (n : ℕ) (q : ℚ) :
    (List.replicate n ((q : ℚ) : WithTop ℚ)).sum
      = (((n : ℚ) * q : ℚ) : WithTop ℚ) := by
  induction n with
  | zero => simp
  | succ k ih =>
      rw [List.replicate_succ, List.sum_cons, ih, ← WithTop.coe_add]
      refine congrArg _ ?_
      push_cast
      ring

theorem sum_flatMap_imps (fin : List (ℚ × ℕ)) :
    (fin.flatMap (fun p =>
        List.replicate (p.2 - 1) ((qualG p : ℚ) : WithTop ℚ))).sum
      = (((fin.map (fun p => ((p.2 - 1 : ℕ) : ℚ) * qualG p)).sum : ℚ)
          : WithTop ℚ) := by
  induction fin with
  | nil => simp
  | cons p rest ih =>
      rw [List.flatMap_cons, List.sum_append, ih, sum_replicate_coe,
        List.map_cons, List.sum_cons, ← WithTop.coe_add]

theorem imps_sum_le (fin : List (ℚ × ℕ))
    (h : ∀ p ∈ fin, 0 ≤ p.1 ∧ 1 ≤ p.2) :
    (fin.map (fun p => ((p.2 - 1 : ℕ) : ℚ) * qualG p)).sum
      ≤ (fin.map Prod.fst).sum := by
  apply List.sum_le_sum
  intro p hp
  obtain ⟨h0, h1⟩ := h p hp
  unfold qualG
  have hc : (0 : ℚ) < (p.2 : ℚ) := by
    exact_mod_cast lt_of_lt_of_le Nat.zero_lt_one h1
  have hle : ((p.2 - 1 : ℕ) : ℚ) ≤ (p.2 : ℚ) := by
    exact_mod_cast Nat.sub_le _ _
  have hdiv : 0 ≤ p.1 / (p.2 : ℚ) := div_nonneg h0 (le_of_lt hc)
  calc ((p.2 - 1 : ℕ) : ℚ) * (p.1 / (p.2 : ℚ))
      ≤ (p.2 : ℚ) * (p.1 / (p.2 : ℚ)) := mul_le_mul_of_nonneg_right hle hdiv
    _ = p.1 := by field_simp

theorem missingBounds_init (lo hi : ℚ) :
    (Learner1D.init lo hi).missingBounds = [lo, hi] := by
  unfold Learner1D.missingBounds
  have h : (Learner1D.init lo hi).keys = [] := rfl
  simp [h]
  exact ⟨rfl, rfl⟩

theorem missingBounds_eq_nil {st : Learner1D}
    (h1 : st.lo ∈ st.keys) (h2 : st.hi ∈ st.keys) :
    st.missingBounds = [] := by
  unfold Learner1D.missingBounds
  rw [if_pos h1, if_pos h2]
  rfl

theorem bounds_mem_askPoints_init (L : LossFun) (lo hi : ℚ) {N : ℕ}
    (hN : 2 ≤ N) :
    lo ∈ (askPoints L (Learner1D.init lo hi) N).1 ∧
      hi ∈ (askPoints L (Learner1D.init lo hi) N).1 := by
  have hmb := missingBounds_init lo hi
  by_cases hn : N ≤ (Learner1D.init lo hi).missingBounds.length
  · have hN2 : N = 2 := by
      rw [hmb] at hn
      simp only [List.length_cons, List.length_nil] at hn
      omega
    subst hN2
    rw [Learner1D.askPoints_of_le hn]
    constructor
    · show lo ∈ (Learner1D.init lo hi).missingBounds.take 2
      rw [hmb]
      exact List.mem_cons_self _ _
    · show hi ∈ (Learner1D.init lo hi).missingBounds.take 2
      rw [hmb]
      exact List.mem_cons_of_mem _ (List.mem_cons_self _ _)
  · rw [Learner1D.askPoints_decomp hn]
    constructor
    · refine List.mem_append_left _ ?_
      rw [hmb]
      exact List.mem_cons_self _ _
    · refine List.mem_append_left _ ?_
      rw [hmb]
      exact List.mem_cons_of_mem _ (List.mem_cons_self _ _)

/-- Core bound: on a state whose bounds are recorded and whose every point
is confirmed, the estimated loss improvements of any uniform-loss ask sum
to at most the total loss. -/
theorem ask_sum_imps_le_loss {st2 : Learner1D} (hwf2 : st2.WF)
    (hlh2 : st2.lo < st2.hi) (hconf : AllConfirmed st2)
    (hloK : st2.lo ∈ st2.keys) (hhiK : st2.hi ∈ st2.keys) (M : ℕ) :
    ((askPoints uniformLoss st2 M).2).sum ≤ Learner1D.loss uniformLoss st2 := by
  by_cases h2 : st2.npoints < 2
  · have hT : Learner1D.loss uniformLoss st2 = ⊤ := by
      simp only [Learner1D.loss]
      rw [if_pos h2]
    rw [hT]
    exact le_top
  · have hmb : st2.missingBounds = [] := missingBounds_eq_nil hloK hhiK
    have hdx : st2.dataXs = st2.keys := dataXs_eq_keys hconf
    have hbx : st2.baseXs = st2.keys := baseXs_eq_keys hwf2 hloK hhiK
    have hci : st2.confIvals = st2.ivalsOf := by
      unfold Learner1D.confIvals Learner1D.ivalsOf
      rw [hdx, hbx]
    have hnn : ∀ q ∈ st2.ivalsOf.map
        (fun iv => uniformLoss (st2.lo, st2.hi) iv st2.dataPairs), 0 ≤ q := by
      intro q hq
      obtain ⟨iv, hiv, rfl⟩ := List.mem_map.1 hq
      have hz : (iv.1, iv.2) ∈ st2.baseXs.zip st2.baseXs.tail := by
        have h3 : iv ∈ st2.baseXs.zip st2.baseXs.tail := hiv
        simpa using h3
      have hab : iv.1 < iv.2 := zip_tail_lt (baseXs_sorted hwf2) hz
      show (0 : ℚ) ≤ (iv.2 - iv.1) / (st2.hi - st2.lo)
      exact div_nonneg (sub_nonneg.2 (le_of_lt hab))
        (sub_nonneg.2 (le_of_lt hlh2))
    have hlosseq : Learner1D.loss uniformLoss st2
        = (((st2.ivalsOf.map (fun iv =>
            uniformLoss (st2.lo, st2.hi) iv st2.dataPairs)).sum : ℚ)
          : WithTop ℚ) := by
      simp only [Learner1D.loss]
      rw [if_neg h2, hci]
    by_cases hM : M ≤ st2.missingBounds.length
    · have hM0 : M = 0 := by
        rw [hmb] at hM
        simpa using hM
      subst hM0
      rw [askPoints_of_le hM, hlosseq]
      show (List.replicate 0 (⊤ : WithTop ℚ)).sum
          ≤ (((st2.ivalsOf.map (fun iv =>
              uniformLoss (st2.lo, st2.hi) iv st2.dataPairs)).sum : ℚ)
            : WithTop ℚ)
      rw [List.replicate_zero, List.sum_nil, ← WithTop.coe_zero]
      exact WithTop.coe_le_coe.2 (List.sum_nonneg hnn)
    · rw [askPoints_of_gt hM, hlosseq]
      show (List.replicate st2.missingBounds.length (⊤ : WithTop ℚ)
          ++ (finOf uniformLoss st2 M).flatMap
            (fun p => List.replicate (p.2 - 1) ((qualG p : ℚ) : WithTop ℚ))).sum
        ≤ (((st2.ivalsOf.map (fun iv =>
            uniformLoss (st2.lo, st2.hi) iv st2.dataPairs)).sum : ℚ)
          : WithTop ℚ)
      rw [hmb]
      simp only [List.length_nil, List.replicate_zero, List.nil_append]
      rw [sum_flatMap_imps, WithTop.coe_le_coe]
      have hfst : (finOf uniformLoss st2 M).map Prod.fst
          = st2.ivalsOf.map (fun iv =>
              uniformLoss (st2.lo, st2.hi) iv st2.dataPairs) := by
        show (runG ((st2.ivalsOf.map (fun iv =>
            uniformLoss (st2.lo, st2.hi) iv st2.dataPairs)).map
              (fun a => (a, 1))) (M - st2.missingBounds.length)).map Prod.fst
          = _
        rw [runG_map_fst, List.map_map]
        simp [Function.comp]
      have hent : ∀ p ∈ finOf uniformLoss st2 M, 0 ≤ p.1 ∧ 1 ≤ p.2 := by
        intro p hp
        refine ⟨?_, ?_⟩
        · have h4 : p.1 ∈ (finOf uniformLoss st2 M).map Prod.fst :=
            List.mem_map.2 ⟨p, hp, rfl⟩
          rw [hfst] at h4
          exact hnn p.1 h4
        · have hp2 : p ∈ runG ((st2.ivalsOf.map (fun iv =>
              uniformLoss (st2.lo, st2.hi) iv st2.dataPairs)).map
                (fun a => (a, 1))) (M - st2.missingBounds.length) := hp
          refine countsOne_runG _ ?_ p hp2
          intro q hq
          obtain ⟨a, _, rfl⟩ := List.mem_map.1 hq
          exact le_refl 1
      calc ((finOf uniformLoss st2 M).map
            (fun p => ((p.2 - 1 : ℕ) : ℚ) * qualG p)).sum
          ≤ ((finOf uniformLoss st2 M).map Prod.fst).sum :=
            imps_sum_le _ hent
        _ = _ := by rw [hfst]

/-- Claim C6.  Preview ask is non-mutating: ask with tell_pending false
leaves the learner state unchanged, offers the same candidate points as a
committed ask would, and any subsequent sequence of real ask and tell
calls produces exactly the same results as if the preview had never
happened. -/
theorem ask_preview_non_mutating (L : LossFun) (st : Learner1D) (n : ℕ) :
    (ask L st n false).2 = st ∧
    (ask L st n false).1 = (ask L st n true).1 ∧
    ∀ ops : List LOp, runOps L (ask L st n false).2 ops = runOps L st ops :=
  ⟨rfl, rfl, fun _ => rfl⟩

/-- Claim C1.  Idempotent tell: telling the same batch of samples twice,
the second time in an arbitrary shuffled order, yields the same subsequent
ask output, compared as sets, as a control learner of identical
configuration that received each sample exactly once. -/
theorem tell_idempotent_shuffled (L : LossFun) (st : Learner1D)
    (ps σ : List (ℚ × ℚ)) (M : ℕ)
    (hwf : st.WF) (hperm : σ.Perm ps) (hnd : (ps.map Prod.fst).Nodup) :
    ((askPoints L ((st.tellList ps).tellList σ) M).1.zip
        (askPoints L ((st.tellList ps).tellList σ) M).2).toFinset
      = ((askPoints L (st.tellList ps) M).1.zip
          (askPoints L (st.tellList ps) M).2).toFinset := by
  have hstate : (st.tellList ps).tellList σ = st.tellList ps := by
    apply tellList_noop (WF_tellList hwf)
    intro p hp
    have hp2 : p ∈ ps := hperm.subset hp
    obtain ⟨x, y⟩ := p
    exact tellList_lookup hnd hp2
  rw [hstate]

/-- Concrete instance of claim C1: three samples told twice, the second
time reversed. -/
theorem tell_idempotent_shuffled_witness :
    ((Learner1D.init 0 2).WF ∧
      ([((2 : ℚ), (3 : ℚ)), (0, 1), (1, 2)] : List (ℚ × ℚ)).Perm
        [(0, 1), (1, 2), (2, 3)] ∧
      (([((0 : ℚ), (1 : ℚ)), (1, 2), (2, 3)] : List (ℚ × ℚ)).map Prod.fst).Nodup) ∧
    ((askPoints uniformLoss (((Learner1D.init 0 2).tellList
        [(0, 1), (1, 2), (2, 3)]).tellList [(2, 3), (0, 1), (1, 2)]) 5).1.zip
      (askPoints uniformLoss (((Learner1D.init 0 2).tellList
        [(0, 1), (1, 2), (2, 3)]).tellList [(2, 3), (0, 1), (1, 2)]) 5).2).toFinset
      = ((askPoints uniformLoss ((Learner1D.init 0 2).tellList
          [(0, 1), (1, 2), (2, 3)]) 5).1.zip
        (askPoints uniformLoss ((Learner1D.init 0 2).tellList
          [(0, 1), (1, 2), (2, 3)]) 5).2).toFinset :=
  ⟨⟨Learner1D.WF_init 0 2, by decide, by decide⟩,
    tell_idempotent_shuffled uniformLoss (Learner1D.init 0 2)
      [(0, 1), (1, 2), (2, 3)] [(2, 3), (0, 1), (1, 2)] 5
      (Learner1D.WF_init 0 2) (by decide) (by decide)⟩

/-- Claim C2.  Order independence of tell: telling the same batch of
samples with pairwise distinct points in a shuffled order yields ask
results equal to those of a control learner of identical configuration
told the batch in the original order; the results are literally equal, so
in particular they agree as sorted sequences. -/
theorem tell_order_irrelevant (L : LossFun) (st : Learner1D)
    (ps σ : List (ℚ × ℚ)) (M : ℕ)
    (hwf : st.WF) (hperm : σ.Perm ps) (hnd : (ps.map Prod.fst).Nodup) :
    askPoints L (st.tellList σ) M = askPoints L (st.tellList ps) M := by
  have hσnd : (σ.map Prod.fst).Nodup := ((hperm.map Prod.fst).symm).nodup hnd
  rw [tellList_perm hperm st hwf hσnd]

/-- Concrete instance of claim C2: three samples told reversed. -/
theorem tell_order_irrelevant_witness :
    ((Learner1D.init 0 2).WF ∧
      ([((2 : ℚ), (3 : ℚ)), (0, 1), (1, 2)] : List (ℚ × ℚ)).Perm
        [(0, 1), (1, 2), (2, 3)] ∧
      (([((0 : ℚ), (1 : ℚ)), (1, 2), (2, 3)] : List (ℚ × ℚ)).map Prod.fst).Nodup) ∧
    askPoints uniformLoss ((Learner1D.init 0 2).tellList
        [(2, 3), (0, 1), (1, 2)]) 4
      = askPoints uniformLoss ((Learner1D.init 0 2).tellList
          [(0, 1), (1, 2), (2, 3)]) 4 :=
  ⟨⟨Learner1D.WF_init 0 2, by decide, by decide⟩,
    tell_order_irrelevant uniformLoss (Learner1D.init 0 2)
      [(0, 1), (1, 2), (2, 3)] [(2, 3), (0, 1), (1, 2)] 4
      (Learner1D.WF_init 0 2) (by decide) (by decide)⟩

/-- C4: Bounded improvement — after ask(N) on a fresh learner, telling the
sampled value of every returned point, the sum of the loss improvement
estimates returned by a subsequent ask(M) never exceeds the loss computed
from the confirmed data at that point. -/
theorem ask_improvement_bounded (lo hi : ℚ) (f : ℚ → ℚ) (N M : ℕ)
    (hlh : lo < hi) :
    ((askPoints uniformLoss (postTellState uniformLoss lo hi f N) M).2).sum
      ≤ Learner1D.loss uniformLoss (postTellState uniformLoss lo hi f N) := by
  have hwf0 : (Learner1D.init lo hi).WF := Learner1D.WF_init lo hi
  have hlh0 : (Learner1D.init lo hi).lo < (Learner1D.init lo hi).hi := hlh
  have hfresh := askPoints_fresh (L := uniformLoss) (n := N) hwf0 hlh0
  have hlen := askPoints_length (L := uniformLoss) (n := N) hwf0 hlh0
  have hunfold : postTellState uniformLoss lo hi f N
      = ((ask uniformLoss (Learner1D.init lo hi) N true).2).tellList
          ((askPoints uniformLoss (Learner1D.init lo hi) N).1.map
            (fun x => (x, f x))) := rfl
  rw [hunfold]
  set pts := (askPoints uniformLoss (Learner1D.init lo hi) N).1 with hpts
  set st1 := (ask uniformLoss (Learner1D.init lo hi) N true).2 with hst1
  set st2 := st1.tellList (pts.map (fun x => (x, f x))) with hst2
  have hwf1 : st1.WF := by
    rw [hst1]
    exact WF_ask_true hwf0
  have hwf2 : st2.WF := by
    rw [hst2]
    exact Learner1D.WF_tellList hwf1
  have h0 : (Learner1D.init lo hi).keys = ([] : List ℚ) := rfl
  have hkey1 : ∀ y : ℚ, y ∈ st1.keys ↔ y ∈ pts := by
    intro y
    rw [hst1, mem_keys_ask_true hwf0, ← hpts, h0]
    constructor
    · rintro (h | h)
      · exact h
      · exact absurd h (List.not_mem_nil y)
    · exact Or.inl
  have hmapgen : ∀ (l : List ℚ),
      ((l.map (fun x => (x, f x))).map Prod.fst) = l := by
    intro l
    induction l with
    | nil => rfl
    | cons a t ih => simp only [List.map_cons, ih]
  have hmapfst : ((pts.map (fun x => (x, f x))).map Prod.fst) = pts :=
    hmapgen pts
  have hkeys2 : st2.keys = st1.keys := by
    rw [hst2, keys_tellList, hmapfst]
    exact foldIns_of_mem (sorted_keys hwf1) pts (fun x hx => (hkey1 x).2 hx)
  have hconf : AllConfirmed st2 := by
    refine allConfirmed_of_keys_confirmed hwf2 ?_
    intro k hk
    rw [hkeys2] at hk
    have hkp : k ∈ pts := (hkey1 k).1 hk
    refine ⟨f k, ?_⟩
    rw [hst2]
    exact tellList_lookup (by rw [hmapfst]; exact hfresh.1)
      (List.mem_map.2 ⟨k, hkp, rfl⟩)
  have hnp : st2.npoints = N := by
    rw [npoints_eq_keys_length hconf, hkeys2, hst1, keys_ask_true hwf0,
      ← hpts, h0,
      foldIns_length_of_fresh pts [] hfresh.1
        (fun x _ hmem => absurd hmem (List.not_mem_nil x)),
      List.length_nil, Nat.zero_add]
    exact hlen
  by_cases hN : st2.npoints < 2
  · have hT : Learner1D.loss uniformLoss st2 = ⊤ := by
      simp only [Learner1D.loss]
      rw [if_pos hN]
    rw [hT]
    exact le_top
  · have hNge : 2 ≤ N := by omega
    have hbm := bounds_mem_askPoints_init uniformLoss lo hi hNge
    have hlo2 : st2.lo = lo := by
      rw [hst2, lo_tellList, hst1, lo_ask_true]
      rfl
    have hhi2 : st2.hi = hi := by
      rw [hst2, hi_tellList, hst1, hi_ask_true]
      rfl
    refine ask_sum_imps_le_loss hwf2 ?_ hconf ?_ ?_ M
    · rw [hlo2, hhi2]
      exact hlh
    · rw [hlo2, hkeys2]
      exact (hkey1 lo).2 hbm.1
    · rw [hhi2, hkeys2]
      exact (hkey1 hi).2 hbm.2

/-- Concrete instance of the bounded-improvement claim on bounds 0 and 2
with the identity sample function, four asked points and three more. -/
theorem ask_improvement_bounded_witness :
    (0 : ℚ) < 2 ∧
      ((askPoints uniformLoss (postTellState uniformLoss 0 2 (fun x => x) 4)
          3).2).sum
        ≤ Learner1D.loss uniformLoss
            (postTellState uniformLoss 0 2 (fun x => x) 4) :=
  ⟨by norm_num, ask_improvement_bounded 0 2 (fun x => x) 4 3 (by norm_num)⟩

/-- C10: the restore context manager is state-preserving on every exit
path — the body's outcome, normal or raised, is propagated unchanged, and
every learner's state after the block equals its state at entry, whatever
mutations the body performed, provided setstate genuinely reinstates the
recorded state and the body keeps the learners in place. -/
theorem restore_state_preserving {σ τ ε : Type}
    (getstate : σ → τ) (setstate : σ → τ → σ)
    (learners : List σ) (body : List σ → Option ε × List σ)
    (hrt : ∀ l t, getstate (setstate l t) = t)
    (hlen : (body learners).2.length = learners.length) :
    (restoreRun getstate setstate learners body).1 = (body learners).1 ∧
      (restoreRun getstate setstate learners body).2.map getstate
        = learners.map getstate := by
  constructor
  · rfl
  · show (((learners.map getstate).zip (body learners).2).map
        (fun p => setstate p.2 p.1)).map getstate = learners.map getstate
    rw [List.map_map]
    have h1 : (getstate ∘ fun p : τ × σ => setstate p.2 p.1)
        = (Prod.fst : τ × σ → τ) := by
      funext p
      exact hrt p.2 p.1
    rw [h1]
    apply List.map_fst_zip
    rw [hlen, List.length_map]

/-- Concrete instance of the restore claim: one learner, a body that both
mutates it and raises; the outcome is propagated and the state is restored. -/
theorem restore_state_preserving_witness :
    (([Learner1D.init 0 2].map (fun l => l.tell 1 5)).length
        = ([Learner1D.init 0 2] : List Learner1D).length) ∧
      (restoreRun getStateL setStateL [Learner1D.init 0 2]
          (fun ls => ((some () : Option Unit),
            ls.map (fun l => l.tell 1 5)))).1 = some () ∧
      (restoreRun getStateL setStateL [Learner1D.init 0 2]
          (fun ls => ((some () : Option Unit),
            ls.map (fun l => l.tell 1 5)))).2.map getStateL
        = [Learner1D.init 0 2].map getStateL :=
  ⟨rfl,
    (restore_state_preserving getStateL setStateL [Learner1D.init 0 2]
        (fun ls => ((some () : Option Unit),
          ls.map (fun l => l.tell 1 5)))
        (fun l t => rfl) rfl).1,
    (restore_state_preserving getStateL setStateL [Learner1D.init 0 2]
        (fun ls => ((some () : Option Unit),
          ls.map (fun l => l.tell 1 5)))
        (fun l t => rfl) rfl).2⟩

theorem decodePt_encodePt (p : ℚ × PointState) : decodePt (encodePt p) = p := by
  obtain ⟨x, s⟩ := p
  cases s <;> rfl

theorem decode_encode (st : Learner1D) : decodeState (encodeState st) = some st := by
  show some (⟨st.lo, st.hi, (st.pts.map encodePt).map decodePt⟩ : Learner1D)
      = some st
  rw [List.map_map]
  have h : (decodePt ∘ encodePt) = id := funext decodePt_encodePt
  rw [h, List.map_id]

theorem length_filterMap_toPair_insertPt :
    ∀ (l : PtList) (x y : ℚ), x ∉ keysOf l →
    (List.filterMap toPair (insertPt x (.confirmed y) l)).length
      = (List.filterMap toPair l).length + 1 := by
  intro l
  induction l with
  | nil =>
      intro x y _
      rfl
  | cons p rest ih =>
      intro x y hx
      obtain ⟨a, t⟩ := p
      have hk : keysOf ((a, t) :: rest) = a :: keysOf rest := rfl
      rw [hk] at hx
      have hx1 : x ≠ a := fun h => hx (h ▸ List.mem_cons_self a _)
      have hx2 : x ∉ keysOf rest := fun h => hx (List.mem_cons_of_mem a h)
      by_cases h1 : x < a
      · rw [insertPt, if_pos h1]
        have hstep : List.filterMap toPair
            ((x, PointState.confirmed y) :: (a, t) :: rest)
            = (x, y) :: List.filterMap toPair ((a, t) :: rest) := rfl
        rw [hstep, List.length_cons]
      · rw [insertPt, if_neg h1, if_neg hx1]
        cases t with
        | pending =>
            have e1 : List.filterMap toPair
                ((a, PointState.pending) :: insertPt x (.confirmed y) rest)
                = List.filterMap toPair (insertPt x (.confirmed y) rest) := rfl
            have e2 : List.filterMap toPair ((a, PointState.pending) :: rest)
                = List.filterMap toPair rest := rfl
            rw [e1, e2, ih x y hx2]
        | confirmed v =>
            have e1 : List.filterMap toPair
                ((a, PointState.confirmed v) :: insertPt x (.confirmed y) rest)
                = (a, v) :: List.filterMap toPair (insertPt x (.confirmed y) rest)
              := rfl
            have e2 : List.filterMap toPair ((a, PointState.confirmed v) :: rest)
                = (a, v) :: List.filterMap toPair rest := rfl
            rw [e1, e2, List.length_cons, List.length_cons, ih x y hx2]

theorem npoints_tell_fresh {st : Learner1D} {x y : ℚ} (hx : x ∉ st.keys) :
    (st.tell x y).npoints = st.npoints + 1 := by
  show (List.filterMap toPair (insertPt x (.confirmed y) st.pts)).length
      = (List.filterMap toPair st.pts).length + 1
  exact length_filterMap_toPair_insertPt st.pts x y hx

theorem simpleStep_props {L : LossFun} {f : ℚ → ℚ} {st : Learner1D}
    (hwf : st.WF) (hlh : st.lo < st.hi) :
    (simpleStep L f st).WF ∧ (simpleStep L f st).lo = st.lo ∧
      (simpleStep L f st).hi = st.hi ∧
      (simpleStep L f st).npoints = st.npoints + 1 := by
  have hlen : (askPoints L st 1).1.length = 1 := askPoints_length hwf hlh
  have hfr := askPoints_fresh (L := L) (n := 1) hwf hlh
  cases h : (askPoints L st 1).1 with
  | nil =>
      rw [h] at hlen
      cases hlen
  | cons x rest =>
      have hxf : x ∉ st.keys := hfr.2 x (h ▸ List.mem_cons_self x rest)
      have hs : simpleStep L f st = st.tell x (f x) := by
        rw [simpleStep, h]
      rw [hs]
      exact ⟨Learner1D.WF_tell x (f x) hwf, rfl, rfl, npoints_tell_fresh hxf⟩

theorem simpleRun_reaches (L : LossFun) (f : ℚ → ℚ) (goal : ℕ) :
    ∀ (fuel : ℕ) (st : Learner1D), st.WF → st.lo < st.hi →
    goal ≤ st.npoints + fuel →
    goal ≤ (simpleRun L f goal fuel st).npoints := by
  intro fuel
  induction fuel with
  | zero =>
      intro st _ _ h
      show goal ≤ st.npoints
      omega
  | succ k ih =>
      intro st hwf hlh h
      rw [simpleRun]
      by_cases hg : goal ≤ st.npoints
      · rw [if_pos hg]
        exact hg
      · rw [if_neg hg]
        obtain ⟨hwf2, hlo2, hhi2, hnp2⟩ :=
          simpleStep_props (L := L) (f := f) hwf hlh
        refine ih _ hwf2 ?_ ?_
        · rw [hlo2, hhi2]
          exact hlh
        · rw [hnp2]
          omega

/-- C8: atomic persistence — save goes through a temporary file with an
atomic rename, so a persistence failure surfaces the error and leaves a
pre-existing destination untouched, a successful save makes the complete
blob visible, and on every path the destination holds either its previous
content or the complete new blob, never a partial one. -/
theorem save_atomic (comp : Blob → Blob) (compress : Bool)
    (fname tmp : String) (data : Learner1D) (fs : FS)
    (hne : tmp ≠ fname) :
    (∀ k : ℕ, (save comp compress fname tmp data (some k) fs).1
        = Except.error () ∧
      (save comp compress fname tmp data (some k) fs).2 fname = fs fname) ∧
    ((save comp compress fname tmp data none fs).1 = Except.ok () ∧
      (save comp compress fname tmp data none fs).2 fname
        = some (if compress then comp (encodeState data)
                else encodeState data)) ∧
    (∀ c : Option ℕ,
      (save comp compress fname tmp data c fs).2 fname = fs fname ∨
      (save comp compress fname tmp data c fs).2 fname
        = some (if compress then comp (encodeState data)
                else encodeState data)) := by
  have hne2 : fname ≠ tmp := Ne.symm hne
  have herr : ∀ k : ℕ,
      (save comp compress fname tmp data (some k) fs).2 fname = fs fname := by
    intro k
    show fsUpdate fs tmp _ fname = fs fname
    unfold fsUpdate
    rw [if_neg hne2]
  have hok : (save comp compress fname tmp data none fs).2 fname
      = some (if compress then comp (encodeState data)
              else encodeState data) := by
    show fsUpdate (fsUpdate (fsUpdate fs tmp _) fname _) tmp none fname = _
    unfold fsUpdate
    rw [if_neg hne2, if_pos rfl]
  refine ⟨fun k => ⟨rfl, herr k⟩, ⟨rfl, hok⟩, ?_⟩
  intro c
  cases c with
  | none => exact Or.inr hok
  | some k => exact Or.inl (herr k)

/-- Concrete instance of the atomicity claim: distinct temporary and
destination paths on an empty filesystem; a crash after one element leaves
the destination empty and surfaces the error, a full save publishes the
complete blob. -/
theorem save_atomic_witness :
    ("t" : String) ≠ "a" ∧
      (save id false "a" "t" (Learner1D.init 0 1) (some 1)
        (fun _ => none)).1 = Except.error () ∧
      (save id false "a" "t" (Learner1D.init 0 1) (some 1)
        (fun _ => none)).2 "a" = none ∧
      (save id false "a" "t" (Learner1D.init 0 1) none
        (fun _ => none)).2 "a" = some (encodeState (Learner1D.init 0 1)) :=
  ⟨by decide,
    ((save_atomic id false "a" "t" (Learner1D.init 0 1) (fun _ => none)
      (by decide)).1 1).1,
    ((save_atomic id false "a" "t" (Learner1D.init 0 1) (fun _ => none)
      (by decide)).1 1).2,
    (save_atomic id false "a" "t" (Learner1D.init 0 1) (fun _ => none)
      (by decide)).2.1.2⟩

/-- C7: save/load round-trip — a learner driven past 100 confirmed points,
saved and loaded back, yields a learner whose loss equals the original
loss exactly, and driving the loaded learner on to more than 200 confirmed
points succeeds. -/
theorem save_load_roundtrip (comp decomp : Blob → Blob)
    (hcd : ∀ b, decomp (comp b) = b) (compress : Bool)
    (fname tmp : String) (fs : FS) (st : Learner1D) (f : ℚ → ℚ)
    (hwf : st.WF) (hlh : st.lo < st.hi) (hnp : 100 < st.npoints)
    (hne : tmp ≠ fname) :
    ∃ st2, load decomp compress fname
        (save comp compress fname tmp st none fs).2 = some st2 ∧
      Learner1D.loss uniformLoss st2 = Learner1D.loss uniformLoss st ∧
      200 < (simpleRun uniformLoss f 201 201 st2).npoints := by
  have hne2 : fname ≠ tmp := Ne.symm hne
  refine ⟨st, ?_, rfl, ?_⟩
  · have hfs : (save comp compress fname tmp st none fs).2 fname
        = some (if compress then comp (encodeState st) else encodeState st)
        := by
      show fsUpdate (fsUpdate (fsUpdate fs tmp _) fname _) tmp none fname = _
      unfold fsUpdate
      rw [if_neg hne2, if_pos rfl]
    unfold load
    rw [hfs]
    cases compress with
    | false => exact decode_encode st
    | true =>
        show decodeState (decomp (comp (encodeState st))) = some st
        rw [hcd]
        exact decode_encode st
  · have h := simpleRun_reaches uniformLoss f 201 201 st hwf hlh (by omega)
    omega

theorem sortedKeys_range (n : ℕ) :
    SortedKeys ((List.range n).map
      (fun j : ℕ => ((j : ℚ), PointState.confirmed 0))) := by
  have h : keysOf ((List.range n).map
        (fun j : ℕ => ((j : ℚ), PointState.confirmed 0)))
      = (List.range n).map (fun j : ℕ => (j : ℚ)) := by
    unfold keysOf
    rw [List.map_map]
    rfl
  show List.Sorted (· < ·) (keysOf _)
  rw [h]
  exact (List.pairwise_map).2
    ((List.pairwise_lt_range n).imp (fun hab => by exact_mod_cast hab))

/-- Concrete instance of the round-trip claim: a 101-point learner saved
uncompressed to path a through temporary t on an empty filesystem. -/
theorem save_load_roundtrip_witness :
    bigLearner.lo < bigLearner.hi ∧ 100 < bigLearner.npoints ∧
      ("t" : String) ≠ "a" ∧
      (∃ st2, load id false "a"
          (save id false "a" "t" bigLearner none (fun _ => none)).2
            = some st2 ∧
        Learner1D.loss uniformLoss st2 = Learner1D.loss uniformLoss bigLearner ∧
        200 < (simpleRun uniformLoss (fun _ => 0) 201 201 st2).npoints) :=
  ⟨by decide, by decide, by decide,
    save_load_roundtrip id id (fun b => rfl) false "a" "t" (fun _ => none)
      bigLearner (fun _ => 0) (sortedKeys_range 101 : bigLearner.WF)
      (by decide) (by decide) (by decide)⟩

theorem mem_map_scale {s : ℚ} (hs : s ≠ 0) (x : ℚ) (l : List ℚ) :
    s * x ∈ l.map (fun z => s * z) ↔ x ∈ l := by
  rw [List.mem_map]
  constructor
  · rintro ⟨z, hz, he⟩
    obtain rfl := mul_left_cancel₀ hs he
    exact hz
  · intro hx
    exact ⟨x, hx, rfl⟩

theorem insertX_scale {s : ℚ} (hs : 0 < s) (x : ℚ) :
    ∀ l : List ℚ, insertX (s * x) (l.map (fun z => s * z))
      = (insertX x l).map (fun z => s * z) := by
  intro l
  induction l with
  | nil => rfl
  | cons a rest ih =>
      show insertX (s * x) ((s * a) :: rest.map (fun z => s * z)) = _
      by_cases h1 : x < a
      · rw [insertX, if_pos ((mul_lt_mul_left hs).2 h1)]
        rw [insertX, if_pos h1]
        rfl
      · have h1s : ¬ s * x < s * a := fun hc => h1 ((mul_lt_mul_left hs).1 hc)
        by_cases h2 : x = a
        · subst h2
          rw [insertX, if_neg h1s, if_pos rfl]
          rw [insertX, if_neg h1, if_pos rfl]
          rfl
        · have h2s : ¬ s * x = s * a :=
            fun hc => h2 (mul_left_cancel₀ (ne_of_gt hs) hc)
          rw [insertX, if_neg h1s, if_neg h2s, ih]
          rw [insertX, if_neg h1, if_neg h2]
          rfl

theorem insertPt_scale {s : ℚ} (hs : 0 < s) (ys x : ℚ) (t : PointState) :
    ∀ l : PtList, insertPt (s * x) (scalePS ys t) (l.map (scalePt s ys))
      = (insertPt x t l).map (scalePt s ys) := by
  intro l
  induction l with
  | nil => rfl
  | cons p rest ih =>
      obtain ⟨a, u⟩ := p
      show insertPt (s * x) (scalePS ys t)
          ((s * a, scalePS ys u) :: rest.map (scalePt s ys)) = _
      by_cases h1 : x < a
      · rw [insertPt, if_pos ((mul_lt_mul_left hs).2 h1)]
        rw [insertPt, if_pos h1]
        rfl
      · have h1s : ¬ s * x < s * a := fun hc => h1 ((mul_lt_mul_left hs).1 hc)
        by_cases h2 : x = a
        · subst h2
          rw [insertPt, if_neg h1s, if_pos rfl]
          rw [insertPt, if_neg h1, if_pos rfl]
          rfl
        · have h2s : ¬ s * x = s * a :=
            fun hc => h2 (mul_left_cancel₀ (ne_of_gt hs) hc)
          rw [insertPt, if_neg h1s, if_neg h2s, ih]
          rw [insertPt, if_neg h1, if_neg h2]
          rfl

theorem keys_scaleSt (s ys : ℚ) (st : Learner1D) :
    (scaleSt s ys st).keys = st.keys.map (fun z => s * z) := by
  show keysOf (st.pts.map (scalePt s ys))
      = (keysOf st.pts).map (fun z => s * z)
  unfold keysOf
  rw [List.map_map, List.map_map]
  refine List.map_congr_left ?_
  intro p _
  rfl

theorem missingBounds_scale {s : ℚ} (hs : 0 < s) (ys : ℚ) (st : Learner1D) :
    (scaleSt s ys st).missingBounds
      = st.missingBounds.map (fun z => s * z) := by
  have hlo : (scaleSt s ys st).lo = s * st.lo := rfl
  have hhi : (scaleSt s ys st).hi = s * st.hi := rfl
  unfold Learner1D.missingBounds
  rw [keys_scaleSt, hlo, hhi, List.map_append]
  have e1 : (if s * st.lo ∈ st.keys.map (fun z => s * z)
      then ([] : List ℚ) else [s * st.lo])
      = (if st.lo ∈ st.keys then ([] : List ℚ) else [st.lo]).map
          (fun z => s * z) := by
    by_cases h1 : st.lo ∈ st.keys
    · rw [if_pos h1, if_pos ((mem_map_scale (ne_of_gt hs) _ _).2 h1)]
      rfl
    · rw [if_neg h1,
        if_neg (fun hc => h1 ((mem_map_scale (ne_of_gt hs) _ _).1 hc))]
      rfl
  have e2 : (if s * st.hi ∈ st.keys.map (fun z => s * z)
      then ([] : List ℚ) else [s * st.hi])
      = (if st.hi ∈ st.keys then ([] : List ℚ) else [st.hi]).map
          (fun z => s * z) := by
    by_cases h2 : st.hi ∈ st.keys
    · rw [if_pos h2, if_pos ((mem_map_scale (ne_of_gt hs) _ _).2 h2)]
      rfl
    · rw [if_neg h2,
        if_neg (fun hc => h2 ((mem_map_scale (ne_of_gt hs) _ _).1 hc))]
      rfl
  rw [e1, e2]

theorem baseXs_scale {s : ℚ} (hs : 0 < s) (ys : ℚ) (st : Learner1D) :
    (scaleSt s ys st).baseXs = st.baseXs.map (fun z => s * z) := by
  show insertX (s * st.lo)
      (insertX (s * st.hi) (scaleSt s ys st).keys)
      = (insertX st.lo (insertX st.hi st.keys)).map (fun z => s * z)
  rw [keys_scaleSt, insertX_scale hs st.hi st.keys,
    insertX_scale hs st.lo (insertX st.hi st.keys)]

theorem ivalsOf_scale {s : ℚ} (hs : 0 < s) (ys : ℚ) (st : Learner1D) :
    (scaleSt s ys st).ivalsOf
      = st.ivalsOf.map (fun iv => (s * iv.1, s * iv.2)) := by
  unfold Learner1D.ivalsOf
  rw [baseXs_scale hs, ← List.map_tail, List.zip_map]
  refine List.map_congr_left ?_
  intro q _
  rfl

theorem interiorPts_scale (s a b : ℚ) (c : ℕ) :
    interiorPts (s * a) (s * b) c = (interiorPts a b c).map (fun z => s * z)
    := by
  unfold interiorPts
  rw [List.map_map]
  refine List.map_congr_left ?_
  intro j _
  show s * a + ((j : ℚ) + 1) * (s * b - s * a) / (c : ℚ)
      = s * (a + ((j : ℚ) + 1) * (b - a) / (c : ℚ))
  rw [mul_add, ← mul_div_assoc]
  congr 1
  ring

theorem uniformLoss_scale {s : ℚ} (hs : s ≠ 0) (lo hi a b : ℚ)
    (d1 d2 : List (ℚ × ℚ)) :
    uniformLoss (s * lo, s * hi) (s * a, s * b) d1
      = uniformLoss (lo, hi) (a, b) d2 := by
  show (s * b - s * a) / (s * hi - s * lo) = (b - a) / (hi - lo)
  rw [← mul_sub, ← mul_sub, mul_div_mul_left _ _ hs]

theorem lossList_scale {s : ℚ} (hs : 0 < s) (ys : ℚ) (st : Learner1D) :
    (scaleSt s ys st).ivalsOf.map (fun iv =>
        uniformLoss ((scaleSt s ys st).lo, (scaleSt s ys st).hi) iv
          (scaleSt s ys st).dataPairs)
      = st.ivalsOf.map (fun iv =>
          uniformLoss (st.lo, st.hi) iv st.dataPairs) := by
  rw [ivalsOf_scale hs, List.map_map]
  refine List.map_congr_left ?_
  intro iv _
  show uniformLoss (s * st.lo, s * st.hi) (s * iv.1, s * iv.2)
      (scaleSt s ys st).dataPairs
    = uniformLoss (st.lo, st.hi) iv st.dataPairs
  exact uniformLoss_scale (ne_of_gt hs) st.lo st.hi iv.1 iv.2 _ _

theorem finOf_scale {s : ℚ} (hs : 0 < s) (ys : ℚ) (st : Learner1D) (n : ℕ) :
    finOf uniformLoss (scaleSt s ys st) n = finOf uniformLoss st n := by
  unfold finOf
  rw [lossList_scale hs, missingBounds_scale hs, List.length_map]

theorem askPoints_scale {s : ℚ} (hs : 0 < s) (ys : ℚ) (st : Learner1D)
    (n : ℕ) :
    askPoints uniformLoss (scaleSt s ys st) n
      = ((askPoints uniformLoss st n).1.map (fun z => s * z),
         (askPoints uniformLoss st n).2) := by
  have hmb := missingBounds_scale hs ys st
  have hmblen : (scaleSt s ys st).missingBounds.length
      = st.missingBounds.length := by
    rw [hmb, List.length_map]
  by_cases hn : n ≤ st.missingBounds.length
  · have hn2 : n ≤ (scaleSt s ys st).missingBounds.length := by
      rw [hmblen]
      exact hn
    rw [askPoints_of_le hn2, askPoints_of_le hn, Prod.mk.injEq]
    exact ⟨by rw [hmb, List.map_take], rfl⟩
  · have hn2 : ¬ n ≤ (scaleSt s ys st).missingBounds.length := by
      rw [hmblen]
      exact hn
    rw [askPoints_of_gt hn2, askPoints_of_gt hn, Prod.mk.injEq]
    constructor
    · rw [finOf_scale hs, hmb, ivalsOf_scale hs, List.map_append,
        List.zip_map_left, List.flatMap_map]
      have hfn : (fun a : (ℚ × ℚ) × (ℚ × ℕ) =>
            interiorPts (Prod.map (fun iv => (s * iv.1, s * iv.2)) id a).1.1
              (Prod.map (fun iv => (s * iv.1, s * iv.2)) id a).1.2
              (Prod.map (fun iv => (s * iv.1, s * iv.2)) id a).2.2)
          = (fun a : (ℚ × ℚ) × (ℚ × ℕ) =>
              List.map (fun z => s * z)
                (interiorPts a.1.1 a.1.2 a.2.2)) := by
        funext a
        exact interiorPts_scale s a.1.1 a.1.2 a.2.2
      rw [hfn,
        show (st.ivalsOf.zip (finOf uniformLoss st n)).flatMap
            (fun a : (ℚ × ℚ) × (ℚ × ℕ) =>
              List.map (fun z => s * z) (interiorPts a.1.1 a.1.2 a.2.2))
          = List.map (fun z => s * z)
              ((st.ivalsOf.zip (finOf uniformLoss st n)).flatMap
                (fun q => interiorPts q.1.1 q.1.2 q.2.2))
          from (List.map_flatMap _ _ _).symm]
    · rw [finOf_scale hs, hmblen]

theorem tell_scale {s : ℚ} (hs : 0 < s) (ys : ℚ) (st : Learner1D)
    (x y : ℚ) :
    (scaleSt s ys st).tell (s * x) (ys * y) = scaleSt s ys (st.tell x y) := by
  show Learner1D.mk (s * st.lo) (s * st.hi)
      (insertPt (s * x) (.confirmed (ys * y)) (st.pts.map (scalePt s ys)))
    = Learner1D.mk (s * st.lo) (s * st.hi)
      ((insertPt x (.confirmed y) st.pts).map (scalePt s ys))
  refine congrArg (Learner1D.mk (s * st.lo) (s * st.hi)) ?_
  have h : PointState.confirmed (ys * y) = scalePS ys (.confirmed y) := rfl
  rw [h]
  exact insertPt_scale hs ys x (.confirmed y) st.pts

theorem simpleStep_scale {s : ℚ} (hs : 0 < s) (ys : ℚ) (f : ℚ → ℚ)
    (st : Learner1D) :
    simpleStep uniformLoss (fun x => ys * f (x / s)) (scaleSt s ys st)
      = scaleSt s ys (simpleStep uniformLoss f st) := by
  have ha := askPoints_scale hs ys st 1
  cases h : (askPoints uniformLoss st 1).1 with
  | nil =>
      have h2 : (askPoints uniformLoss (scaleSt s ys st) 1).1 = [] := by
        rw [ha, h]
        rfl
      rw [simpleStep, h2, simpleStep, h]
  | cons x rest =>
      have h2 : (askPoints uniformLoss (scaleSt s ys st) 1).1
          = (s * x) :: rest.map (fun z => s * z) := by
        rw [ha, h]
        rfl
      rw [simpleStep, h2, simpleStep, h]
      show (scaleSt s ys st).tell (s * x) (ys * f (s * x / s))
          = scaleSt s ys (st.tell x (f x))
      rw [mul_div_cancel_left₀ x (ne_of_gt hs)]
      exact tell_scale hs ys st x (f x)

theorem driveN_scale {s : ℚ} (hs : 0 < s) (ys : ℚ) (f : ℚ → ℚ) :
    ∀ (k : ℕ) (st : Learner1D),
    driveN uniformLoss (fun x => ys * f (x / s)) k (scaleSt s ys st)
      = scaleSt s ys (driveN uniformLoss f k st) := by
  intro k
  induction k with
  | zero => intro st; rfl
  | succ m ih =>
      intro st
      show driveN uniformLoss _ m
          (simpleStep uniformLoss _ (scaleSt s ys st))
        = scaleSt s ys (driveN uniformLoss f m (simpleStep uniformLoss f st))
      rw [simpleStep_scale hs, ih]

theorem dataPairs_scale (s ys : ℚ) (st : Learner1D) :
    (scaleSt s ys st).dataPairs
      = st.dataPairs.map (fun q => (s * q.1, ys * q.2)) := by
  show List.filterMap toPair (st.pts.map (scalePt s ys))
      = (List.filterMap toPair st.pts).map (fun q => (s * q.1, ys * q.2))
  rw [List.filterMap_map]
  induction st.pts with
  | nil => rfl
  | cons p rest ih =>
      obtain ⟨a, u⟩ := p
      cases u with
      | pending =>
          have e1 : List.filterMap (toPair ∘ scalePt s ys)
              ((a, PointState.pending) :: rest)
              = List.filterMap (toPair ∘ scalePt s ys) rest := rfl
          have e2 : List.filterMap toPair ((a, PointState.pending) :: rest)
              = List.filterMap toPair rest := rfl
          rw [e1, e2, ih]
      | confirmed y =>
          have e1 : List.filterMap (toPair ∘ scalePt s ys)
              ((a, PointState.confirmed y) :: rest)
              = (s * a, ys * y)
                :: List.filterMap (toPair ∘ scalePt s ys) rest := rfl
          have e2 : List.filterMap toPair ((a, PointState.confirmed y) :: rest)
              = (a, y) :: List.filterMap toPair rest := rfl
          rw [e1, e2, List.map_cons, ih]

theorem loss_scale {s : ℚ} (hs : 0 < s) (ys : ℚ) (st : Learner1D) :
    Learner1D.loss uniformLoss (scaleSt s ys st)
      = Learner1D.loss uniformLoss st := by
  have hnp : (scaleSt s ys st).npoints = st.npoints := by
    show (scaleSt s ys st).dataPairs.length = st.dataPairs.length
    rw [dataPairs_scale, List.length_map]
  have hdx : (scaleSt s ys st).dataXs = st.dataXs.map (fun z => s * z) := by
    show (scaleSt s ys st).dataPairs.map Prod.fst
        = (st.dataPairs.map Prod.fst).map (fun z => s * z)
    rw [dataPairs_scale, List.map_map, List.map_map]
    refine List.map_congr_left ?_
    intro q _
    rfl
  have hci : (scaleSt s ys st).confIvals
      = st.confIvals.map (fun iv => (s * iv.1, s * iv.2)) := by
    unfold Learner1D.confIvals
    rw [hdx, ← List.map_tail, List.zip_map]
    refine List.map_congr_left ?_
    intro q _
    rfl
  simp only [Learner1D.loss]
  rw [hnp]
  by_cases h2 : st.npoints < 2
  · rw [if_pos h2, if_pos h2]
  · rw [if_neg h2, if_neg h2]
    refine congrArg _ ?_
    refine congrArg _ ?_
    rw [hci, List.map_map]
    refine List.map_congr_left ?_
    intro iv _
    show uniformLoss ((scaleSt s ys st).lo, (scaleSt s ys st).hi)
        (s * iv.1, s * iv.2) (scaleSt s ys st).dataPairs
      = uniformLoss (st.lo, st.hi) iv st.dataPairs
    exact uniformLoss_scale (ne_of_gt hs) st.lo st.hi iv.1 iv.2 _ _

/-- C3: scale invariance — learner B on the x-scaled bounds with the
rescaled function x to ys * f(x / s), driven in lockstep with learner A by
single-point ask/tell steps, is at every step the exact scaling of A: its
recorded points are s times A's points, and its loss equals A's loss
exactly. -/
theorem scale_invariance (lo hi s ys : ℚ) (f : ℚ → ℚ) (hs : 0 < s)
    (k : ℕ) :
    driveN uniformLoss (fun x => ys * f (x / s)) k
        (Learner1D.init (s * lo) (s * hi))
      = scaleSt s ys (driveN uniformLoss f k (Learner1D.init lo hi)) ∧
    (driveN uniformLoss (fun x => ys * f (x / s)) k
        (Learner1D.init (s * lo) (s * hi))).keys
      = (driveN uniformLoss f k (Learner1D.init lo hi)).keys.map
          (fun z => s * z) ∧
    Learner1D.loss uniformLoss
        (driveN uniformLoss (fun x => ys * f (x / s)) k
          (Learner1D.init (s * lo) (s * hi)))
      = Learner1D.loss uniformLoss
          (driveN uniformLoss f k (Learner1D.init lo hi)) := by
  have hinit : Learner1D.init (s * lo) (s * hi)
      = scaleSt s ys (Learner1D.init lo hi) := rfl
  have hdrv : driveN uniformLoss (fun x => ys * f (x / s)) k
      (Learner1D.init (s * lo) (s * hi))
      = scaleSt s ys (driveN uniformLoss f k (Learner1D.init lo hi)) := by
    rw [hinit]
    exact driveN_scale hs ys f k (Learner1D.init lo hi)
  refine ⟨hdrv, ?_, ?_⟩
  · rw [hdrv, keys_scaleSt]
  · rw [hdrv, loss_scale hs]

/-- Concrete instance of the scale-invariance claim: x scale 2, y scale 3,
identity sample function, bounds 0 and 1, five lockstep steps. -/
theorem scale_invariance_witness :
    (0 : ℚ) < 2 ∧
      (driveN uniformLoss (fun x => 3 * ((fun z : ℚ => z) (x / 2))) 5
          (Learner1D.init (2 * 0) (2 * 1))
        = scaleSt 2 3 (driveN uniformLoss (fun z : ℚ => z) 5
            (Learner1D.init 0 1)) ∧
      (driveN uniformLoss (fun x => 3 * ((fun z : ℚ => z) (x / 2))) 5
          (Learner1D.init (2 * 0) (2 * 1))).keys
        = (driveN uniformLoss (fun z : ℚ => z) 5
            (Learner1D.init 0 1)).keys.map (fun z => 2 * z) ∧
      Learner1D.loss uniformLoss
          (driveN uniformLoss (fun x => 3 * ((fun z : ℚ => z) (x / 2))) 5
            (Learner1D.init (2 * 0) (2 * 1)))
        = Learner1D.loss uniformLoss
            (driveN uniformLoss (fun z : ℚ => z) 5
              (Learner1D.init 0 1))) :=
  ⟨by norm_num, scale_invariance 0 1 2 3 (fun z : ℚ => z) (by norm_num) 5⟩

theorem flatMap_ones (g : ℚ × ℕ → WithTop ℚ) :
    ∀ l : List (ℚ × ℕ), (∀ p ∈ l, p.2 = 1) →
    l.flatMap (fun p => List.replicate (p.2 - 1) (g p)) = [] := by
  intro l
  induction l with
  | nil => intro _; rfl
  | cons p rest ih =>
      intro h
      rw [List.flatMap_cons, h p (List.mem_cons_self _ _),
        ih (fun q hq => h q (List.mem_cons_of_mem _ hq))]
      rfl

theorem sum_map_div (c : ℚ) : ∀ l : List ℚ,
    (l.map (fun g => g / c)).sum = l.sum / c := by
  intro l
  induction l with
  | nil =>
      show (0 : ℚ) = 0 / c
      rw [zero_div]
  | cons a rest ih =>
      rw [List.map_cons, List.sum_cons, List.sum_cons, ih, add_div]

theorem gapsOf_length (l : List ℚ) : (gapsOf l).length = l.length - 1 := by
  unfold gapsOf
  rw [List.length_zipWith, List.length_tail]
  omega

theorem head_of_sorted_le (l : List ℚ) (h : l ≠ [])
    (hs : List.Sorted (· < ·) l) : ∀ k ∈ l, l.head h ≤ k := by
  intro k hk
  cases l with
  | nil => cases hk
  | cons x rest =>
      show x ≤ k
      rcases List.mem_cons.1 hk with rfl | h2
      · exact le_refl k
      · exact le_of_lt ((List.sorted_cons.1 hs).1 k h2)

theorem le_getLast_of_sorted : ∀ (l : List ℚ) (h : l ≠ []),
    List.Sorted (· < ·) l → ∀ k ∈ l, k ≤ l.getLast h := by
  intro l
  induction l with
  | nil => intro h; cases h rfl
  | cons x rest ih =>
      intro h hs k hk
      rcases List.mem_cons.1 hk with rfl | h2
      · cases rest with
        | nil => exact le_of_eq rfl
        | cons y rest2 =>
            have hmem := List.getLast_mem (List.cons_ne_nil y rest2)
            have hlt := (List.sorted_cons.1 hs).1 _ hmem
            rw [List.getLast_cons (List.cons_ne_nil y rest2)]
            exact le_of_lt hlt
      · have hrne : rest ≠ [] := by
          intro hcon
          rw [hcon] at h2
          cases h2
        rw [List.getLast_cons hrne]
        exact ih hrne (List.sorted_cons.1 hs).2 k h2

theorem sum_gapsOf (x : ℚ) (l : List ℚ) :
    (gapsOf (x :: l)).sum = (x :: l).getLast (List.cons_ne_nil x l) - x := by
  induction l generalizing x with
  | nil =>
      show ([] : List ℚ).sum = x - x
      rw [List.sum_nil]
      ring
  | cons y rest ih =>
      rw [gapsOf_cons_cons, List.sum_cons, ih y,
        List.getLast_cons (List.cons_ne_nil y rest)]
      ring

theorem sum_gapsOf_span (x : ℚ) (rest : List ℚ)
    (hs : List.Sorted (· < ·) (x :: rest)) (lo hi : ℚ)
    (hlo : lo ∈ x :: rest) (hhi : hi ∈ x :: rest)
    (hbd : ∀ k ∈ x :: rest, lo ≤ k ∧ k ≤ hi) :
    (gapsOf (x :: rest)).sum = hi - lo := by
  have hxlo : x = lo :=
    le_antisymm (head_of_sorted_le (x :: rest) (List.cons_ne_nil x rest) hs lo hlo)
      (hbd x (List.mem_cons_self _ _)).1
  have hlasthi : (x :: rest).getLast (List.cons_ne_nil x rest) = hi :=
    le_antisymm ((hbd _ (List.getLast_mem _)).2)
      (le_getLast_of_sorted _ _ hs hi hhi)
  rw [sum_gapsOf, hlasthi, hxlo]

/-- Single greedy step over a normalized positive loss list summing to one
with gaps within a factor two: the one offered improvement is the largest
entry halved, which lies between 1/(2 len) and 1/len. -/
theorem step_imp_bracket (ls : List ℚ) (hne : ls ≠ [])
    (hpos : ∀ a ∈ ls, 0 < a) (hsum : ls.sum = 1)
    (hf2 : ∀ a ∈ ls, ∀ b ∈ ls, a ≤ 2 * b) :
    ∃ q : ℚ,
      (runG (ls.map (fun a => (a, 1))) 1).flatMap
        (fun p => List.replicate (p.2 - 1) ((qualG p : ℚ) : WithTop ℚ))
        = [((q : ℚ) : WithTop ℚ)] ∧
      1 / (2 * (ls.length : ℚ)) ≤ q ∧ q ≤ 1 / (ls.length : ℚ) := by
  have hlenpos : (0 : ℚ) < (ls.length : ℚ) := by
    have h1 : 0 < ls.length := List.length_pos.2 hne
    exact_mod_cast h1
  have hl0ne : ls.map (fun a => (a, 1)) ≠ [] := by
    intro hcon
    exact hne (List.map_eq_nil.1 hcon)
  obtain ⟨p, hpmem, hpq⟩ := maxQual_mem hl0ne
  obtain ⟨l1, p2, l2, hdec, hq2, hnone, hbump⟩ :=
    bumpG_decomp ⟨p, hpmem, hpq⟩
  have hones : ∀ r ∈ ls.map (fun a => (a, 1)), r.2 = 1 := by
    intro r hr
    obtain ⟨a, _, rfl⟩ := List.mem_map.1 hr
    rfl
  have hl1 : ∀ r ∈ l1, r.2 = 1 := fun r hr =>
    hones r (by rw [hdec]; exact List.mem_append_left _ hr)
  have hl2 : ∀ r ∈ l2, r.2 = 1 := fun r hr =>
    hones r (by
      rw [hdec]
      exact List.mem_append_right _ (List.mem_cons_of_mem _ hr))
  have hp2m : p2 ∈ ls.map (fun a => (a, 1)) := by
    rw [hdec]
    exact List.mem_append_right _ (List.mem_cons_self _ _)
  have hp22 : p2.2 = 1 := hones p2 hp2m
  have hp2ls : p2.1 ∈ ls := by
    obtain ⟨a, ha, he⟩ := List.mem_map.1 hp2m
    rw [← he]
    exact ha
  have hqp2 : qualG p2 = p2.1 := by
    unfold qualG
    rw [hp22]
    norm_num
  have hrun : runG (ls.map (fun a => (a, 1))) 1
      = l1 ++ (p2.1, p2.2 + 1) :: l2 := by
    show stepG (ls.map (fun a => (a, 1))) = _
    show bumpG (maxQual (ls.map (fun a => (a, 1))))
        (ls.map (fun a => (a, 1))) = _
    exact hbump
  -- the maximal entry dominates every element and is below twice each
  have hmax_ge : ∀ a ∈ ls, a ≤ p2.1 := by
    intro a ha
    have h1 : qualG (a, 1) ≤ maxQual (ls.map (fun a => (a, 1))) :=
      le_maxQual (List.mem_map.2 ⟨a, ha, rfl⟩)
    rw [qualG_one] at h1
    rw [← hqp2, hq2]
    exact h1
  have hmax_le2 : ∀ b ∈ ls, p2.1 ≤ 2 * b := fun b hb => hf2 p2.1 hp2ls b hb
  -- sum bounds
  have hub : (1 : ℚ) ≤ (ls.length : ℚ) * p2.1 := by
    have h1 : ls.sum ≤ ls.length • p2.1 := List.sum_le_card_nsmul ls p2.1 hmax_ge
    rw [hsum, nsmul_eq_mul] at h1
    exact h1
  have hlb : (ls.length : ℚ) * (p2.1 / 2) ≤ 1 := by
    have h1 : ls.length • (p2.1 / 2) ≤ ls.sum := by
      refine List.card_nsmul_le_sum ls (p2.1 / 2) ?_
      intro b hb
      have h2 := hmax_le2 b hb
      linarith
    rw [hsum, nsmul_eq_mul] at h1
    exact h1
  refine ⟨p2.1 / 2, ?_, ?_, ?_⟩
  · rw [hrun, List.flatMap_append, flatMap_ones _ l1 hl1, List.flatMap_cons,
      flatMap_ones _ l2 hl2, hp22]
    have hql : qualG (p2.1, 1 + 1) = p2.1 / 2 := by
      unfold qualG
      norm_num
    rw [hql]
    rfl
  · rw [div_le_div_iff (by linarith) (by norm_num)]
    nlinarith
  · rw [div_le_div_iff (by norm_num) hlenpos]
    nlinarith

/-- A sub-learner with at most one chosen point still misses a bound, so
its single-point improvement estimate is unbounded. -/
theorem impOf_top {st : Learner1D} (hlh : st.lo < st.hi) (h : KInv st)
    (hk : st.keys.length ≤ 1) : impOf st = ⊤ := by
  rcases h.2 with h2 | h2 | h2
  · have hmb : st.missingBounds = [st.lo, st.hi] := by
      unfold Learner1D.missingBounds
      rw [if_neg (by rw [h2]; exact List.not_mem_nil _),
        if_neg (by rw [h2]; exact List.not_mem_nil _)]
      rfl
    have hle : 1 ≤ st.missingBounds.length := by
      rw [hmb]
      norm_num
    unfold impOf
    rw [askPoints_of_le hle]
    rfl
  · have hnhi : st.hi ∉ st.keys := by
      rw [h2]
      intro hmem
      rcases List.mem_cons.1 hmem with heq | hnil
      · exact (ne_of_lt hlh) heq.symm
      · cases hnil
    have hmb : st.missingBounds = [st.hi] := by
      unfold Learner1D.missingBounds
      rw [if_pos (by rw [h2]; exact List.mem_cons_self _ _), if_neg hnhi]
      rfl
    have hle : 1 ≤ st.missingBounds.length := by
      rw [hmb]
      norm_num
    unfold impOf
    rw [askPoints_of_le hle]
    rfl
  · exfalso
    have := two_le_length_of_mem_ne h2.1 h2.2.1 (ne_of_lt hlh)
    omega

/-- A sub-learner spanning its bounds offers a single-point improvement
between 1/(2(k-1)) and 1/(k-1) where k is its number of chosen points. -/
theorem impOf_spanning {st : Learner1D} (hlh : st.lo < st.hi) (h : KInv st)
    (hk : 2 ≤ st.keys.length) :
    ∃ q : ℚ, impOf st = ((q : ℚ) : WithTop ℚ) ∧
      1 / (2 * ((st.keys.length : ℚ) - 1)) ≤ q ∧
      q ≤ 1 / ((st.keys.length : ℚ) - 1) := by
  have hwf := h.1
  rcases h.2 with h2 | h2 | h2
  · exfalso
    rw [h2] at hk
    exact absurd hk (by decide)
  · exfalso
    rw [h2] at hk
    have hlen1 : ([st.lo] : List ℚ).length = 1 := rfl
    rw [hlen1] at hk
    omega
  · obtain ⟨hloK, hhiK, hbd, hfac⟩ := h2
    have hmb : st.missingBounds = [] := missingBounds_eq_nil hloK hhiK
    have hbase : st.baseXs = st.keys := baseXs_eq_keys hwf hloK hhiK
    have hsortk : List.Sorted (· < ·) st.keys := sorted_keys hwf
    have hc : (0 : ℚ) < st.hi - st.lo := sub_pos.2 hlh
    have hkne : st.keys ≠ [] := by
      intro hcon
      rw [hcon] at hk
      exact absurd hk (by decide)
    obtain ⟨x, rest, hxr⟩ : ∃ x rest, st.keys = x :: rest := by
      cases hke : st.keys with
      | nil => exact absurd hke hkne
      | cons a b => exact ⟨a, b, rfl⟩
    have hGsum : (gapsOf st.keys).sum = st.hi - st.lo := by
      rw [hxr]
      exact sum_gapsOf_span x rest (hxr ▸ hsortk) st.lo st.hi
        (hxr ▸ hloK) (hxr ▸ hhiK) (fun k hkk => hbd k (hxr ▸ hkk))
    have hls : st.ivalsOf.map (fun iv =>
          uniformLoss (st.lo, st.hi) iv st.dataPairs)
        = (gapsOf st.keys).map (fun g => g / (st.hi - st.lo)) := by
      have hiv : st.ivalsOf = st.keys.zip st.keys.tail := by
        unfold Learner1D.ivalsOf
        rw [hbase]
      rw [hiv, gapsOf_eq_zip_map, List.map_map]
      refine List.map_congr_left ?_
      intro q _
      rfl
    have hGpos : ∀ g ∈ gapsOf st.keys, 0 < g :=
      gapsOf_pos_of_sorted hsortk
    have hlspos : ∀ a ∈ (gapsOf st.keys).map (fun g => g / (st.hi - st.lo)),
        0 < a := by
      intro a ha
      obtain ⟨g, hg, rfl⟩ := List.mem_map.1 ha
      exact div_pos (hGpos g hg) hc
    have hlssum : ((gapsOf st.keys).map (fun g => g / (st.hi - st.lo))).sum
        = 1 := by
      rw [sum_map_div, hGsum, div_self (ne_of_gt hc)]
    have hlsf2 : ∀ a ∈ (gapsOf st.keys).map (fun g => g / (st.hi - st.lo)),
        ∀ b ∈ (gapsOf st.keys).map (fun g => g / (st.hi - st.lo)),
        a ≤ 2 * b := by
      intro a ha b hb
      obtain ⟨g1, hg1, rfl⟩ := List.mem_map.1 ha
      obtain ⟨g2, hg2, rfl⟩ := List.mem_map.1 hb
      have h12 : g1 ≤ 2 * g2 := hfac g1 hg1 g2 hg2
      rw [← mul_div_assoc, div_le_div_iff_of_pos_right hc]
      exact h12
    have hlsne : (gapsOf st.keys).map (fun g => g / (st.hi - st.lo)) ≠ []
        := by
      intro hcon
      have h0 : ((gapsOf st.keys).map
          (fun g => g / (st.hi - st.lo))).length = 0 := by
        rw [hcon]
        rfl
      rw [List.length_map, gapsOf_length] at h0
      omega
    obtain ⟨q, hflat, hq1, hq2⟩ :=
      step_imp_bracket _ hlsne hlspos hlssum hlsf2
    have hlenq : (((gapsOf st.keys).map
          (fun g => g / (st.hi - st.lo))).length : ℚ)
        = (st.keys.length : ℚ) - 1 := by
      rw [List.length_map, gapsOf_length]
      have h1 : 1 ≤ st.keys.length := by omega
      push_cast [Nat.cast_sub h1]
      ring
    refine ⟨q, ?_, ?_, ?_⟩
    · unfold impOf
      have hgt : ¬ 1 ≤ st.missingBounds.length := by
        rw [hmb]
        decide
      rw [askPoints_of_gt hgt]
      show (List.replicate st.missingBounds.length (⊤ : WithTop ℚ)
          ++ (finOf uniformLoss st 1).flatMap
            (fun p => List.replicate (p.2 - 1)
              ((qualG p : ℚ) : WithTop ℚ))).headD 0
        = ((q : ℚ) : WithTop ℚ)
      have hfin : finOf uniformLoss st 1
          = runG (((gapsOf st.keys).map
              (fun g => g / (st.hi - st.lo))).map (fun a => (a, 1))) 1 := by
        unfold finOf
        rw [hls, hmb]
        rfl
      rw [hmb, hfin, hflat]
      rfl
    · rw [← hlenq]
      exact hq1
    · rw [← hlenq]
      exact hq2

theorem askPoints_eq_askK (st : Learner1D) (n : ℕ) :
    askPoints uniformLoss st n = askK st.lo st.hi st.keys n := rfl

theorem askPoints_keys_only {st st2 : Learner1D} (h1 : st.lo = st2.lo)
    (h2 : st.hi = st2.hi) (h3 : st.keys = st2.keys) (n : ℕ) :
    askPoints uniformLoss st n = askPoints uniformLoss st2 n := by
  rw [askPoints_eq_askK, askPoints_eq_askK, h1, h2, h3]

theorem impOf_keys_only {st st2 : Learner1D} (h1 : st.lo = st2.lo)
    (h2 : st.hi = st2.hi) (h3 : st.keys = st2.keys) :
    impOf st = impOf st2 := by
  unfold impOf
  rw [askPoints_keys_only h1 h2 h3]

theorem updAt_length {α : Type} :
    ∀ (l : List α) (i : ℕ) (g : α → α), (updAt i g l).length = l.length := by
  intro l
  induction l with
  | nil => intro i g; cases i <;> rfl
  | cons a t ih =>
      intro i g
      cases i with
      | zero => rfl
      | succ m =>
          show (a :: updAt m g t).length = (a :: t).length
          rw [List.length_cons, List.length_cons, ih m g]

theorem getD_updAt_self {α : Type} (d : α) :
    ∀ (l : List α) (i : ℕ) (g : α → α), i < l.length →
    (updAt i g l).getD i d = g (l.getD i d) := by
  intro l
  induction l with
  | nil => intro i g hi; exact absurd hi (Nat.not_lt_zero i)
  | cons a t ih =>
      intro i g hi
      cases i with
      | zero => rfl
      | succ m =>
          show (updAt m g t).getD m d = g (t.getD m d)
          refine ih m g ?_
          rw [List.length_cons] at hi
          omega

theorem getD_updAt_ne {α : Type} (d : α) :
    ∀ (l : List α) (i j : ℕ) (g : α → α), j ≠ i →
    (updAt i g l).getD j d = l.getD j d := by
  intro l
  induction l with
  | nil => intro i j g _; cases i <;> rfl
  | cons a t ih =>
      intro i j g hne
      cases i with
      | zero =>
          cases j with
          | zero => exact absurd rfl hne
          | succ m => rfl
      | succ mi =>
          cases j with
          | zero => rfl
          | succ mj =>
              show (updAt mi g t).getD mj d = t.getD mj d
              exact ih mi mj g (fun hc => hne (by rw [hc]))

theorem mem_updAt {α : Type} (d : α) :
    ∀ (l : List α) (i : ℕ) (g : α → α) (q : α), q ∈ updAt i g l →
    (q = g (l.getD i d) ∧ i < l.length) ∨ q ∈ l := by
  intro l
  induction l with
  | nil =>
      intro i g q hq
      cases i <;> exact absurd hq (List.not_mem_nil q)
  | cons a t ih =>
      intro i g q hq
      cases i with
      | zero =>
          rcases List.mem_cons.1 hq with rfl | h2
          · refine Or.inl ⟨rfl, ?_⟩
            rw [List.length_cons]
            omega
          · exact Or.inr (List.mem_cons_of_mem _ h2)
      | succ m =>
          rcases List.mem_cons.1 hq with rfl | h2
          · exact Or.inr (List.mem_cons_self _ _)
          · rcases ih m g q h2 with ⟨he, hlt⟩ | hmem
            · refine Or.inl ⟨he, ?_⟩
              rw [List.length_cons]
              omega
            · exact Or.inr (List.mem_cons_of_mem _ hmem)

theorem getD_map {α β : Type} (g : α → β) (d : α) :
    ∀ (l : List α) (j : ℕ), j < l.length →
    (l.map g).getD j (g d) = g (l.getD j d) := by
  intro l
  induction l with
  | nil => intro j hj; exact absurd hj (Nat.not_lt_zero j)
  | cons a t ih =>
      intro j hj
      cases j with
      | zero => rfl
      | succ m =>
          show (t.map g).getD m (g d) = g (t.getD m d)
          refine ih m ?_
          rw [List.length_cons] at hj
          omega

theorem getD_mem {α : Type} (d : α) (l : List α) {j : ℕ}
    (hj : j < l.length) : l.getD j d ∈ l := by
  rw [List.getD_eq_get l d hj]
  exact List.get_mem l j hj

theorem mem_iff_getD {α : Type} (d : α) (l : List α) (x : α) :
    x ∈ l ↔ ∃ j, j < l.length ∧ l.getD j d = x := by
  rw [List.mem_iff_get]
  constructor
  · rintro ⟨⟨j, hj⟩, he⟩
    refine ⟨j, hj, ?_⟩
    rw [List.getD_eq_get l d hj]
    exact he
  · rintro ⟨j, hj, he⟩
    refine ⟨⟨j, hj⟩, ?_⟩
    rw [← List.getD_eq_get l d hj]
    exact he

theorem argmaxIdx_lt : ∀ (l : List (WithTop ℚ)), l ≠ [] →
    argmaxIdx l < l.length := by
  intro l
  induction l with
  | nil => intro h; cases h rfl
  | cons v rest ih =>
      intro _
      rw [argmaxIdx]
      by_cases hc : ∀ w ∈ rest, w ≤ v
      · rw [if_pos hc, List.length_cons]
        omega
      · rw [if_neg hc, List.length_cons]
        have hne : rest ≠ [] := by
          intro hcon
          apply hc
          rw [hcon]
          intro w hw
          cases hw
        have := ih hne
        omega

theorem getD_argmaxIdx_max : ∀ (l : List (WithTop ℚ)) (d : WithTop ℚ),
    ∀ w ∈ l, w ≤ l.getD (argmaxIdx l) d := by
  intro l
  induction l with
  | nil => intro d w hw; cases hw
  | cons v rest ih =>
      intro d w hw
      rw [argmaxIdx]
      by_cases hc : ∀ u ∈ rest, u ≤ v
      · rw [if_pos hc]
        show w ≤ v
        rcases List.mem_cons.1 hw with rfl | h2
        · exact le_refl w
        · exact hc w h2
      · rw [if_neg hc]
        show w ≤ rest.getD (argmaxIdx rest) d
        push_neg at hc
        obtain ⟨u, hu, hvu⟩ := hc
        have hvmax : v ≤ rest.getD (argmaxIdx rest) d :=
          le_trans (le_of_lt hvu) (ih d u hu)
        rcases List.mem_cons.1 hw with rfl | h2
        · exact hvmax
        · exact ih d w h2

theorem pickIdx_lt {subs : List Learner1D} (hne : subs ≠ []) :
    pickIdx subs < subs.length := by
  unfold pickIdx
  have h1 : subs.map impOf ≠ [] := by
    intro hcon
    exact hne (List.map_eq_nil.1 hcon)
  have h2 := argmaxIdx_lt _ h1
  rw [List.length_map] at h2
  exact h2

theorem impOf_le_picked {subs : List Learner1D} (hne : subs ≠ []) :
    ∀ j, j < subs.length →
    impOf (subs.getD j dfltL) ≤ impOf (subs.getD (pickIdx subs) dfltL) := by
  intro j hj
  have h1 : impOf (subs.getD j dfltL) ∈ subs.map impOf :=
    List.mem_map.2 ⟨subs.getD j dfltL, getD_mem dfltL subs hj, rfl⟩
  have h2 := getD_argmaxIdx_max (subs.map impOf) (impOf dfltL) _ h1
  have h3 : (subs.map impOf).getD (argmaxIdx (subs.map impOf)) (impOf dfltL)
      = impOf (subs.getD (pickIdx subs) dfltL) :=
    getD_map impOf dfltL subs _ (pickIdx_lt hne)
  rw [h3] at h2
  exact h2

theorem pickedSub_mem {subs : List Learner1D} (hne : subs ≠ []) :
    pickedSub subs ∈ subs := getD_mem dfltL subs (pickIdx_lt hne)

theorem askedPt_spec {lo hi : ℚ} {subs : List Learner1D}
    (hlh : lo < hi) (hne : subs ≠ []) (hinv : SelInv lo hi subs) :
    (askPoints uniformLoss (pickedSub subs) 1).1 = [askedPt subs] ∧
    askedPt subs ∉ (pickedSub subs).keys := by
  obtain ⟨hl, hh, hk⟩ := hinv _ (pickedSub_mem hne)
  have hwf : (pickedSub subs).WF := hk.1
  have hlh2 : (pickedSub subs).lo < (pickedSub subs).hi := by
    rw [hl, hh]
    exact hlh
  have hlen : (askPoints uniformLoss (pickedSub subs) 1).1.length = 1 :=
    askPoints_length hwf hlh2
  have hfr := askPoints_fresh (L := uniformLoss) (n := 1) hwf hlh2
  cases hx : (askPoints uniformLoss (pickedSub subs) 1).1 with
  | nil =>
      rw [hx] at hlen
      cases hlen
  | cons x rest =>
      cases rest with
      | nil =>
          have hxval : askedPt subs = x := by
            unfold askedPt
            rw [hx]
            rfl
          constructor
          · rw [hxval]
          · rw [hxval]
            refine hfr.2 x ?_
            rw [hx]
            exact List.mem_cons_self _ _
      | cons y rest2 =>
          exfalso
          rw [hx] at hlen
          simp [List.length_cons] at hlen

theorem balStep_len (subs : List Learner1D) :
    (balStep subs).2.length = subs.length := updAt_length subs _ _

theorem balStep_getD_ne (subs : List Learner1D) {j : ℕ}
    (hne : j ≠ pickIdx subs) :
    (balStep subs).2.getD j dfltL = subs.getD j dfltL :=
  getD_updAt_ne dfltL subs _ j _ hne

theorem balStep_getD_pick {subs : List Learner1D} (hne : subs ≠ []) :
    (balStep subs).2.getD (pickIdx subs) dfltL
      = (ask uniformLoss (subs.getD (pickIdx subs) dfltL) 1 true).2 := by
  show (updAt (pickIdx subs) (fun s => (ask uniformLoss s 1 true).2)
      subs).getD (pickIdx subs) dfltL = _
  rw [getD_updAt_self dfltL subs _ _ (pickIdx_lt hne)]

theorem balStep_pick_keys {lo hi : ℚ} {subs : List Learner1D}
    (hlh : lo < hi) (hne : subs ≠ []) (hinv : SelInv lo hi subs) :
    ((balStep subs).2.getD (pickIdx subs) dfltL).keys
      = insertX (askedPt subs) ((subs.getD (pickIdx subs) dfltL).keys) ∧
    ((balStep subs).2.getD (pickIdx subs) dfltL).keys.length
      = (subs.getD (pickIdx subs) dfltL).keys.length + 1 := by
  obtain ⟨hl, hh, hk⟩ := hinv _ (pickedSub_mem hne)
  obtain ⟨hone, hfr⟩ := askedPt_spec hlh hne hinv
  have h1 : ((ask uniformLoss (pickedSub subs) 1 true).2).keys
      = insertX (askedPt subs) (pickedSub subs).keys := by
    rw [keys_ask_true hk.1, hone]
    rfl
  have h1g : ((ask uniformLoss (subs.getD (pickIdx subs) dfltL) 1 true).2).keys
      = insertX (askedPt subs) ((subs.getD (pickIdx subs) dfltL).keys) := h1
  rw [balStep_getD_pick hne]
  refine ⟨h1g, ?_⟩
  rw [h1g]
  exact length_insertX_not_mem hfr

theorem balStep_selInv {lo hi : ℚ} {subs : List Learner1D}
    (hlh : lo < hi) (hne : subs ≠ []) (hinv : SelInv lo hi subs) :
    SelInv lo hi (balStep subs).2 := by
  intro st hst
  rcases mem_updAt dfltL subs _ _ st hst with ⟨he, _⟩ | hmem
  · obtain ⟨hl, hh, hk⟩ := hinv _ (pickedSub_mem hne)
    have hlg : (subs.getD (pickIdx subs) dfltL).lo = lo := hl
    have hhg : (subs.getD (pickIdx subs) dfltL).hi = hi := hh
    have hkg : KInv (subs.getD (pickIdx subs) dfltL) := hk
    subst he
    refine ⟨?_, ?_, ?_⟩
    · rw [lo_ask_true]
      exact hlg
    · rw [hi_ask_true]
      exact hhg
    · refine KInv_ask_true ?_ hkg
      rw [hlg, hhg]
      exact hlh
  · exact hinv st hmem

theorem balStep_counts {lo hi : ℚ} {subs : List Learner1D}
    (hlh : lo < hi) (hne : subs ≠ []) (hinv : SelInv lo hi subs)
    (hcnt : CountsOK subs) : CountsOK (balStep subs).2 := by
  have hlen := balStep_len subs
  have hplt := pickIdx_lt hne
  obtain ⟨hkeys, hklen⟩ := balStep_pick_keys hlh hne hinv
  have hKne : ∀ j, j < subs.length → j ≠ pickIdx subs →
      ((balStep subs).2.getD j dfltL).keys.length
        = (subs.getD j dfltL).keys.length := by
    intro j _ hj
    rw [balStep_getD_ne subs hj]
  have hsub : ∀ j, j < subs.length →
      (subs.getD j dfltL).lo = lo ∧ (subs.getD j dfltL).hi = hi ∧
        KInv (subs.getD j dfltL) :=
    fun j hj => hinv _ (getD_mem dfltL subs hj)
  by_cases hA : ∃ j, j < subs.length ∧ (subs.getD j dfltL).keys.length ≤ 1
  · obtain ⟨j0, hj0, hk0⟩ := hA
    have hall2 : ∀ j, j < subs.length →
        (subs.getD j dfltL).keys.length ≤ 2 :=
      hcnt.1 ⟨j0, hj0, hk0⟩
    have hjtop : impOf (subs.getD j0 dfltL) = ⊤ := by
      obtain ⟨hl, hh, hk⟩ := hsub j0 hj0
      refine impOf_top ?_ hk hk0
      rw [hl, hh]
      exact hlh
    have hptop : impOf (subs.getD (pickIdx subs) dfltL) = ⊤ := by
      have h4 := impOf_le_picked hne j0 hj0
      rw [hjtop] at h4
      exact top_le_iff.1 h4
    have hpick1 : (subs.getD (pickIdx subs) dfltL).keys.length ≤ 1 := by
      by_contra hcon
      obtain ⟨hl, hh, hk⟩ := hsub (pickIdx subs) hplt
      obtain ⟨q, hq, _, _⟩ := impOf_spanning
        (show (subs.getD (pickIdx subs) dfltL).lo
            < (subs.getD (pickIdx subs) dfltL).hi by
          rw [hl, hh]; exact hlh)
        hk (by omega)
      rw [hq] at hptop
      exact WithTop.coe_ne_top hptop
    have hall2b : ∀ j, j < (balStep subs).2.length →
        ((balStep subs).2.getD j dfltL).keys.length ≤ 2 := by
      intro j hj
      rw [hlen] at hj
      by_cases hjp : j = pickIdx subs
      · subst hjp
        rw [hklen]
        omega
      · rw [hKne j hj hjp]
        exact hall2 j hj
    refine ⟨fun _ => hall2b, fun a b ha hb h2b => ?_⟩
    have h1 := hall2b a ha
    omega
  · push_neg at hA
    have hA2 : ∀ j, j < subs.length →
        2 ≤ (subs.getD j dfltL).keys.length := by
      intro j hj
      have := hA j hj
      omega
    have hstep : ∀ b, b < subs.length → b ≠ pickIdx subs →
        (subs.getD (pickIdx subs) dfltL).keys.length + 1
          ≤ 2 * (subs.getD b dfltL).keys.length := by
      intro b hb _
      obtain ⟨hli, hhi2, hki⟩ := hsub (pickIdx subs) hplt
      obtain ⟨hlb, hhb, hkb⟩ := hsub b hb
      obtain ⟨qi, hqi, _, hqiu⟩ := impOf_spanning
        (show (subs.getD (pickIdx subs) dfltL).lo
            < (subs.getD (pickIdx subs) dfltL).hi by
          rw [hli, hhi2]; exact hlh)
        hki (hA2 _ hplt)
      obtain ⟨qb, hqb, hqbl, _⟩ := impOf_spanning
        (show (subs.getD b dfltL).lo < (subs.getD b dfltL).hi by
          rw [hlb, hhb]; exact hlh)
        hkb (hA2 _ hb)
      have hle := impOf_le_picked hne b hb
      rw [hqb, hqi] at hle
      have hle2 : qb ≤ qi := WithTop.coe_le_coe.1 hle
      have h2i : (2 : ℚ) ≤ ((subs.getD (pickIdx subs) dfltL).keys.length : ℚ)
        := by exact_mod_cast hA2 _ hplt
      have h2b : (2 : ℚ) ≤ ((subs.getD b dfltL).keys.length : ℚ) := by
        exact_mod_cast hA2 _ hb
      have hchain : 1 / (2 * (((subs.getD b dfltL).keys.length : ℚ) - 1))
          ≤ 1 / (((subs.getD (pickIdx subs) dfltL).keys.length : ℚ) - 1) :=
        le_trans hqbl (le_trans hle2 hqiu)
      rw [div_le_div_iff (by linarith) (by linarith)] at hchain
      have hfin : ((subs.getD (pickIdx subs) dfltL).keys.length : ℚ) + 1
          ≤ 2 * ((subs.getD b dfltL).keys.length : ℚ) := by linarith
      exact_mod_cast hfin
    constructor
    · rintro ⟨j, hj, hj1⟩
      exfalso
      rw [hlen] at hj
      by_cases hjp : j = pickIdx subs
      · subst hjp
        rw [hklen] at hj1
        have := hA2 _ hplt
        omega
      · rw [hKne j hj hjp] at hj1
        have := hA2 j hj
        omega
    · intro a b ha hb h2b
      rw [hlen] at ha hb
      by_cases hap : a = pickIdx subs
      · subst hap
        rw [hklen]
        by_cases hbp : b = pickIdx subs
        · subst hbp
          rw [hklen] at h2b ⊢
          omega
        · rw [hKne b hb hbp] at h2b ⊢
          exact hstep b hb hbp
      · rw [hKne a ha hap]
        by_cases hbp : b = pickIdx subs
        · subst hbp
          rw [hklen] at h2b ⊢
          have hold := hcnt.2 a (pickIdx subs) ha hplt (hA2 _ hplt)
          omega
        · rw [hKne b hb hbp] at h2b ⊢
          exact hcnt.2 a b ha hb h2b

theorem ptsAt_cons_self (j : ℕ) (p : ℕ × ℚ) (l : List (ℕ × ℚ))
    (h : p.1 = j) : ptsAt j (p :: l) = p.2 :: ptsAt j l := by
  unfold ptsAt
  rw [List.filter_cons_of_pos (by simp [h]), List.map_cons]

theorem ptsAt_cons_ne (j : ℕ) (p : ℕ × ℚ) (l : List (ℕ × ℚ))
    (h : p.1 ≠ j) : ptsAt j (p :: l) = ptsAt j l := by
  unfold ptsAt
  rw [List.filter_cons_of_neg (by simp [h])]

theorem balSel_props (lo hi : ℚ) (hlh : lo < hi) :
    ∀ (n : ℕ) (subs : List Learner1D), subs ≠ [] → SelInv lo hi subs →
    CountsOK subs →
    (balSel subs n).2.length = subs.length ∧
    SelInv lo hi (balSel subs n).2 ∧
    CountsOK (balSel subs n).2 ∧
    (∀ j, j < subs.length →
      ((balSel subs n).2.getD j dfltL).keys
        = foldIns ((subs.getD j dfltL).keys) (ptsAt j (balSel subs n).1) ∧
      (ptsAt j (balSel subs n).1).Nodup ∧
      (∀ x ∈ ptsAt j (balSel subs n).1, x ∉ (subs.getD j dfltL).keys) ∧
      ((balSel subs n).2.getD j dfltL).keys.length
        = (subs.getD j dfltL).keys.length
            + (ptsAt j (balSel subs n).1).length) := by
  intro n
  induction n with
  | zero =>
      intro subs _ hinv hcnt
      refine ⟨rfl, hinv, hcnt, ?_⟩
      intro j _
      exact ⟨rfl, List.nodup_nil,
        fun x hx => absurd hx (List.not_mem_nil x), rfl⟩
  | succ m ih =>
      intro subs hne hinv hcnt
      have hplt := pickIdx_lt hne
      have hlen1 := balStep_len subs
      have hne2 : (balStep subs).2 ≠ [] := by
        intro hcon
        rw [hcon] at hlen1
        exact hne (List.length_eq_zero.1 hlen1.symm)
      have hinv2 := balStep_selInv hlh hne hinv
      have hcnt2 := balStep_counts hlh hne hinv hcnt
      obtain ⟨hkeys, hklen⟩ := balStep_pick_keys hlh hne hinv
      obtain ⟨_, hfr0⟩ := askedPt_spec hlh hne hinv
      have hfr0g : askedPt subs ∉ (subs.getD (pickIdx subs) dfltL).keys :=
        hfr0
      obtain ⟨ihlen, ihinv, ihcnt, ihkeys⟩ := ih (balStep subs).2 hne2
        hinv2 hcnt2
      have hsel1 : (balSel subs (m + 1)).1
          = (balStep subs).1 :: (balSel (balStep subs).2 m).1 := rfl
      have hsel2 : (balSel subs (m + 1)).2
          = (balSel (balStep subs).2 m).2 := rfl
      refine ⟨?_, ?_, ?_, ?_⟩
      · rw [hsel2, ihlen, hlen1]
      · rw [hsel2]
        exact ihinv
      · rw [hsel2]
        exact ihcnt
      · intro j hj
        have hj2 : j < (balStep subs).2.length := by
          rw [hlen1]
          exact hj
        obtain ⟨ik, ind, ifr, ilen⟩ := ihkeys j hj2
        by_cases hjp : j = pickIdx subs
        · have htag : ((balStep subs).1).1 = j := hjp.symm
          have hkeysj : ((balStep subs).2.getD j dfltL).keys
              = insertX (askedPt subs) ((subs.getD j dfltL).keys) := by
            rw [hjp]
            exact hkeys
          have hklenj : ((balStep subs).2.getD j dfltL).keys.length
              = (subs.getD j dfltL).keys.length + 1 := by
            rw [hjp]
            exact hklen
          have hfrj : askedPt subs ∉ (subs.getD j dfltL).keys := by
            rw [hjp]
            exact hfr0g
          have hpts : ptsAt j (balSel subs (m + 1)).1
              = askedPt subs :: ptsAt j (balSel (balStep subs).2 m).1 := by
            rw [hsel1]
            exact ptsAt_cons_self j _ _ htag
          refine ⟨?_, ?_, ?_, ?_⟩
          · rw [hsel2, ik, hkeysj, hpts, foldIns_cons]
          · rw [hpts]
            refine List.nodup_cons.2 ⟨?_, ind⟩
            intro hmem
            have h5 := ifr _ hmem
            rw [hkeysj] at h5
            exact h5 (mem_insertX.2 (Or.inl rfl))
          · rw [hpts]
            intro x hx
            rcases List.mem_cons.1 hx with rfl | h2
            · exact hfrj
            · intro hmem
              have h5 := ifr x h2
              rw [hkeysj] at h5
              exact h5 (mem_insertX.2 (Or.inr hmem))
          · rw [hsel2, ilen, hklenj, hpts, List.length_cons]
            omega
        · have hne3 : (balStep subs).2.getD j dfltL = subs.getD j dfltL :=
            balStep_getD_ne subs hjp
          have htag : ((balStep subs).1).1 ≠ j := by
            show pickIdx subs ≠ j
            exact fun hc => hjp hc.symm
          have hpts : ptsAt j (balSel subs (m + 1)).1
              = ptsAt j (balSel (balStep subs).2 m).1 := by
            rw [hsel1]
            exact ptsAt_cons_ne j _ _ htag
          refine ⟨?_, ?_, ?_, ?_⟩
          · rw [hsel2, hpts, ik, hne3]
          · rw [hpts]
            exact ind
          · rw [hpts]
            intro x hx
            have h6 := ifr x hx
            rw [hne3] at h6
            exact h6
          · rw [hsel2, hpts, ilen, hne3]

theorem sumKs_updAt : ∀ (l : List Learner1D) (i : ℕ)
    (g : Learner1D → Learner1D), i < l.length →
    (g (l.getD i dfltL)).keys.length = (l.getD i dfltL).keys.length + 1 →
    sumKs (updAt i g l) = sumKs l + 1 := by
  intro l
  induction l with
  | nil => intro i g hi _; exact absurd hi (Nat.not_lt_zero i)
  | cons a t ih =>
      intro i g hi hg
      cases i with
      | zero =>
          show (g a).keys.length + sumKs t = (a.keys.length + sumKs t) + 1
          have hg0 : (g a).keys.length = a.keys.length + 1 := hg
          omega
      | succ m =>
          show a.keys.length + sumKs (updAt m g t)
              = (a.keys.length + sumKs t) + 1
          have h1 : sumKs (updAt m g t) = sumKs t + 1 := by
            refine ih m g ?_ hg
            rw [List.length_cons] at hi
            omega
          omega

theorem balSel_sumKs (lo hi : ℚ) (hlh : lo < hi) :
    ∀ (n : ℕ) (subs : List Learner1D), subs ≠ [] → SelInv lo hi subs →
    CountsOK subs →
    sumKs (balSel subs n).2 = sumKs subs + n := by
  intro n
  induction n with
  | zero => intro subs _ _ _; rfl
  | succ m ih =>
      intro subs hne hinv hcnt
      have hplt := pickIdx_lt hne
      have hlen1 := balStep_len subs
      have hne2 : (balStep subs).2 ≠ [] := by
        intro hcon
        rw [hcon] at hlen1
        exact hne (List.length_eq_zero.1 hlen1.symm)
      have h1 : sumKs (balStep subs).2 = sumKs subs + 1 := by
        obtain ⟨_, hklen⟩ := balStep_pick_keys hlh hne hinv
        rw [balStep_getD_pick hne] at hklen
        exact sumKs_updAt subs _ _ hplt hklen
      have hrest := ih (balStep subs).2 hne2 (balStep_selInv hlh hne hinv)
        (balStep_counts hlh hne hinv hcnt)
      show sumKs (balSel (balStep subs).2 m).2 = sumKs subs + (m + 1)
      rw [hrest, h1]
      omega

theorem balRound_len (f : ℕ → ℚ → ℚ) :
    ∀ (l : List (ℕ × ℚ)) (subs : List Learner1D),
    (l.foldl (balTell f) subs).length = subs.length := by
  intro l
  induction l with
  | nil => intro subs; rfl
  | cons p rest ih =>
      intro subs
      show (rest.foldl (balTell f) (balTell f subs p)).length = _
      rw [ih (balTell f subs p)]
      exact updAt_length subs _ _

theorem foldl_balTell_getD (f : ℕ → ℚ → ℚ) :
    ∀ (l : List (ℕ × ℚ)) (subs : List Learner1D) (j : ℕ), j < subs.length →
    (l.foldl (balTell f) subs).getD j dfltL
      = (subs.getD j dfltL).tellList
          ((l.filter (fun p => p.1 == j)).map (fun p => (p.2, f p.1 p.2)))
    := by
  intro l
  induction l with
  | nil =>
      intro subs j _
      rfl
  | cons p rest ih =>
      intro subs j hj
      show (rest.foldl (balTell f) (balTell f subs p)).getD j dfltL = _
      have hlen2 : j < (balTell f subs p).length := by
        show j < (updAt p.1 _ subs).length
        rw [updAt_length]
        exact hj
      rw [ih (balTell f subs p) j hlen2]
      by_cases hpj : p.1 = j
      · subst hpj
        have hfilter : (p :: rest).filter (fun q => q.1 == p.1)
            = p :: rest.filter (fun q => q.1 == p.1) :=
          List.filter_cons_of_pos (by simp)
        have hstep : (balTell f subs p).getD p.1 dfltL
            = (subs.getD p.1 dfltL).tell p.2 (f p.1 p.2) := by
          show (updAt p.1 (fun s => s.tell p.2 (f p.1 p.2)) subs).getD p.1
              dfltL = _
          rw [getD_updAt_self dfltL subs p.1 _ hj]
        rw [hstep, hfilter, List.map_cons, Learner1D.tellList_cons]
      · have hfilter : (p :: rest).filter (fun q => q.1 == j)
            = rest.filter (fun q => q.1 == j) :=
          List.filter_cons_of_neg (by simp [hpj])
        have hstep : (balTell f subs p).getD j dfltL = subs.getD j dfltL :=
          getD_updAt_ne dfltL subs p.1 j _ (fun hc => hpj hc.symm)
        rw [hstep, hfilter]

theorem KInv_congr {st st2 : Learner1D} (h1 : st2.lo = st.lo)
    (h2 : st2.hi = st.hi) (h3 : st2.keys = st.keys) (hwf2 : st2.WF)
    (h : KInv st) : KInv st2 := by
  refine ⟨hwf2, ?_⟩
  rw [h1, h2, h3]
  exact h.2

theorem mem_insertPt {x : ℚ} {s : PointState} :
    ∀ (l : PtList) (q : ℚ × PointState), q ∈ insertPt x s l →
    q = (x, s) ∨ q ∈ l := by
  intro l
  induction l with
  | nil =>
      intro q hq
      rcases List.mem_cons.1 hq with h | h
      · exact Or.inl h
      · cases h
  | cons p rest ih =>
      intro q hq
      obtain ⟨a, t⟩ := p
      by_cases h1 : x < a
      · rw [insertPt, if_pos h1] at hq
        rcases List.mem_cons.1 hq with h | h
        · exact Or.inl h
        · exact Or.inr h
      · by_cases h2 : x = a
        · rw [insertPt, if_neg h1, if_pos h2] at hq
          rcases List.mem_cons.1 hq with h | h
          · exact Or.inl h
          · exact Or.inr (List.mem_cons_of_mem _ h)
        · rw [insertPt, if_neg h1, if_neg h2] at hq
          rcases List.mem_cons.1 hq with h | h
          · rw [h]
            exact Or.inr (List.mem_cons_self _ _)
          · rcases ih q h with h3 | h3
            · exact Or.inl h3
            · exact Or.inr (List.mem_cons_of_mem _ h3)

theorem allConfirmed_tell {st : Learner1D} (h : AllConfirmed st)
    (x y : ℚ) : AllConfirmed (st.tell x y) := by
  intro p hp
  rcases mem_insertPt st.pts p hp with h1 | h1
  · rw [h1]
    exact ⟨y, rfl⟩
  · exact h p h1

theorem allConfirmed_tellList :
    ∀ (ps : List (ℚ × ℚ)) (st : Learner1D), AllConfirmed st →
    AllConfirmed (st.tellList ps) := by
  intro ps
  induction ps with
  | nil => intro st h; exact h
  | cons p rest ih =>
      intro st h
      rw [Learner1D.tellList_cons]
      exact ih _ (allConfirmed_tell h p.1 p.2)

theorem balRound_getD (f : ℕ → ℚ → ℚ) (lo hi : ℚ) (hlh : lo < hi)
    {subs : List Learner1D} (hne : subs ≠ []) (hinv : SelInv lo hi subs)
    (hcnt : CountsOK subs) {n : ℕ} {told : List (ℕ × ℚ)}
    (hperm : told.Perm (balSel subs n).1) :
    ∀ j, j < subs.length →
    ((balRound f subs told).getD j dfltL).keys
      = ((balSel subs n).2.getD j dfltL).keys ∧
    ((balRound f subs told).getD j dfltL).lo = lo ∧
    ((balRound f subs told).getD j dfltL).hi = hi ∧
    KInv ((balRound f subs told).getD j dfltL) ∧
    (AllConfirmed (subs.getD j dfltL) →
      AllConfirmed ((balRound f subs told).getD j dfltL)) := by
  intro j hj
  obtain ⟨slen, sinv, scnt, skeys⟩ := balSel_props lo hi hlh n subs hne
    hinv hcnt
  obtain ⟨ik, ind, ifr, ilen⟩ := skeys j hj
  have hpermj : ((told.filter (fun p => p.1 == j)).map
        (fun p => (p.2, f p.1 p.2))).Perm
      ((((balSel subs n).1).filter (fun p => p.1 == j)).map
        (fun p => (p.2, f p.1 p.2))) :=
    List.Perm.map _ (List.Perm.filter _ hperm)
  have hfstq : (((((balSel subs n).1).filter (fun p => p.1 == j)).map
        (fun p => (p.2, f p.1 p.2))).map Prod.fst)
      = ptsAt j (balSel subs n).1 := by
    unfold ptsAt
    rw [List.map_map]
    refine List.map_congr_left ?_
    intro p _
    rfl
  have hnodq : (((((balSel subs n).1).filter (fun p => p.1 == j)).map
        (fun p => (p.2, f p.1 p.2))).map Prod.fst).Nodup := by
    rw [hfstq]
    exact ind
  obtain ⟨hlj, hhj, hkj⟩ := hinv _ (getD_mem dfltL subs hj)
  have hwfj : (subs.getD j dfltL).WF := hkj.1
  have hnodp : (((told.filter (fun p => p.1 == j)).map
        (fun p => (p.2, f p.1 p.2))).map Prod.fst).Nodup :=
    ((hpermj.map Prod.fst).symm).nodup hnodq
  have hroundj : (balRound f subs told).getD j dfltL
      = (subs.getD j dfltL).tellList
          ((((balSel subs n).1).filter (fun p => p.1 == j)).map
            (fun p => (p.2, f p.1 p.2))) := by
    show (told.foldl (balTell f) subs).getD j dfltL = _
    rw [foldl_balTell_getD f told subs j hj]
    exact Learner1D.tellList_perm hpermj _ hwfj hnodp
  have hkeq : ((balRound f subs told).getD j dfltL).keys
      = ((balSel subs n).2.getD j dfltL).keys := by
    rw [hroundj, keys_tellList, hfstq, ← ik]
  have hlor : ((balRound f subs told).getD j dfltL).lo = lo := by
    rw [hroundj, lo_tellList]
    exact hlj
  have hhir : ((balRound f subs told).getD j dfltL).hi = hi := by
    rw [hroundj, hi_tellList]
    exact hhj
  have hwfr : ((balRound f subs told).getD j dfltL).WF := by
    rw [hroundj]
    exact Learner1D.WF_tellList hwfj
  have hselj := sinv _ (getD_mem dfltL (balSel subs n).2
    (by rw [slen]; exact hj))
  have hkir : KInv ((balRound f subs told).getD j dfltL) := by
    refine KInv_congr ?_ ?_ hkeq hwfr hselj.2.2
    · rw [hlor]
      exact hselj.1.symm
    · rw [hhir]
      exact hselj.2.1.symm
  refine ⟨hkeq, hlor, hhir, hkir, ?_⟩
  intro hac
  rw [hroundj]
  exact allConfirmed_tellList _ _ hac

theorem countsOK_congr {s1 s2 : List Learner1D}
    (hlen : s1.length = s2.length)
    (h : ∀ j, j < s1.length →
      (s1.getD j dfltL).keys.length = (s2.getD j dfltL).keys.length) :
    CountsOK s2 → CountsOK s1 := by
  intro hc
  constructor
  · rintro ⟨j, hj, hj1⟩ j2 hj2
    rw [h j2 hj2]
    refine hc.1 ⟨j, ?_, ?_⟩ j2 ?_
    · rw [← hlen]
      exact hj
    · rw [← h j hj]
      exact hj1
    · rw [← hlen]
      exact hj2
  · intro a b ha hb h2b
    rw [h b hb] at h2b
    rw [h a ha, h b hb]
    exact hc.2 a b (hlen ▸ ha) (hlen ▸ hb) h2b

theorem sumKs_congr : ∀ (s1 s2 : List Learner1D), s1.length = s2.length →
    (∀ j, j < s1.length →
      (s1.getD j dfltL).keys.length = (s2.getD j dfltL).keys.length) →
    sumKs s1 = sumKs s2 := by
  intro s1
  induction s1 with
  | nil =>
      intro s2 hlen _
      have h2 : s2 = [] := List.length_eq_zero.1 hlen.symm
      rw [h2]
  | cons a t ih =>
      intro s2 hlen h
      cases s2 with
      | nil => cases hlen
      | cons b u =>
          have h0 : a.keys.length = b.keys.length := h 0 (by
            rw [List.length_cons]; omega)
          have ht : sumKs t = sumKs u := by
            refine ih u ?_ ?_
            · rw [List.length_cons, List.length_cons] at hlen
              omega
            · intro j hj
              refine h (j + 1) ?_
              rw [List.length_cons]
              omega
          show a.keys.length + sumKs t = b.keys.length + sumKs u
          omega

theorem balRound_inv (f : ℕ → ℚ → ℚ) (lo hi : ℚ) (hlh : lo < hi)
    {subs : List Learner1D} (hne : subs ≠ [])
    (hrinv : RoundInv lo hi subs) {n : ℕ} {told : List (ℕ × ℚ)}
    (hperm : told.Perm (balSel subs n).1) :
    RoundInv lo hi (balRound f subs told) ∧
    (balRound f subs told).length = subs.length ∧
    sumKs (balRound f subs told) = sumKs subs + n := by
  obtain ⟨hinv, hcnt, hac⟩ := hrinv
  have hlen : (balRound f subs told).length = subs.length :=
    balRound_len f told subs
  obtain ⟨slen, sinv, scnt, skeys⟩ := balSel_props lo hi hlh n subs hne
    hinv hcnt
  have hmain := balRound_getD f lo hi hlh hne hinv hcnt hperm
  have hlensel : (balRound f subs told).length
      = (balSel subs n).2.length := by
    rw [hlen, slen]
  have hkl : ∀ j, j < (balRound f subs told).length →
      ((balRound f subs told).getD j dfltL).keys.length
        = ((balSel subs n).2.getD j dfltL).keys.length := by
    intro j hj
    rw [hlen] at hj
    exact congrArg List.length (hmain j hj).1
  refine ⟨⟨?_, ?_, ?_⟩, hlen, ?_⟩
  · intro st hst
    obtain ⟨j, hj, hgd⟩ := (mem_iff_getD dfltL _ st).1 hst
    obtain ⟨_, hlo2, hhi2, hki2, _⟩ := hmain j (by rw [← hlen]; exact hj)
    rw [← hgd]
    exact ⟨hlo2, hhi2, hki2⟩
  · exact countsOK_congr hlensel (fun j hj => hkl j hj) scnt
  · intro st hst
    obtain ⟨j, hj, hgd⟩ := (mem_iff_getD dfltL _ st).1 hst
    have hj2 : j < subs.length := by rw [← hlen]; exact hj
    obtain ⟨_, _, _, _, hconf⟩ := hmain j hj2
    rw [← hgd]
    exact hconf (hac _ (getD_mem dfltL subs hj2))
  · rw [sumKs_congr _ _ hlensel (fun j hj => hkl j hj)]
    exact balSel_sumKs lo hi hlh n subs hne hinv hcnt

theorem balDrive_inv (f : ℕ → ℚ → ℚ) (lo hi : ℚ) (hlh : lo < hi) :
    ∀ (rounds : List (ℕ × List (ℕ × ℚ))) (subs : List Learner1D),
    subs ≠ [] → RoundInv lo hi subs → ValidRounds f subs rounds →
    RoundInv lo hi (balDrive f rounds subs) ∧
    (balDrive f rounds subs).length = subs.length ∧
    sumKs (balDrive f rounds subs)
      = sumKs subs + (rounds.map Prod.fst).sum := by
  intro rounds
  induction rounds with
  | nil =>
      intro subs _ hr _
      refine ⟨hr, rfl, ?_⟩
      show sumKs subs = sumKs subs + ([] : List ℕ).sum
      rw [List.sum_nil]
      omega
  | cons r rest ih =>
      intro subs hne hr hv
      obtain ⟨n, told⟩ := r
      cases hv with
      | cons _ _ _ _ hperm hvrest =>
          obtain ⟨hri, hlen, hsum⟩ := balRound_inv f lo hi hlh hne hr hperm
          have hne2 : balRound f subs told ≠ [] := by
            intro hcon
            rw [hcon] at hlen
            exact hne (List.length_eq_zero.1 hlen.symm)
          obtain ⟨hfi, hflen, hfsum⟩ := ih (balRound f subs told) hne2 hri
            hvrest
          refine ⟨hfi, ?_, ?_⟩
          · show (balDrive f rest (balRound f subs told)).length
                = subs.length
            rw [hflen, hlen]
          · show sumKs (balDrive f rest (balRound f subs told))
                = sumKs subs + (n :: rest.map Prod.fst).sum
            rw [hfsum, hsum, List.sum_cons]
            omega

/-- C9: coordinator liveness — a balancing coordinator over four fresh
sub-learners, run for 100 rounds that each ask between 1 and 10 points
with tell_pending false, tell some immediately and the stashed rest later
within the round in arbitrary order, leaves every sub-learner with more
than 10 confirmed points: the improvement-greedy pick keeps the counts
within a factor two, so nobody starves. -/
theorem coordinator_liveness (lo hi : ℚ) (hlh : lo < hi) (f : ℕ → ℚ → ℚ)
    (rounds : List (ℕ × List (ℕ × ℚ)))
    (hvalid : ValidRounds f (List.replicate 4 (Learner1D.init lo hi)) rounds)
    (hlen : rounds.length = 100)
    (hns : ∀ r ∈ rounds, 1 ≤ r.1 ∧ r.1 ≤ 10) :
    ∀ sub ∈ balDrive f rounds (List.replicate 4 (Learner1D.init lo hi)),
      10 < sub.npoints := by
  have hne0 : (List.replicate 4 (Learner1D.init lo hi) : List Learner1D)
      ≠ [] := by
    intro hcon
    have h1 := congrArg List.length hcon
    simp at h1
  have hinv0 : RoundInv lo hi (List.replicate 4 (Learner1D.init lo hi)) := by
    refine ⟨?_, ⟨?_, ?_⟩, ?_⟩
    · intro st hst
      have h1 : st = Learner1D.init lo hi := List.eq_of_mem_replicate hst
      subst h1
      exact ⟨rfl, rfl, KInv_init lo hi⟩
    · intro _ j hj
      have h2 : (List.replicate 4 (Learner1D.init lo hi)).getD j dfltL
          = Learner1D.init lo hi :=
        List.eq_of_mem_replicate (getD_mem dfltL _ hj)
      rw [h2]
      exact Nat.zero_le 2
    · intro a b _ hb h2b
      exfalso
      have h2 : (List.replicate 4 (Learner1D.init lo hi)).getD b dfltL
          = Learner1D.init lo hi :=
        List.eq_of_mem_replicate (getD_mem dfltL _ hb)
      rw [h2] at h2b
      have h3 : (Learner1D.init lo hi).keys.length = 0 := rfl
      omega
    · intro st hst
      have h1 : st = Learner1D.init lo hi := List.eq_of_mem_replicate hst
      subst h1
      intro p hp
      cases hp
  obtain ⟨⟨hfinv, hfcnt, hfac⟩, hflen, hfsum⟩ :=
    balDrive_inv f lo hi hlh rounds _ hne0 hinv0 hvalid
  have hsum0 : sumKs (List.replicate 4 (Learner1D.init lo hi)) = 0 := rfl
  have hDlen : (balDrive f rounds
      (List.replicate 4 (Learner1D.init lo hi))).length = 4 := by
    rw [hflen]
    rfl
  have htot : 100 ≤ sumKs (balDrive f rounds
      (List.replicate 4 (Learner1D.init lo hi))) := by
    rw [hfsum, hsum0]
    have h1 : ∀ x ∈ rounds.map Prod.fst, 1 ≤ x := by
      intro x hx
      obtain ⟨r, hr, rfl⟩ := List.mem_map.1 hx
      exact (hns r hr).1
    have h2 := List.card_nsmul_le_sum (rounds.map Prod.fst) 1 h1
    rw [List.length_map, hlen] at h2
    have h3 : (100 : ℕ) • 1 = 100 := rfl
    rw [h3] at h2
    omega
  intro sub hsub
  obtain ⟨j, hj, hgd⟩ := (mem_iff_getD dfltL _ sub).1 hsub
  by_cases hA : ∃ a, a < (balDrive f rounds
      (List.replicate 4 (Learner1D.init lo hi))).length ∧
      ((balDrive f rounds (List.replicate 4 (Learner1D.init lo hi))).getD
        a dfltL).keys.length ≤ 1
  · exfalso
    have hall2 := hfcnt.1 hA
    have h1 : ∀ x ∈ (balDrive f rounds
        (List.replicate 4 (Learner1D.init lo hi))).map
          (fun st => st.keys.length), x ≤ 2 := by
      intro x hx
      obtain ⟨st, hst, rfl⟩ := List.mem_map.1 hx
      obtain ⟨a, ha, hga⟩ := (mem_iff_getD dfltL _ st).1 hst
      rw [← hga]
      exact hall2 a ha
    have h2 := List.sum_le_card_nsmul _ 2 h1
    rw [List.length_map, hDlen] at h2
    have h3 : (4 : ℕ) • 2 = 8 := rfl
    rw [h3] at h2
    have h4 : sumKs (balDrive f rounds
        (List.replicate 4 (Learner1D.init lo hi))) ≤ 8 := h2
    omega
  · push_neg at hA
    have hkj2 : 2 ≤ ((balDrive f rounds
        (List.replicate 4 (Learner1D.init lo hi))).getD j dfltL).keys.length
      := by
      have := hA j hj
      omega
    have h1 : ∀ x ∈ (balDrive f rounds
        (List.replicate 4 (Learner1D.init lo hi))).map
          (fun st => st.keys.length),
        x ≤ 2 * ((balDrive f rounds
          (List.replicate 4 (Learner1D.init lo hi))).getD j
            dfltL).keys.length := by
      intro x hx
      obtain ⟨st, hst, rfl⟩ := List.mem_map.1 hx
      obtain ⟨a, ha, hga⟩ := (mem_iff_getD dfltL _ st).1 hst
      rw [← hga]
      exact hfcnt.2 a j ha hj hkj2
    have h2 := List.sum_le_card_nsmul _ _ h1
    rw [List.length_map, hDlen] at h2
    have h3 : ∀ m : ℕ, (4 : ℕ) • m = 4 * m := fun m => rfl
    rw [h3] at h2
    have h4 : sumKs (balDrive f rounds
        (List.replicate 4 (Learner1D.init lo hi)))
        ≤ 4 * (2 * ((balDrive f rounds
          (List.replicate 4 (Learner1D.init lo hi))).getD j
            dfltL).keys.length) := h2
    have hconf : AllConfirmed sub := hfac sub hsub
    have hnp : sub.npoints = sub.keys.length := npoints_eq_keys_length hconf
    rw [hnp, ← hgd]
    omega

theorem idRounds_valid (f : ℕ → ℚ → ℚ) :
    ∀ (k : ℕ) (subs : List Learner1D),
    ValidRounds f subs (idRounds f subs k) := by
  intro k
  induction k with
  | zero => intro subs; exact ValidRounds.nil subs
  | succ m ih =>
      intro subs
      exact ValidRounds.cons subs 1 (balSel subs 1).1 _
        (List.Perm.refl _) (ih _)

theorem idRounds_length (f : ℕ → ℚ → ℚ) :
    ∀ (k : ℕ) (subs : List Learner1D), (idRounds f subs k).length = k := by
  intro k
  induction k with
  | zero => intro subs; rfl
  | succ m ih =>
      intro subs
      show (idRounds f (balRound f subs (balSel subs 1).1) m).length + 1
          = m + 1
      rw [ih]

theorem idRounds_ns (f : ℕ → ℚ → ℚ) :
    ∀ (k : ℕ) (subs : List Learner1D),
    ∀ r ∈ idRounds f subs k, 1 ≤ r.1 ∧ r.1 ≤ 10 := by
  intro k
  induction k with
  | zero => intro subs r hr; cases hr
  | succ m ih =>
      intro subs r hr
      rcases List.mem_cons.1 hr with rfl | h2
      · exact ⟨le_refl 1, by norm_num⟩
      · exact ih _ r h2

/-- Concrete instance of the coordinator liveness claim: four sub-learners
on bounds 0 and 1, one hundred single-point rounds, identity told order. -/
theorem coordinator_liveness_witness :
    (idRounds (fun _ _ => 0)
        (List.replicate 4 (Learner1D.init 0 1)) 100).length = 100 ∧
      ∀ sub ∈ balDrive (fun _ _ => 0)
          (idRounds (fun _ _ => 0)
            (List.replicate 4 (Learner1D.init 0 1)) 100)
          (List.replicate 4 (Learner1D.init 0 1)),
        10 < sub.npoints :=
  ⟨idRounds_length (fun _ _ => 0) 100 _,
    coordinator_liveness 0 1 (by norm_num) (fun _ _ => 0)
      (idRounds (fun _ _ => 0) (List.replicate 4 (Learner1D.init 0 1)) 100)
      (idRounds_valid (fun _ _ => 0) 100 _)
      (idRounds_length (fun _ _ => 0) 100 _)
      (idRounds_ns (fun _ _ => 0) 100 _)⟩

end Adaptive
